import Mathlib

/-! Othello: rules engine and alpha-beta search.

A shallow embedding of `src/othello.cpp` (classes `Board`, `AIPlayer`, `Game`).

* `int` is modelled by `Int`.  The only arithmetic on scores is the sum of at most 64
  table weights of absolute value at most 100, so no machine overflow can occur.
* Member functions that may write to the object return the new object next to their
  result (explicit state passing); loops are folds over the values of their counters.
* The `while` loop of `TryFlip` is bounded by 8 tests; `walk_fuel` shows that any larger
  bound gives the same result.
* `Board::Clone` is also given on a store of `Board` objects (`CloneAt`), where the original
  and the returned copy are objects at two addresses.
* The rendering-only members (`flipProgress`, `validMoves`, drawing, score file) are left out.
-/

namespace Othello

/-! ## Data model -/

/-- Possible cell states: `enum Cell { EMPTY, Black_Disc, White_Disc }`. -/
inductive Cell where
  | EMPTY
  | Black_Disc
  | White_Disc
deriving DecidableEq, Repr

/-- Game outcomes: `enum GameResult { NONE, BLACK_WINS, WHITE_WINS, DRAW }`. -/
inductive GameResult where
  | NONE
  | BLACK_WINS
  | WHITE_WINS
  | DRAW
deriving DecidableEq, Repr

/-- One row of the array `Cell board[8][8]`. -/
abbrev Row := Mathlib.Vector Cell 8

/-- The array `Cell board[BOARD_SIZE][BOARD_SIZE]`. -/
abbrev Grid := Mathlib.Vector Row 8

/-- The data members of `class Board` that the rules use. -/
structure Board where
  board : Grid
  currentPlayer : Cell
deriving DecidableEq

/-- The constant `INT_MIN` of `<climits>` for a 32-bit `int`. -/
def INT_MIN : Int := -2147483648

/-- The constant `INT_MAX` of `<climits>` for a 32-bit `int`. -/
def INT_MAX : Int := 2147483647

/-- The values taken by a loop counter `for (int i = 0; i < BOARD_SIZE; i++)`. -/
def indices : List Int := [0, 1, 2, 3, 4, 5, 6, 7]

/-- The values taken by `for (int d = -1; d <= 1; d++)`. -/
def deltas : List Int := [-1, 0, 1]

/-- Array subscript: an `int` index that lies in `[0, 8)` as a position of the array. -/
def idx (i : Int) : Fin 8 := ⟨i.toNat % 8, Nat.mod_lt _ (by decide)⟩

/-- The read `board[y][x]`. -/
def cellAt (b : Board) (y x : Int) : Cell := (b.board.get (idx y)).get (idx x)

/-- The write `board[y][x] = v`. -/
def setCell (b : Board) (y x : Int) (v : Cell) : Board :=
  { b with board := b.board.set (idx y) ((b.board.get (idx y)).set (idx x) v) }

/-! ## class Board -/

/-- Method `Board::Initialize_Board`: clear all cells, then set the four centre discs. -/
def Initialize_Board (b : Board) : Board :=
  let cleared := indices.foldl
    (fun acc row => indices.foldl (fun acc2 col => setCell acc2 row col Cell.EMPTY) acc) b
  setCell (setCell (setCell (setCell cleared 3 3 Cell.White_Disc) 3 4 Cell.Black_Disc)
    4 3 Cell.Black_Disc) 4 4 Cell.White_Disc

/-- The constructor `Board::Board()`.  The array member is not initialised before
`Initialize_Board` runs; `storage` is whatever the memory held. -/
def Board.new (storage : Grid) : Board :=
  Initialize_Board { board := storage, currentPlayer := Cell.Black_Disc }

/-- Method `Board::Is_Within_Boundaries`. -/
def Is_Within_Boundaries (x y : Int) : Bool :=
  decide (x ≥ 0) && decide (x < 8) && decide (y ≥ 0) && decide (y < 8)

/-- The expression `currentPlayer == Black_Disc ? White_Disc : Black_Disc`. -/
def otherDisc (p : Cell) : Cell :=
  if p = Cell.Black_Disc then Cell.White_Disc else Cell.Black_Disc

/-- The `while` loop of `Board::TryFlip`: from `(cx, cy)` step by `(dx, dy)` while the cell
is on the board and holds the opposing colour.  Returns the final `(cx, cy, count)`.
The first argument bounds the number of loop tests. -/
def walk (b : Board) (dx dy : Int) : Nat → Int → Int → Nat → Int × Int × Nat
  | 0, cx, cy, count => (cx, cy, count)
  | fuel + 1, cx, cy, count =>
    if Is_Within_Boundaries cx cy && decide (cellAt b cy cx = otherDisc b.currentPlayer) then
      walk b dx dy fuel (cx + dx) (cy + dy) (count + 1)
    else (cx, cy, count)

/-- The `for (int i = 1; i <= count; i++)` loop of `Board::TryFlip`. -/
def flipRun (b : Board) (x y dx dy : Int) (count : Nat) : Board :=
  (List.range' 1 count).foldl
    (fun (acc : Board) (i : Nat) =>
      setCell acc (y + (i : Int) * dy) (x + (i : Int) * dx) acc.currentPlayer) b

/-- Method `Board::TryFlip(x, y, dx, dy, flip)`: result and board afterwards. -/
def TryFlip (b : Board) (x y dx dy : Int) (flip : Bool) : Bool × Board :=
  let w := walk b dx dy 8 (x + dx) (y + dy) 0
  if decide (w.2.2 > 0) && Is_Within_Boundaries w.1 w.2.1
      && decide (cellAt b w.2.1 w.1 = b.currentPlayer) then
    if flip then (true, flipRun b x y dx dy w.2.2) else (true, b)
  else (false, b)

/-- Method `Board::CanPlace(x, y, flip)`: result and board afterwards. -/
def CanPlace (b : Board) (x y : Int) (flip : Bool) : Bool × Board :=
  if cellAt b y x ≠ Cell.EMPTY then (false, b)
  else
    deltas.foldl (fun s dy => deltas.foldl (fun s2 dx =>
      if !(decide (dx = 0) && decide (dy = 0)) then
        let r := TryFlip s2.2 x y dx dy flip
        (s2.1 || r.1, r.2)
      else s2) s) (false, b)

/-- Method `Board::PlacePiece(x, y)`: the board afterwards. -/
def PlacePiece (b : Board) (x y : Int) : Board :=
  let r := CanPlace b x y true
  if r.1 then
    let b1 := setCell r.2 y x r.2.currentPlayer
    { b1 with currentPlayer := otherDisc b1.currentPlayer }
  else r.2

/-- Method `Board::IsValidMove(row, col, player)`: result and board afterwards. -/
def IsValidMove (b : Board) (row col : Int) (player : Cell) : Bool × Board :=
  if cellAt b row col ≠ Cell.EMPTY then (false, b)
  else
    let tempPlayer := b.currentPlayer
    let r := CanPlace { b with currentPlayer := player } col row false
    (r.1, { r.2 with currentPlayer := tempPlayer })

/-- Contents of the array member before the constructor body has run, as used for the
local `Board copy;` of `Clone`; `Initialize_Board` overwrites every cell of it. -/
def rawStorage : Grid := Mathlib.Vector.replicate 8 (Mathlib.Vector.replicate 8 Cell.EMPTY)

/-- Method `Board::Clone`: the copy returned. -/
def Clone (b : Board) : Board :=
  let copy := Board.new rawStorage
  let copy2 := indices.foldl
    (fun acc y => indices.foldl (fun acc2 x => setCell acc2 y x (cellAt b y x)) acc) copy
  { copy2 with currentPlayer := b.currentPlayer }

/-! ## class AIPlayer -/

/-- The table `weight[8][8]` of `AIPlayer::EvaluateBoard`. -/
def weight : List (List Int) :=
  [[100, -20, 10, 5, 5, 10, -20, 100],
   [-20, -50, -2, -2, -2, -2, -50, -20],
   [10, -2, 0, 0, 0, 0, -2, 10],
   [5, -2, 0, 0, 0, 0, -2, 5],
   [5, -2, 0, 0, 0, 0, -2, 5],
   [10, -2, 0, 0, 0, 0, -2, 10],
   [-20, -50, -2, -2, -2, -2, -50, -20],
   [100, -20, 10, 5, 5, 10, -20, 100]]

/-- The read `weight[y][x]`. -/
def weightAt (y x : Int) : Int := (weight.getD y.toNat []).getD x.toNat 0

/-- Method `AIPlayer::EvaluateBoard`. -/
def EvaluateBoard (b : Board) : Int :=
  indices.foldl (fun score y => indices.foldl (fun score2 x =>
    if cellAt b y x = Cell.Black_Disc then score2 + weightAt y x
    else if cellAt b y x = Cell.White_Disc then score2 - weightAt y x
    else score2) score) 0

/-- The local variables of `AIPlayer::Minimax` that its loops update, with the board. -/
structure SearchState where
  board : Board
  bestScore : Int
  moveAvailable : Bool
  alpha : Int
  beta : Int

/-- One pass through the body of the inner loop of `AIPlayer::Minimax` at `(x, y)`, up to
the test `beta <= alpha`; `child` is the recursive call at `depth - 1`.  The second
component tells whether the `break` statement is reached. -/
def minimaxCell (child : Board → Bool → Int → Int → Int) (isMax : Bool) (y x : Int)
    (s : SearchState) : SearchState × Bool :=
  if cellAt s.board y x = Cell.EMPTY then
    let r := CanPlace s.board x y isMax
    if r.1 then
      let newBoard := PlacePiece (Clone r.2) x y
      let score := child newBoard (!isMax) s.alpha s.beta
      let s1 : SearchState :=
        if isMax then
          let best := max s.bestScore score
          { board := r.2, bestScore := best, moveAvailable := true,
            alpha := max s.alpha best, beta := s.beta }
        else
          let best := min s.bestScore score
          { board := r.2, bestScore := best, moveAvailable := true,
            alpha := s.alpha, beta := min s.beta best }
      (s1, decide (s1.beta ≤ s1.alpha))
    else ({ s with board := r.2 }, false)
  else (s, false)

/-- The inner loop `for (int x = 0; x < BOARD_SIZE; x++)` of `AIPlayer::Minimax`, left by
`break` when `beta <= alpha` after a move was scored. -/
def minimaxRow (child : Board → Bool → Int → Int → Int) (isMax : Bool) (y : Int) :
    List Int → SearchState → SearchState
  | [], s => s
  | x :: xs, s =>
    let r := minimaxCell child isMax y x s
    if r.2 then r.1 else minimaxRow child isMax y xs r.1

/-- Method `AIPlayer::Minimax(board, depth, isMax, alpha, beta)`: the returned score.  The
recursive calls work on the local `newBoard`, which is discarded; the board argument itself
is left as the field `board` of the final loop state. -/
def Minimax (b : Board) : Nat → Bool → Int → Int → Int
  | 0, _, _, _ => EvaluateBoard b
  | depth + 1, isMax, alpha, beta =>
    let s0 : SearchState :=
      { board := b, bestScore := if isMax then INT_MIN else INT_MAX,
        moveAvailable := false, alpha := alpha, beta := beta }
    let s := indices.foldl
      (fun acc y => minimaxRow (fun nb m a c => Minimax nb depth m a c) isMax y indices acc) s0
    if s.moveAvailable then s.bestScore else EvaluateBoard s.board

/-- The local variables of `AIPlayer::MakeMove` that its loops update, with the board. -/
structure MoveState where
  board : Board
  bestScore : Int
  moveX : Int
  moveY : Int
deriving DecidableEq

/-- The body of the inner loop of `AIPlayer::MakeMove` at `(x, y)`. -/
def makeMoveCell (y x : Int) (s : MoveState) : MoveState :=
  if cellAt s.board y x = Cell.EMPTY then
    let r := CanPlace s.board x y false
    if r.1 then
      let newBoard := PlacePiece (Clone r.2) x y
      let score := Minimax newBoard 2 true INT_MIN INT_MAX
      if score > s.bestScore then
        { board := r.2, bestScore := score, moveX := x, moveY := y }
      else { s with board := r.2 }
    else { s with board := r.2 }
  else s

/-- The two nested loops of `AIPlayer::MakeMove`, started from `bestScore = INT_MIN`,
`moveX = moveY = -1`. -/
def searchMove (b : Board) : MoveState :=
  indices.foldl (fun acc y => indices.foldl (fun acc2 x => makeMoveCell y x acc2) acc)
    { board := b, bestScore := INT_MIN, moveX := -1, moveY := -1 }

/-- Method `AIPlayer::MakeMove(board, result, gameOver)`: the board afterwards (the two other
arguments are not used by the function; the message printed otherwise is left out). -/
def MakeMove (b : Board) : Board :=
  let s := searchMove b
  if s.moveX ≠ -1 ∧ s.moveY ≠ -1 then PlacePiece s.board s.moveX s.moveY else s.board

/-! ## class Game -/

/-- The data members of `class Game` that `CheckGameOver` reads or writes. -/
structure Game where
  board : Board
  gameOver : Bool
  result : GameResult
deriving DecidableEq

/-- The local variables of `Game::CheckGameOver` that its loops update, with the board. -/
structure ScanState where
  board : Board
  blackCount : Int
  whiteCount : Int
  blackCanMove : Bool
  whiteCanMove : Bool

/-- The body of the inner loop of `Game::CheckGameOver` at `(x, y)`. -/
def checkCell (y x : Int) (s : ScanState) : ScanState :=
  let s1 : ScanState :=
    if cellAt s.board y x = Cell.Black_Disc then { s with blackCount := s.blackCount + 1 }
    else if cellAt s.board y x = Cell.White_Disc then { s with whiteCount := s.whiteCount + 1 }
    else s
  if cellAt s1.board y x = Cell.EMPTY then
    let s2 : ScanState :=
      if !s1.blackCanMove then
        let temp := s1.board.currentPlayer
        let r := CanPlace { s1.board with currentPlayer := Cell.Black_Disc } x y false
        { s1 with board := { r.2 with currentPlayer := temp },
                  blackCanMove := if r.1 then true else s1.blackCanMove }
      else s1
    if !s2.whiteCanMove then
      let temp := s2.board.currentPlayer
      let r := CanPlace { s2.board with currentPlayer := Cell.White_Disc } x y false
      { s2 with board := { r.2 with currentPlayer := temp },
                whiteCanMove := if r.1 then true else s2.whiteCanMove }
    else s2
  else s1

/-- The two nested loops of `Game::CheckGameOver`. -/
def scanBoard (b : Board) : ScanState :=
  indices.foldl (fun acc y => indices.foldl (fun acc2 x => checkCell y x acc2) acc)
    { board := b, blackCount := 0, whiteCount := 0, blackCanMove := false,
      whiteCanMove := false }

/-- Method `Game::CheckGameOver` (the call of `SaveScore`, which only writes a file, is left out). -/
def CheckGameOver (g : Game) : Game :=
  let s := scanBoard g.board
  if !s.blackCanMove && !s.whiteCanMove then
    { board := s.board, gameOver := true,
      result := if s.blackCount > s.whiteCount then GameResult.BLACK_WINS
                else if s.whiteCount > s.blackCount then GameResult.WHITE_WINS
                else GameResult.DRAW }
  else if (decide (s.board.currentPlayer = Cell.Black_Disc) && !s.blackCanMove) ||
      (decide (s.board.currentPlayer = Cell.White_Disc) && !s.whiteCanMove) then
    { g with board := { s.board with currentPlayer := otherDisc s.board.currentPlayer } }
  else { g with board := s.board }

/-! ## Vocabulary of the specification -/

/-- The colour opposing a playing side: White for Black, Black for White. -/
def opposing : Cell → Cell
  | Cell.Black_Disc => Cell.White_Disc
  | Cell.White_Disc => Cell.Black_Disc
  | Cell.EMPTY => Cell.EMPTY

/-- Column `x` and row `y` both lie in `[0, 8)`. -/
def InBoard (x y : Int) : Prop := 0 ≤ x ∧ x < 8 ∧ 0 ≤ y ∧ y < 8

instance (x y : Int) : Decidable (InBoard x y) := by unfold InBoard; infer_instance

/-- One of the 8 unit directions: both components in `{-1, 0, 1}`, not both zero. -/
def UnitDir (dx dy : Int) : Prop :=
  (dx = -1 ∨ dx = 0 ∨ dx = 1) ∧ (dy = -1 ∨ dy = 0 ∨ dy = 1) ∧ ¬(dx = 0 ∧ dy = 0)

instance (dx dy : Int) : Decidable (UnitDir dx dy) := by unfold UnitDir; infer_instance

/-- From `(x, y)` in direction `(dx, dy)`: `k ≥ 1` cells of colour `opp` starting at the
adjacent cell, followed inside the board by a cell of colour `own`. -/
def RunOf (b : Board) (opp own : Cell) (x y dx dy : Int) (k : Nat) : Prop :=
  1 ≤ k ∧
  (∀ i : Nat, 1 ≤ i → i ≤ k →
    InBoard (x + (i : Int) * dx) (y + (i : Int) * dy) ∧
    cellAt b (y + (i : Int) * dy) (x + (i : Int) * dx) = opp) ∧
  InBoard (x + ((k : Int) + 1) * dx) (y + ((k : Int) + 1) * dy) ∧
  cellAt b (y + ((k : Int) + 1) * dy) (x + ((k : Int) + 1) * dx) = own

/-- A flippable run for `side`: from `(x, y)` in direction `(dx, dy)`, the `k ≥ 1` cells
starting at the adjacent one hold discs of the colour opposing `side`, and the next cell is
inside the board and holds a disc of `side`. -/
def FlippableRun (b : Board) (side : Cell) (x y dx dy : Int) (k : Nat) : Prop :=
  RunOf b (opposing side) side x y dx dy k

/-- Placing a disc of `side` at column `x`, row `y` is legal: the cell is empty and some
unit direction holds a flippable run. -/
def LegalFor (b : Board) (side : Cell) (x y : Int) : Prop :=
  cellAt b y x = Cell.EMPTY ∧
  ∃ dx dy : Int, ∃ k : Nat, UnitDir dx dy ∧ FlippableRun b side x y dx dy k

/-- The cell at row `r`, column `c` lies on a flippable run of `side` seen from `(x, y)`. -/
def OnFlippableRun (b : Board) (side : Cell) (x y r c : Int) : Prop :=
  ∃ dx dy : Int, ∃ k i : Nat, UnitDir dx dy ∧ FlippableRun b side x y dx dy k ∧
    1 ≤ i ∧ i ≤ k ∧ r = y + (i : Int) * dy ∧ c = x + (i : Int) * dx

/-- The 64 cells as `(row, column)` pairs, in row-major order. -/
def allCells : List (Int × Int) := indices.flatMap (fun y => indices.map (fun x => (y, x)))

/-- Number of cells of the grid that hold `v`. -/
def countDiscs (b : Board) (v : Cell) : Nat :=
  allCells.countP (fun p => decide (cellAt b p.1 p.2 = v))

/-- The board of a new game. -/
def initialBoard : Board := Board.new rawStorage

/-- Example position of the specification: a Light disc at (3,4), a Dark disc at (3,5),
all other cells empty, Dark to move. -/
def flipExample : Board :=
  setCell (setCell { board := rawStorage, currentPlayer := Cell.Black_Disc }
    3 4 Cell.White_Disc) 3 5 Cell.Black_Disc

/-! ## Auxiliary definitions: the direction loop of `CanPlace` -/

/-- The 8 directions in the order in which `CanPlace` visits them, as `(dx, dy)`. -/
def dirs : List (Int × Int) :=
  [(-1, -1), (0, -1), (1, -1), (-1, 0), (1, 0), (-1, 1), (0, 1), (1, 1)]

/-- One pass through the innermost statement of `CanPlace` for the direction `d = (dx, dy)`:
`valid |= TryFlip(x, y, dx, dy, flip)`. -/
def canPlaceStep (x y : Int) (flip : Bool) (s : Bool × Board) (d : Int × Int) : Bool × Board :=
  let r := TryFlip s.2 x y d.1 d.2 flip
  (s.1 || r.1, r.2)

/-- The cell at row `r`, column `c` lies on a run that the side to move of `b` outflanks
from `(x, y)` in one of the directions of `ds`. -/
def OnRunIn (b : Board) (x y : Int) (ds : List (Int × Int)) (r c : Int) : Prop :=
  ∃ d ∈ ds, ∃ k i : Nat, RunOf b (otherDisc b.currentPlayer) b.currentPlayer x y d.1 d.2 k ∧
    1 ≤ i ∧ i ≤ k ∧ r = y + (i : Int) * d.2 ∧ c = x + (i : Int) * d.1

/-- Invariant of the direction loop of `CanPlace` started on `b`: after the directions
`done`, the flag tells whether one of them holds a run, and (when flipping) exactly the
cells of their runs have been turned. -/
def DirInv (b : Board) (x y : Int) (flip : Bool) (done : List (Int × Int))
    (s : Bool × Board) : Prop :=
  s.2.currentPlayer = b.currentPlayer ∧
  (s.1 = true ↔ ∃ d ∈ done, ∃ k : Nat,
    RunOf b (otherDisc b.currentPlayer) b.currentPlayer x y d.1 d.2 k) ∧
  (∀ r c : Int, InBoard c r →
    ((flip = true ∧ OnRunIn b x y done r c) → cellAt s.2 r c = b.currentPlayer) ∧
    (¬ (flip = true ∧ OnRunIn b x y done r c) → cellAt s.2 r c = cellAt b r c))

/-! ## Auxiliary definitions: legal moves, example positions -/

/-- The side `side` has at least one legal placement on the board. -/
def HasLegalMove (b : Board) (side : Cell) : Prop :=
  ∃ x y : Int, InBoard x y ∧ LegalFor b side x y

/-- The test made by `CheckGameOver` at an empty cell `(x, y)` for the player `side`:
`CanPlace(x, y, false)` with `currentPlayer` temporarily set to `side`. -/
def canMoveAt (b : Board) (side : Cell) (y x : Int) : Bool :=
  decide (cellAt b y x = Cell.EMPTY) && (CanPlace { b with currentPlayer := side } x y false).1

/-- A row of the grid given by its 8 cells. -/
def rowOf (l : List Cell) (h : l.length = 8) : Row := ⟨l, h⟩

/-- An all-empty row. -/
def emptyRow : Row := Mathlib.Vector.replicate 8 Cell.EMPTY

/-- Apply a sequence of placements `(x, y)` with `PlacePiece`, one after the other. -/
def playMoves (b : Board) (moves : List (Int × Int)) : Board :=
  moves.foldl (fun acc m => PlacePiece acc m.1 m.2) b

/-- The position after the nine placements f5 d6 c5 f4 e7 f6 g5 e6 e3 from the initial
board: no White disc is left and White is to move. -/
def wipeoutBoard : Board :=
  { board := ⟨[emptyRow, emptyRow,
      rowOf [Cell.EMPTY, Cell.EMPTY, Cell.EMPTY, Cell.EMPTY,
             Cell.Black_Disc, Cell.EMPTY, Cell.EMPTY, Cell.EMPTY] rfl,
      rowOf [Cell.EMPTY, Cell.EMPTY, Cell.EMPTY, Cell.Black_Disc,
             Cell.Black_Disc, Cell.Black_Disc, Cell.EMPTY, Cell.EMPTY] rfl,
      rowOf [Cell.EMPTY, Cell.EMPTY, Cell.Black_Disc, Cell.Black_Disc,
             Cell.Black_Disc, Cell.Black_Disc, Cell.Black_Disc, Cell.EMPTY] rfl,
      rowOf [Cell.EMPTY, Cell.EMPTY, Cell.EMPTY, Cell.Black_Disc,
             Cell.Black_Disc, Cell.Black_Disc, Cell.EMPTY, Cell.EMPTY] rfl,
      rowOf [Cell.EMPTY, Cell.EMPTY, Cell.EMPTY, Cell.EMPTY,
             Cell.Black_Disc, Cell.EMPTY, Cell.EMPTY, Cell.EMPTY] rfl,
      emptyRow], rfl⟩,
    currentPlayer := Cell.White_Disc }

/-- A position in which White, to move, has no legal placement while Black has one. -/
def passBoard : Board :=
  setCell (setCell { board := rawStorage, currentPlayer := Cell.White_Disc }
    0 0 Cell.Black_Disc) 0 1 Cell.White_Disc

/-- A game in progress on the board `b`: `gameOver = false`, `result = NONE`. -/
def gameOn (b : Board) : Game := { board := b, gameOver := false, result := GameResult.NONE }

/-- The score `AIPlayer::MakeMove` gives to the move `(x, y)`:
`Minimax(board after the move, 2, true, INT_MIN, INT_MAX)`. -/
def moveScore (b : Board) (x y : Int) : Int :=
  Minimax (PlacePiece (Clone b) x y) 2 true INT_MIN INT_MAX

/-! ## The unpruned search and the relations between the two searches -/

/-- The inner loop of `AIPlayer::Minimax` with the statement `if (beta <= alpha) break;`
removed: every cell of the row is visited. -/
def noCutRow (child : Board → Bool → Int → Int → Int) (isMax : Bool) (y : Int) :
    List Int → SearchState → SearchState
  | [], s => s
  | x :: xs, s => noCutRow child isMax y xs (minimaxCell child isMax y x s).1

/-- The procedure `AIPlayer::Minimax` with the cutoff `if (beta <= alpha) break;` removed, in the recursive
calls too: the unpruned minimax over the same tree. -/
def MinimaxNoCut (b : Board) : Nat → Bool → Int → Int → Int
  | 0, _, _, _ => EvaluateBoard b
  | depth + 1, isMax, alpha, beta =>
    let s0 : SearchState :=
      { board := b, bestScore := if isMax then INT_MIN else INT_MAX,
        moveAvailable := false, alpha := alpha, beta := beta }
    let s := indices.foldl
      (fun acc y => noCutRow (fun nb m a c => MinimaxNoCut nb depth m a c) isMax y indices acc) s0
    if s.moveAvailable then s.bestScore else EvaluateBoard s.board

/-- The pruned and the unpruned search are in step: same board and flag, a window that is
still open, and best scores that agree as far as the window can tell. -/
def SyncRel (isMax : Bool) (a0 b0 : Int) (sp su : SearchState) : Prop :=
  sp.board = su.board ∧ sp.moveAvailable = su.moveAvailable ∧ sp.alpha < sp.beta ∧
  (if isMax then
    sp.beta = b0 ∧ sp.alpha = max a0 sp.bestScore ∧
    (su.bestScore ≤ a0 → sp.bestScore ≤ a0) ∧ (a0 < su.bestScore → sp.bestScore = su.bestScore)
  else
    sp.alpha = a0 ∧ sp.beta = min b0 sp.bestScore ∧
    (b0 ≤ su.bestScore → b0 ≤ sp.bestScore) ∧ (su.bestScore < b0 → sp.bestScore = su.bestScore))

/-- A move has been scored and the best score has left the window `(a0, b0)` on the side
on which it can only move further away. -/
def CutState (isMax : Bool) (a0 b0 : Int) (s : SearchState) : Prop :=
  s.moveAvailable = true ∧ (if isMax then b0 ≤ s.bestScore else s.bestScore ≤ a0)

/-- How a pruned score `p` for the window `(a, b)` relates to the unpruned score `u`. -/
def WindowRel (a b p u : Int) : Prop :=
  (u ≤ a → p ≤ a) ∧ (b ≤ u → b ≤ p) ∧ (a < u → u < b → p = u)

/-- The pruned search `cp` and the unpruned search `cu` of the children agree on every
window inside `[INT_MIN, INT_MAX]`. -/
def ChildAgree (cp cu : Board → Bool → Int → Int → Int) : Prop :=
  ∀ (b : Board) (m : Bool) (a c a2 c2 : Int), INT_MIN ≤ a → a < c → c ≤ INT_MAX →
    WindowRel a c (cp b m a c) (cu b m a2 c2)

/-- The locals of `AIPlayer::Minimax` after a move with result `score` has been scored:
`bestScore` and `alpha` (maximising) or `beta` (minimising) are updated; `nb` is the board
as `CanPlace` left it. -/
def scoredState (isMax : Bool) (s : SearchState) (nb : Board) (score : Int) : SearchState :=
  if isMax then
    { board := nb, bestScore := max s.bestScore score, moveAvailable := true,
      alpha := max s.alpha (max s.bestScore score), beta := s.beta }
  else
    { board := nb, bestScore := min s.bestScore score, moveAvailable := true,
      alpha := s.alpha, beta := min s.beta (min s.bestScore score) }

/-- A best score is either still the initial `INT_MIN` / `INT_MAX` (no move scored yet) or
within the range of `EvaluateBoard`. -/
def BoundState (isMax : Bool) (s : SearchState) : Prop :=
  (s.moveAvailable = true → -6400 ≤ s.bestScore ∧ s.bestScore ≤ 6400) ∧
  (s.moveAvailable = false → s.bestScore = if isMax then INT_MIN else INT_MAX)

/-! ## Evaluation forms of the search and positions reached in play -/

/-- The body of the inner loop of `AIPlayer::Minimax` with the copy made by `Clone`
replaced by the board itself (a clone equals its original); used to evaluate the search on
concrete positions. -/
def directCell (child : Board → Bool → Int → Int → Int) (isMax : Bool) (y x : Int)
    (s : SearchState) : SearchState × Bool :=
  if cellAt s.board y x = Cell.EMPTY then
    let r := CanPlace s.board x y isMax
    if r.1 then
      let s1 := scoredState isMax s r.2 (child (PlacePiece r.2 x y) (!isMax) s.alpha s.beta)
      (s1, decide (s1.beta ≤ s1.alpha))
    else ({ s with board := r.2 }, false)
  else (s, false)

/-- The inner loop of `AIPlayer::Minimax` over `directCell`. -/
def directRow (child : Board → Bool → Int → Int → Int) (isMax : Bool) (y : Int) :
    List Int → SearchState → SearchState
  | [], s => s
  | x :: xs, s =>
    let r := directCell child isMax y x s
    if r.2 then r.1 else directRow child isMax y xs r.1

/-- The procedure `AIPlayer::Minimax` over `directCell`. -/
def MinimaxDirect (b : Board) : Nat → Bool → Int → Int → Int
  | 0, _, _, _ => EvaluateBoard b
  | depth + 1, isMax, alpha, beta =>
    let s0 : SearchState :=
      { board := b, bestScore := if isMax then INT_MIN else INT_MAX,
        moveAvailable := false, alpha := alpha, beta := beta }
    let s := indices.foldl
      (fun acc y => directRow (fun nb m a c => MinimaxDirect nb depth m a c) isMax y indices acc) s0
    if s.moveAvailable then s.bestScore else EvaluateBoard s.board

/-- The position after the placements d3 c3 b3 from the initial board (Black, White,
Black): White is to move. -/
def whiteToMove : Board :=
  { board := ⟨[emptyRow, emptyRow,
      rowOf [Cell.EMPTY, Cell.Black_Disc, Cell.Black_Disc, Cell.Black_Disc,
             Cell.EMPTY, Cell.EMPTY, Cell.EMPTY, Cell.EMPTY] rfl,
      rowOf [Cell.EMPTY, Cell.EMPTY, Cell.EMPTY, Cell.White_Disc,
             Cell.Black_Disc, Cell.EMPTY, Cell.EMPTY, Cell.EMPTY] rfl,
      rowOf [Cell.EMPTY, Cell.EMPTY, Cell.EMPTY, Cell.Black_Disc,
             Cell.White_Disc, Cell.EMPTY, Cell.EMPTY, Cell.EMPTY] rfl,
      emptyRow, emptyRow, emptyRow], rfl⟩,
    currentPlayer := Cell.White_Disc }

/-- The position after White has answered `whiteToMove` at b2 (`x = 1, y = 1`): Black is to
move.  It is the board on which `MakeMove` calls `Minimax(newBoard, 2, true, ...)` when it
scores that answer. -/
def afterB2 : Board :=
  { board := ⟨[emptyRow,
      rowOf [Cell.EMPTY, Cell.White_Disc, Cell.EMPTY, Cell.EMPTY,
             Cell.EMPTY, Cell.EMPTY, Cell.EMPTY, Cell.EMPTY] rfl,
      rowOf [Cell.EMPTY, Cell.Black_Disc, Cell.White_Disc, Cell.Black_Disc,
             Cell.EMPTY, Cell.EMPTY, Cell.EMPTY, Cell.EMPTY] rfl,
      rowOf [Cell.EMPTY, Cell.EMPTY, Cell.EMPTY, Cell.White_Disc,
             Cell.Black_Disc, Cell.EMPTY, Cell.EMPTY, Cell.EMPTY] rfl,
      rowOf [Cell.EMPTY, Cell.EMPTY, Cell.EMPTY, Cell.Black_Disc,
             Cell.White_Disc, Cell.EMPTY, Cell.EMPTY, Cell.EMPTY] rfl,
      emptyRow, emptyRow, emptyRow], rfl⟩,
    currentPlayer := Cell.Black_Disc }

/-- The legal placements of the side to move, as `(row, column)` pairs in row-major order. -/
def legalMoves (b : Board) : List (Int × Int) :=
  allCells.filter (fun p => canMoveAt b b.currentPlayer p.1 p.2)

/-- For every legal move `m` of the side to move, in row-major order, the score
`Minimax(b_m, depth, !isMax, INT_MIN, INT_MAX)` of the board `b_m` obtained from a clone of
`b` by applying `m`. -/
def childScores (b : Board) (depth : Nat) (isMax : Bool) : List Int :=
  (legalMoves b).map
    (fun p => Minimax (PlacePiece (Clone b) p.2 p.1) depth (!isMax) INT_MIN INT_MAX)

/-- The position after White has answered `whiteToMove` at e3 (`x = 4, y = 2`): Black is to
move. -/
def afterE3 : Board :=
  { board := ⟨[emptyRow, emptyRow,
      rowOf [Cell.EMPTY, Cell.Black_Disc, Cell.Black_Disc, Cell.Black_Disc,
             Cell.White_Disc, Cell.EMPTY, Cell.EMPTY, Cell.EMPTY] rfl,
      rowOf [Cell.EMPTY, Cell.EMPTY, Cell.EMPTY, Cell.White_Disc,
             Cell.White_Disc, Cell.EMPTY, Cell.EMPTY, Cell.EMPTY] rfl,
      rowOf [Cell.EMPTY, Cell.EMPTY, Cell.EMPTY, Cell.Black_Disc,
             Cell.White_Disc, Cell.EMPTY, Cell.EMPTY, Cell.EMPTY] rfl,
      emptyRow, emptyRow, emptyRow], rfl⟩,
    currentPlayer := Cell.Black_Disc }

/-! ## Instrumented code: calls, reads and writes -/

/-- The body of the inner loop of `AIPlayer::MakeMove` at `(x, y)`, with the list of the
boards on which `Minimax` has been called so far as a second component. -/
def makeMoveCellLog (y x : Int) (s : MoveState × List Board) : MoveState × List Board :=
  if cellAt s.1.board y x = Cell.EMPTY then
    let r := CanPlace s.1.board x y false
    if r.1 then
      let newBoard := PlacePiece (Clone r.2) x y
      let score := Minimax newBoard 2 true INT_MIN INT_MAX
      if score > s.1.bestScore then
        (⟨r.2, score, x, y⟩, s.2 ++ [newBoard])
      else ({ s.1 with board := r.2 }, s.2 ++ [newBoard])
    else ({ s.1 with board := r.2 }, s.2)
  else s

/-- The two nested loops of `AIPlayer::MakeMove` with the list of the boards on which
`Minimax` is called. -/
def searchMoveLog (b : Board) : MoveState × List Board :=
  indices.foldl (fun acc y => indices.foldl (fun acc2 x => makeMoveCellLog y x acc2) acc)
    (⟨b, INT_MIN, -1, -1⟩, [])

/-- The `while` loop of `Board::TryFlip` with, as a second component, the list of the grid
subscripts `(row, column)` it has used.  In the loop condition
`Is_Within_Boundaries(cx, cy) && board[cy][cx] == ...` the cell is read only after the
first test has succeeded. -/
def walkLog (b : Board) (dx dy : Int) :
    Nat → Int → Int → Nat → List (Int × Int) → (Int × Int × Nat) × List (Int × Int)
  | 0, cx, cy, count, log => ((cx, cy, count), log)
  | fuel + 1, cx, cy, count, log =>
    if Is_Within_Boundaries cx cy then
      if cellAt b cy cx = otherDisc b.currentPlayer then
        walkLog b dx dy fuel (cx + dx) (cy + dy) (count + 1) (log ++ [(cy, cx)])
      else ((cx, cy, count), log ++ [(cy, cx)])
    else ((cx, cy, count), log)

/-- Method `Board::TryFlip` with the list of the grid subscripts `(row, column)` it uses:
the reads of the loop, the read `board[cy][cx]` of the test after the loop (made only when
`count > 0` and `Is_Within_Boundaries(cx, cy)` hold), and the writes
`board[y + i * dy][x + i * dx]` (and `flipProgress` at the same place) for `i = 1..count`. -/
def TryFlipLog (b : Board) (x y dx dy : Int) (flip : Bool) : (Bool × Board) × List (Int × Int) :=
  let w := walkLog b dx dy 8 (x + dx) (y + dy) 0 []
  if decide (w.1.2.2 > 0) && Is_Within_Boundaries w.1.1 w.1.2.1 then
    let log1 := w.2 ++ [(w.1.2.1, w.1.1)]
    if cellAt b w.1.2.1 w.1.1 = b.currentPlayer then
      if flip then
        ((true, flipRun b x y dx dy w.1.2.2),
          log1 ++ (List.range' 1 w.1.2.2).map
            (fun (i : Nat) => (y + (i : Int) * dy, x + (i : Int) * dx)))
      else ((true, b), log1)
    else ((false, b), log1)
  else ((false, b), w.2)

/-- One pass through the innermost statement of `CanPlace` for the direction `d = (dx, dy)`,
with the subscripts used. -/
def canPlaceStepLog (x y : Int) (flip : Bool) (s : (Bool × Board) × List (Int × Int))
    (d : Int × Int) : (Bool × Board) × List (Int × Int) :=
  let r := TryFlipLog s.1.2 x y d.1 d.2 flip
  ((s.1.1 || r.1.1, r.1.2), s.2 ++ r.2)

/-- Method `Board::CanPlace` with the list of the grid subscripts `(row, column)` it uses,
starting with the read `board[y][x]`. -/
def CanPlaceLog (b : Board) (x y : Int) (flip : Bool) : (Bool × Board) × List (Int × Int) :=
  if cellAt b y x ≠ Cell.EMPTY then ((false, b), [(y, x)])
  else
    deltas.foldl (fun s dy => deltas.foldl (fun s2 dx =>
      if !(decide (dx = 0) && decide (dy = 0)) then canPlaceStepLog x y flip s2 (dx, dy)
      else s2) s) ((false, b), [(y, x)])

/-- Method `Board::PlacePiece` with the list of the grid subscripts `(row, column)` it uses:
those of `CanPlace(x, y, true)`, then the write `board[y][x]`. -/
def PlacePieceLog (b : Board) (x y : Int) : Board × List (Int × Int) :=
  let r := CanPlaceLog b x y true
  if r.1.1 then
    let b1 := setCell r.1.2 y x r.1.2.currentPlayer
    ({ b1 with currentPlayer := otherDisc b1.currentPlayer }, r.2 ++ [(y, x)])
  else (r.1.2, r.2)

/-! ## Enumeration order and the symmetries of the grid -/

/-- The cell `p` comes before the cell `q` in row-major order; cells are `(row, column)`. -/
def cellBefore (p q : Int × Int) : Prop := p.1 < q.1 ∨ (p.1 = q.1 ∧ p.2 < q.2)

instance (p q : Int × Int) : Decidable (cellBefore p q) := by unfold cellBefore; infer_instance

/-- The colour-swapped grid: every Black disc replaced by White and every White by Black,
EMPTY cells kept. -/
def swapColours (b : Board) : Board :=
  { b with board := b.board.map (fun row => row.map opposing) }

/-- The grid whose cell `(i, j)` is the cell `f i j` of `g`. -/
def remapGrid (f : Fin 8 → Fin 8 → Fin 8 × Fin 8) (g : Grid) : Grid :=
  Mathlib.Vector.ofFn (fun i => Mathlib.Vector.ofFn (fun j => (g.get (f i j).1).get (f i j).2))

/-- The board reflected in the main diagonal: rows and columns exchanged. -/
def transposeBoard (b : Board) : Board :=
  { b with board := remapGrid (fun i j => (j, i)) b.board }

/-- The board reflected top to bottom: row `y` becomes row `7 - y`. -/
def flipRows (b : Board) : Board :=
  { b with board := remapGrid (fun i j => (Fin.rev i, j)) b.board }

/-- The board reflected left to right: column `x` becomes column `7 - x`. -/
def flipCols (b : Board) : Board :=
  { b with board := remapGrid (fun i j => (i, Fin.rev j)) b.board }

/-- The 8 rotated or reflected images of a board: the four without and the four with an
exchange of rows and columns (identity, two reflections, half turn; diagonal reflection, two
quarter turns, anti-diagonal reflection). -/
def symmetricImages (b : Board) : List Board :=
  [b, flipRows b, flipCols b, flipRows (flipCols b),
   transposeBoard b, transposeBoard (flipRows b), transposeBoard (flipCols b),
   transposeBoard (flipRows (flipCols b))]

/-- What the cell `p = (row, column)` adds to the score of `EvaluateBoard`. -/
def cellValue (b : Board) (p : Int × Int) : Int :=
  if cellAt b p.1 p.2 = Cell.Black_Disc then weightAt p.1 p.2
  else if cellAt b p.1 p.2 = Cell.White_Disc then - weightAt p.1 p.2
  else 0

/-! ## The board after a search, and the unused query `HasValidMove` -/

/-- The two nested loops of `AIPlayer::Minimax` at depth `depth + 1`: the values of the
locals, and of the board argument, when the loops are left. -/
def minimaxLoops (b : Board) (depth : Nat) (isMax : Bool) (alpha beta : Int) : SearchState :=
  indices.foldl
    (fun acc y => minimaxRow (fun nb m a c => Minimax nb depth m a c) isMax y indices acc)
    { board := b, bestScore := if isMax then INT_MIN else INT_MAX,
      moveAvailable := false, alpha := alpha, beta := beta }

/-- Method `AIPlayer::Minimax(board, depth, isMax, alpha, beta)`: the returned score together
with the object `board`, which is passed by reference, as the call leaves it. -/
def MinimaxRun (b : Board) : Nat → Bool → Int → Int → Int × Board
  | 0, _, _, _ => (EvaluateBoard b, b)
  | d + 1, isMax, alpha, beta =>
    let s := minimaxLoops b d isMax alpha beta
    (if s.moveAvailable then s.bestScore else EvaluateBoard s.board, s.board)

/-- The body of the inner loop of `Board::HasValidMove(isWhite)` at `(x, y)`.  The first
component tells whether `return true` has been executed; once it has, nothing more is done. -/
def hasValidMoveCell (isWhite : Bool) (y x : Int) (s : Bool × Board) : Bool × Board :=
  if s.1 then s
  else if cellAt s.2 y x = Cell.EMPTY then CanPlace s.2 x y isWhite
  else s

/-- Method `Board::HasValidMove(isWhite)`: result and board afterwards.  The loops return
`true` at the first empty cell where `CanPlace(x, y, isWhite)` holds, and `false` is returned
after the loops. -/
def HasValidMove (b : Board) (isWhite : Bool) : Bool × Board :=
  indices.foldl (fun acc y => indices.foldl (fun acc2 x => hasValidMoveCell isWhite y x acc2) acc)
    (false, b)

/-- The player that the argument of `HasValidMove` selects: White when `isWhite` is true,
Black when it is false. -/
def selectedPlayer (isWhite : Bool) : Cell :=
  if isWhite then Cell.White_Disc else Cell.Black_Disc

/-! ## Disc counts and sequences of placements -/

/-- The cells `(row, column)` that hold a disc on `b` and a disc of the other colour on
`b2`: the discs flipped between the two boards. -/
def flippedCells (b b2 : Board) : List (Int × Int) :=
  allCells.filter (fun p =>
    decide (cellAt b p.1 p.2 ≠ Cell.EMPTY) && decide (cellAt b2 p.1 p.2 ≠ cellAt b p.1 p.2))

/-- Number of non-EMPTY cells of the grid. -/
def countOccupied (b : Board) : Nat :=
  allCells.countP (fun p => decide (cellAt b p.1 p.2 ≠ Cell.EMPTY))

/-- What changes the board in the course of a game: a call `PlacePiece(x, y)`, or the pass
made by `CheckGameOver` (the statement `board.currentPlayer = ... ? White_Disc : Black_Disc`). -/
inductive Turn where
  | place (x y : Int)
  | pass
deriving DecidableEq, Repr

/-- The board after a turn. -/
def applyTurn (b : Board) : Turn → Board
  | Turn.place x y => PlacePiece b x y
  | Turn.pass => { b with currentPlayer := otherDisc b.currentPlayer }

/-- The turn is a successful placement: the test `CanPlace(x, y, true)` of `PlacePiece` holds. -/
def turnPlaces (b : Board) : Turn → Bool
  | Turn.place x y => (CanPlace b x y true).1
  | Turn.pass => false

/-- The coordinates of a placement lie on the board. -/
def turnInRange : Turn → Prop
  | Turn.place x y => InBoard x y
  | Turn.pass => True

/-- Number of successful placements when the turns `ts` are applied one after the other,
starting from `b`. -/
def successfulPlacements (b : Board) : List Turn → Nat
  | [] => 0
  | t :: ts => (if turnPlaces b t then 1 else 0) + successfulPlacements (applyTurn b t) ts

/-! ## Players and the input handler of `class Game` -/

/-- Method `HumanPlayer::MakeMove`: the board afterwards.  The argument `click` is the cell
`(x, y)` under the mouse when the left button was pressed in this frame, `none` when it was
not pressed. -/
def HumanMakeMove (b : Board) (click : Option (Int × Int)) : Board :=
  match click with
  | none => b
  | some (x, y) =>
    if Is_Within_Boundaries x y then
      let r := CanPlace b x y false
      if r.1 then PlacePiece r.2 x y else r.2
    else b

/-- The two classes derived from `Player`. -/
inductive PlayerKind where
  | human
  | computer
deriving DecidableEq, Repr

/-- The virtual call `currentPlayer->MakeMove(board, result, gameOver)`. -/
def playerMakeMove (k : PlayerKind) (b : Board) (click : Option (Int × Int)) : Board :=
  match k with
  | PlayerKind.human => HumanMakeMove b click
  | PlayerKind.computer => MakeMove b

/-- What one call of `Game::HandleInput` gets from outside: the mouse click of the frame, and
whether the computer's turn is due (`aiThinking` is set and the delay `aiDelay` has passed). -/
structure Frame where
  click : Option (Int × Int)
  aiDue : Bool

/-- Method `Game::HandleInput`, with `blackPlayer` a `HumanPlayer` and `whitePlayer` an
`AIPlayer` when `vsAI` holds and a `HumanPlayer` otherwise, as `InitPlayers` sets them. -/
def HandleInput (vsAI : Bool) (g : Game) (f : Frame) : Game :=
  if g.gameOver then g
  else
    let blackPlayer := PlayerKind.human
    let whitePlayer := if vsAI then PlayerKind.computer else PlayerKind.human
    let currentPlayer := if g.board.currentPlayer = Cell.Black_Disc then blackPlayer else whitePlayer
    if vsAI && decide (g.board.currentPlayer = Cell.White_Disc) then
      if f.aiDue then
        CheckGameOver { g with board := playerMakeMove currentPlayer g.board f.click }
      else g
    else CheckGameOver { g with board := playerMakeMove currentPlayer g.board f.click }

/-- The game after the calls of `HandleInput` for the frames `fs`, from a new game. -/
def playGame (vsAI : Bool) (fs : List Frame) : Game :=
  fs.foldl (HandleInput vsAI) (gameOn initialBoard)

/-! ## Objects and references: `Clone` on a store of `Board` objects -/

/-- The `Board` objects of a program state: the object at each address, and the first
address not yet in use.  A `Board` holds its array `Cell board[8][8]` and `currentPlayer`
inside the object, so what an address holds is a value of `Board`; an address beyond the
objects in use holds whatever the memory contains. -/
structure Store where
  obj : Nat → Board
  next : Nat

/-- The store with the object at address `a` replaced by `v`. -/
def Store.put (s : Store) (a : Nat) (v : Board) : Store :=
  { s with obj := fun n => if n = a then v else s.obj n }

/-- The declaration `Board copy;`: a new object at the first unused address, built by the
constructor `Board::Board()` on the memory found there.  Returns the store and the address of
the new object. -/
def declareBoard (s : Store) : Store × Nat :=
  ({ obj := fun n => if n = s.next then Board.new (s.obj s.next).board else s.obj n,
     next := s.next + 1 }, s.next)

/-- Method `Board::Clone` called on the object at address `self`: declares the local `copy`,
executes `copy.board[y][x] = board[y][x]` for the 64 cells (a read of the object `self`, a
write to the object `copy`), then `copy.currentPlayer = currentPlayer`, and returns `copy`.
Returns the store and the address of the returned object, which the caller holds as
`newBoard`. -/
def CloneAt (s : Store) (self : Nat) : Store × Nat :=
  let d := declareBoard s
  let copy := d.2
  let s2 := indices.foldl (fun acc y => indices.foldl (fun acc2 x =>
    acc2.put copy (setCell (acc2.obj copy) y x (cellAt (acc2.obj self) y x))) acc) d.1
  (s2.put copy { s2.obj copy with currentPlayer := (s2.obj self).currentPlayer }, copy)

/-- The call `obj.PlacePiece(x, y)` on the object at address `a`: `PlacePiece` reads and
writes members of its own object only. -/
def PlacePieceAt (s : Store) (a : Nat) (x y : Int) : Store :=
  s.put a (PlacePiece (s.obj a) x y)

/-- A store with one object in use, a new board at address 0; the other addresses hold
memory not yet initialised. -/
def oneBoardStore : Store :=
  { obj := fun n => if n = 0 then initialBoard
                    else { board := rawStorage, currentPlayer := Cell.EMPTY },
    next := 1 }

/-! ## Theorems -/

theorem inb_iff (x y : Int) : Is_Within_Boundaries x y = true ↔ InBoard x y := by
  simp [Is_Within_Boundaries, InBoard, and_assoc]

theorem idx_inj {i j : Int} (hi : 0 ≤ i ∧ i < 8) (hj : 0 ≤ j ∧ j < 8) :
    idx i = idx j ↔ i = j := by
  constructor
  · intro h
    have h1 : i.toNat % 8 = j.toNat % 8 := congrArg Fin.val h
    omega
  · intro h; rw [h]

theorem idx_coe (i : Fin 8) : idx ((i : Nat) : Int) = i := by
  apply Fin.ext
  simp [idx, Nat.mod_eq_of_lt i.isLt]

theorem setCell_currentPlayer (b : Board) (y x : Int) (v : Cell) :
    (setCell b y x v).currentPlayer = b.currentPlayer := rfl

theorem cellAt_setCell (b : Board) {y x r c : Int} (h : InBoard x y) (h2 : InBoard c r)
    (v : Cell) :
    cellAt (setCell b y x v) r c = if r = y ∧ c = x then v else cellAt b r c := by
  unfold InBoard at h h2
  unfold cellAt setCell
  simp only
  by_cases hr : r = y
  · subst hr
    rw [Mathlib.Vector.get_set_same]
    by_cases hc : c = x
    · subst hc; simp [Mathlib.Vector.get_set_same]
    · have : idx x ≠ idx c := fun e => hc ((idx_inj ⟨h.1, h.2.1⟩ ⟨h2.1, h2.2.1⟩).1 e).symm
      rw [Mathlib.Vector.get_set_of_ne this]
      simp [hc]
  · have : idx y ≠ idx r := fun e => hr ((idx_inj ⟨h.2.2.1, h.2.2.2⟩ ⟨h2.2.2.1, h2.2.2.2⟩).1 e).symm
    rw [Mathlib.Vector.get_set_of_ne this]
    simp [hr]

theorem board_ext {b c : Board} (hp : b.currentPlayer = c.currentPlayer)
    (h : ∀ y x : Int, InBoard x y → cellAt b y x = cellAt c y x) : b = c := by
  cases b with
  | mk g p =>
    cases c with
    | mk g2 p2 =>
      simp only at hp
      subst hp
      congr 1
      apply Mathlib.Vector.ext
      intro i
      apply Mathlib.Vector.ext
      intro j
      have := h ((i : Nat) : Int) ((j : Nat) : Int)
        ⟨by omega, by have := j.isLt; omega, by omega, by have := i.isLt; omega⟩
      simpa [cellAt, idx_coe] using this

theorem otherDisc_ne (p : Cell) : otherDisc p ≠ p := by
  cases p <;> simp [otherDisc]

theorem otherDisc_eq_opposing {p : Cell} (h : p ≠ Cell.EMPTY) : otherDisc p = opposing p := by
  cases p <;> simp_all [otherDisc, opposing]

theorem walk_spec (b : Board) (dx dy : Int) : ∀ (fuel : Nat) (cx cy : Int) (count : Nat),
    ∃ n : Nat, n ≤ fuel ∧
      walk b dx dy fuel cx cy count = (cx + (n : Int) * dx, cy + (n : Int) * dy, count + n) ∧
      (∀ j : Nat, j < n → InBoard (cx + (j : Int) * dx) (cy + (j : Int) * dy) ∧
        cellAt b (cy + (j : Int) * dy) (cx + (j : Int) * dx) = otherDisc b.currentPlayer) ∧
      (n < fuel → ¬ (InBoard (cx + (n : Int) * dx) (cy + (n : Int) * dy) ∧
        cellAt b (cy + (n : Int) * dy) (cx + (n : Int) * dx) = otherDisc b.currentPlayer)) := by
  intro fuel
  induction fuel with
  | zero =>
    intro cx cy count
    exact ⟨0, le_refl _, by simp [walk], fun j hj => absurd hj (Nat.not_lt_zero j),
      fun h => absurd h (Nat.lt_irrefl 0)⟩
  | succ f ih =>
    intro cx cy count
    by_cases hc : InBoard cx cy ∧ cellAt b cy cx = otherDisc b.currentPlayer
    · obtain ⟨n, hn, hw, hall, hstop⟩ := ih (cx + dx) (cy + dy) (count + 1)
      refine ⟨n + 1, Nat.succ_le_succ hn, ?_, ?_, ?_⟩
      · have hcond : (Is_Within_Boundaries cx cy &&
            decide (cellAt b cy cx = otherDisc b.currentPlayer)) = true := by
          simp [inb_iff, hc.1, hc.2]
        rw [walk, if_pos hcond, hw]
        simp only [Prod.mk.injEq]
        push_cast
        refine ⟨by ring, by ring, by omega⟩
      · intro j hj
        cases j with
        | zero => simpa using hc
        | succ j =>
          have := hall j (by omega)
          have e1 : cx + ((j + 1 : Nat) : Int) * dx = cx + dx + (j : Int) * dx := by
            push_cast; ring
          have e2 : cy + ((j + 1 : Nat) : Int) * dy = cy + dy + (j : Int) * dy := by
            push_cast; ring
          rw [e1, e2]; exact this
      · intro hlt
        have := hstop (by omega)
        have e1 : cx + ((n + 1 : Nat) : Int) * dx = cx + dx + (n : Int) * dx := by
          push_cast; ring
        have e2 : cy + ((n + 1 : Nat) : Int) * dy = cy + dy + (n : Int) * dy := by
          push_cast; ring
        rw [e1, e2]; exact this
    · refine ⟨0, Nat.zero_le _, ?_, fun j hj => absurd hj (Nat.not_lt_zero j), ?_⟩
      · have hcond : ¬ ((Is_Within_Boundaries cx cy &&
            decide (cellAt b cy cx = otherDisc b.currentPlayer)) = true) := by
          intro h
          simp only [Bool.and_eq_true, decide_eq_true_eq, inb_iff] at h
          exact hc h
        rw [walk, if_neg hcond]
        simp
      · intro _
        simpa using hc

/-- The loop of `TryFlip` started next to an in-board cell in a unit direction: it stops
after `n ≤ 7` steps, having crossed exactly the opposing cells. -/
theorem walk_from (b : Board) {x y dx dy : Int} (hxy : InBoard x y) (hd : UnitDir dx dy)
    (fuel : Nat) (hf : 8 ≤ fuel) :
    ∃ n : Nat, n ≤ 7 ∧
      walk b dx dy fuel (x + dx) (y + dy) 0 =
        (x + ((n : Int) + 1) * dx, y + ((n : Int) + 1) * dy, n) ∧
      (∀ i : Nat, 1 ≤ i → i ≤ n → InBoard (x + (i : Int) * dx) (y + (i : Int) * dy) ∧
        cellAt b (y + (i : Int) * dy) (x + (i : Int) * dx) = otherDisc b.currentPlayer) ∧
      ¬ (InBoard (x + ((n : Int) + 1) * dx) (y + ((n : Int) + 1) * dy) ∧
        cellAt b (y + ((n : Int) + 1) * dy) (x + ((n : Int) + 1) * dx)
          = otherDisc b.currentPlayer) := by
  obtain ⟨n, hn, hw, hall, hstop⟩ := walk_spec b dx dy fuel (x + dx) (y + dy) 0
  have hall2 : ∀ i : Nat, 1 ≤ i → i ≤ n → InBoard (x + (i : Int) * dx) (y + (i : Int) * dy) ∧
        cellAt b (y + (i : Int) * dy) (x + (i : Int) * dx) = otherDisc b.currentPlayer := by
    intro i h1 h2
    have := hall (i - 1) (by omega)
    have e1 : x + dx + ((i - 1 : Nat) : Int) * dx = x + (i : Int) * dx := by
      have : ((i - 1 : Nat) : Int) = (i : Int) - 1 := by omega
      rw [this]; ring
    have e2 : y + dy + ((i - 1 : Nat) : Int) * dy = y + (i : Int) * dy := by
      have : ((i - 1 : Nat) : Int) = (i : Int) - 1 := by omega
      rw [this]; ring
    rw [e1, e2] at this; exact this
  have hn7 : n ≤ 7 := by
    by_contra hcon
    have h8 := (hall2 8 (by omega) (by omega)).1
    unfold InBoard at h8 hxy
    unfold UnitDir at hd
    push_cast at h8
    omega
  refine ⟨n, hn7, ?_, hall2, ?_⟩
  · rw [hw]
    simp only [Prod.mk.injEq]
    refine ⟨by ring, by ring, by omega⟩
  · have := hstop (by omega)
    have e1 : x + dx + (n : Int) * dx = x + ((n : Int) + 1) * dx := by ring
    have e2 : y + dy + (n : Int) * dy = y + ((n : Int) + 1) * dy := by ring
    rw [e1, e2] at this; exact this

/-- A run of `opp` cells followed by `own` ends exactly where the loop of `TryFlip` stops. -/
theorem run_stop_unique (b : Board) {opp own : Cell} (hne : opp ≠ own) {x y dx dy : Int}
    {n k : Nat}
    (hall : ∀ i : Nat, 1 ≤ i → i ≤ n → InBoard (x + (i : Int) * dx) (y + (i : Int) * dy) ∧
        cellAt b (y + (i : Int) * dy) (x + (i : Int) * dx) = opp)
    (hstop : ¬ (InBoard (x + ((n : Int) + 1) * dx) (y + ((n : Int) + 1) * dy) ∧
        cellAt b (y + ((n : Int) + 1) * dy) (x + ((n : Int) + 1) * dx) = opp))
    (hk : RunOf b opp own x y dx dy k) : k = n := by
  obtain ⟨_, hkall, hkin, hkown⟩ := hk
  rcases Nat.lt_trichotomy k n with h | h | h
  · exfalso
    have := (hall (k + 1) (by omega) (by omega)).2
    push_cast at this
    rw [hkown] at this
    exact hne this.symm
  · exact h
  · exfalso
    apply hstop
    have := hkall (n + 1) (by omega) (by omega)
    push_cast at this
    exact this

theorem flipRun_currentPlayer (b : Board) (x y dx dy : Int) (n : Nat) :
    (flipRun b x y dx dy n).currentPlayer = b.currentPlayer := by
  induction n with
  | zero => rfl
  | succ n ih =>
    unfold flipRun at ih ⊢
    rw [List.range'_concat, List.foldl_append]
    simp only [List.foldl_cons, List.foldl_nil, setCell_currentPlayer]
    exact ih

theorem flipRun_cell (b : Board) (x y dx dy : Int) (n : Nat)
    (hin : ∀ i : Nat, 1 ≤ i → i ≤ n → InBoard (x + (i : Int) * dx) (y + (i : Int) * dy))
    {r c : Int} (hrc : InBoard c r) :
    ((∃ i : Nat, 1 ≤ i ∧ i ≤ n ∧ r = y + (i : Int) * dy ∧ c = x + (i : Int) * dx) →
      cellAt (flipRun b x y dx dy n) r c = b.currentPlayer) ∧
    ((¬ ∃ i : Nat, 1 ≤ i ∧ i ≤ n ∧ r = y + (i : Int) * dy ∧ c = x + (i : Int) * dx) →
      cellAt (flipRun b x y dx dy n) r c = cellAt b r c) := by
  induction n with
  | zero =>
    refine ⟨?_, fun _ => rfl⟩
    rintro ⟨i, h1, h2, _⟩; omega
  | succ n ih =>
    have ih2 := ih (fun i h1 h2 => hin i h1 (by omega))
    have hcp := flipRun_currentPlayer b x y dx dy n
    have hlast := hin (n + 1) (by omega) (le_refl _)
    have hstep : cellAt (flipRun b x y dx dy (n + 1)) r c =
        if r = y + ((n + 1 : Nat) : Int) * dy ∧ c = x + ((n + 1 : Nat) : Int) * dx
        then b.currentPlayer else cellAt (flipRun b x y dx dy n) r c := by
      have e : ((1 + n : Nat) : Int) = ((n + 1 : Nat) : Int) := by push_cast; ring
      unfold flipRun at hcp ⊢
      rw [List.range'_concat, List.foldl_append]
      simp only [List.foldl_cons, List.foldl_nil, Nat.one_mul]
      rw [e, cellAt_setCell _ hlast hrc, hcp]
    by_cases hnew : r = y + ((n + 1 : Nat) : Int) * dy ∧ c = x + ((n + 1 : Nat) : Int) * dx
    · rw [hstep, if_pos hnew]
      exact ⟨fun _ => rfl, fun h => absurd ⟨n + 1, by omega, le_refl _, hnew.1, hnew.2⟩ h⟩
    · rw [hstep, if_neg hnew]
      constructor
      · rintro ⟨i, h1, h2, h3⟩
        rcases Nat.eq_or_lt_of_le h2 with h | h
        · subst h; exact absurd h3 hnew
        · exact ih2.1 ⟨i, h1, by omega, h3⟩
      · intro h
        exact ih2.2 (fun ⟨i, h1, h2, h3⟩ => h ⟨i, h1, by omega, h3⟩)

/-- What `TryFlip` computes from an in-board cell in a unit direction. -/
theorem TryFlip_spec (b : Board) {x y dx dy : Int} (hxy : InBoard x y) (hd : UnitDir dx dy)
    (flip : Bool) :
    ((TryFlip b x y dx dy flip).1 = true ↔
      ∃ k, RunOf b (otherDisc b.currentPlayer) b.currentPlayer x y dx dy k) ∧
    (∀ k, RunOf b (otherDisc b.currentPlayer) b.currentPlayer x y dx dy k →
      (TryFlip b x y dx dy flip).2 = if flip then flipRun b x y dx dy k else b) ∧
    ((TryFlip b x y dx dy flip).1 = false → (TryFlip b x y dx dy flip).2 = b) := by
  obtain ⟨n, hn7, hw, hall, hstop⟩ := walk_from b hxy hd 8 (le_refl _)
  have huniq := fun k hk => run_stop_unique b (otherDisc_ne b.currentPlayer) hall hstop (k := k) hk
  by_cases hc : 0 < n ∧ InBoard (x + ((n : Int) + 1) * dx) (y + ((n : Int) + 1) * dy) ∧
      cellAt b (y + ((n : Int) + 1) * dy) (x + ((n : Int) + 1) * dx) = b.currentPlayer
  · have hrun : RunOf b (otherDisc b.currentPlayer) b.currentPlayer x y dx dy n :=
      ⟨hc.1, hall, hc.2.1, hc.2.2⟩
    have hT : TryFlip b x y dx dy flip = (true, if flip then flipRun b x y dx dy n else b) := by
      unfold TryFlip
      simp only [hw]
      have : (decide (n > 0) && Is_Within_Boundaries (x + ((n : Int) + 1) * dx)
          (y + ((n : Int) + 1) * dy) && decide (cellAt b (y + ((n : Int) + 1) * dy)
          (x + ((n : Int) + 1) * dx) = b.currentPlayer)) = true := by
        simp [inb_iff, hc.1, hc.2.1, hc.2.2]
      rw [if_pos this]
      cases flip <;> simp
    rw [hT]
    refine ⟨⟨fun _ => ⟨n, hrun⟩, fun _ => rfl⟩, ?_, ?_⟩
    · intro k hk
      rw [huniq k hk]
    · intro h; simp at h
  · have hT : TryFlip b x y dx dy flip = (false, b) := by
      unfold TryFlip
      simp only [hw]
      have : ¬ ((decide (n > 0) && Is_Within_Boundaries (x + ((n : Int) + 1) * dx)
          (y + ((n : Int) + 1) * dy) && decide (cellAt b (y + ((n : Int) + 1) * dy)
          (x + ((n : Int) + 1) * dx) = b.currentPlayer)) = true) := by
        intro h
        simp only [Bool.and_eq_true, decide_eq_true_eq, inb_iff] at h
        exact hc ⟨h.1.1, h.1.2, h.2⟩
      rw [if_neg this]
    rw [hT]
    refine ⟨⟨fun h => by simp at h, ?_⟩, ?_, fun _ => rfl⟩
    · rintro ⟨k, hk⟩
      have hkn := huniq k hk
      subst hkn
      exact absurd ⟨hk.1, hk.2.2.1, hk.2.2.2⟩ hc
    · intro k hk
      have hkn := huniq k hk
      subst hkn
      exact absurd ⟨hk.1, hk.2.2.1, hk.2.2.2⟩ hc

/-- Enough fuel: the loop of `TryFlip` gives the same result for every bound of at least
8 tests, so the bound 8 used in `TryFlip` never cuts the loop short. -/
theorem walk_fuel (b : Board) {x y dx dy : Int} (hxy : InBoard x y) (hd : UnitDir dx dy)
    (fuel : Nat) (hf : 8 ≤ fuel) :
    walk b dx dy fuel (x + dx) (y + dy) 0 = walk b dx dy 8 (x + dx) (y + dy) 0 := by
  obtain ⟨n, _, hw, hall, hstop⟩ := walk_from b hxy hd fuel hf
  obtain ⟨m, _, hw2, hall2, hstop2⟩ := walk_from b hxy hd 8 (le_refl _)
  have : n = m := by
    rcases Nat.lt_trichotomy n m with h | h | h
    · exact absurd (by have := hall2 (n + 1) (by omega) (by omega); push_cast at this; exact this) hstop
    · exact h
    · exact absurd (by have := hall (m + 1) (by omega) (by omega); push_cast at this; exact this) hstop2
  rw [hw, hw2, this]

theorem CanPlace_eq_dirs (b : Board) (x y : Int) (flip : Bool) :
    CanPlace b x y flip =
      if cellAt b y x ≠ Cell.EMPTY then (false, b)
      else dirs.foldl (canPlaceStep x y flip) (false, b) := by
  unfold CanPlace
  split
  · rfl
  · simp [deltas, dirs, canPlaceStep]

theorem mem_dirs_iff (d : Int × Int) : d ∈ dirs ↔ UnitDir d.1 d.2 := by
  obtain ⟨dx, dy⟩ := d
  unfold dirs UnitDir
  simp only [List.mem_cons, Prod.mk.injEq, List.mem_singleton, List.mem_nil_iff, or_false]
  constructor
  · intro h
    rcases h with ⟨h1, h2⟩ | ⟨h1, h2⟩ | ⟨h1, h2⟩ | ⟨h1, h2⟩ | ⟨h1, h2⟩ | ⟨h1, h2⟩ | ⟨h1, h2⟩ | ⟨h1, h2⟩ <;>
      subst h1 <;> subst h2 <;> decide
  · rintro ⟨h1 | h1 | h1, h2 | h2 | h2, h3⟩ <;> subst h1 <;> subst h2 <;> simp at h3 ⊢

theorem dirs_nodup : dirs.Nodup := by decide

theorem unit_mul_eq {d e : Int} (hd : d = -1 ∨ d = 0 ∨ d = 1) (he : e = -1 ∨ e = 0 ∨ e = 1)
    {i j : Nat} (hi : 1 ≤ i) (hj : 1 ≤ j) (h : (i : Int) * d = (j : Int) * e) : d = e := by
  rcases hd with h1 | h1 | h1 <;> rcases he with h2 | h2 | h2 <;> subst h1 <;> subst h2 <;>
    simp at h ⊢ <;> omega

theorem ray_disjoint {dx dy ex ey : Int} (hd : UnitDir dx dy) (he : UnitDir ex ey)
    {i j : Nat} (hi : 1 ≤ i) (hj : 1 ≤ j)
    (h1 : (i : Int) * dx = (j : Int) * ex) (h2 : (i : Int) * dy = (j : Int) * ey) :
    dx = ex ∧ dy = ey :=
  ⟨unit_mul_eq hd.1 he.1 hi hj h1, unit_mul_eq hd.2.1 he.2.1 hi hj h2⟩

theorem RunOf_congr {b c : Board} {opp own : Cell} {x y dx dy : Int}
    (h : ∀ i : Nat, 1 ≤ i → InBoard (x + (i : Int) * dx) (y + (i : Int) * dy) →
      cellAt c (y + (i : Int) * dy) (x + (i : Int) * dx) =
        cellAt b (y + (i : Int) * dy) (x + (i : Int) * dx)) (k : Nat) :
    RunOf c opp own x y dx dy k ↔ RunOf b opp own x y dx dy k := by
  have hk : ∀ (b1 b2 : Board), (∀ i : Nat, 1 ≤ i →
      InBoard (x + (i : Int) * dx) (y + (i : Int) * dy) →
      cellAt b1 (y + (i : Int) * dy) (x + (i : Int) * dx) =
        cellAt b2 (y + (i : Int) * dy) (x + (i : Int) * dx)) →
      RunOf b1 opp own x y dx dy k → RunOf b2 opp own x y dx dy k := by
    intro b1 b2 h12 ⟨k1, hall, hin, hown⟩
    refine ⟨k1, fun i h1 h2 => ?_, hin, ?_⟩
    · have := hall i h1 h2
      exact ⟨this.1, by rw [← h12 i h1 this.1]; exact this.2⟩
    · have := h12 (k + 1) (by omega) (by push_cast; exact hin)
      push_cast at this
      rw [← this]; exact hown
  exact ⟨hk c b h, hk b c (fun i h1 h2 => (h i h1 h2).symm)⟩

theorem RunOf_unique (b : Board) {opp own : Cell} (hne : opp ≠ own) {x y dx dy : Int}
    {k m : Nat} (hk : RunOf b opp own x y dx dy k) (hm : RunOf b opp own x y dx dy m) :
    k = m := by
  refine run_stop_unique b hne hm.2.1 ?_ hk
  intro h
  exact hne (h.2.symm.trans hm.2.2.2)

theorem TryFlip_currentPlayer (b : Board) (x y dx dy : Int) (flip : Bool) :
    (TryFlip b x y dx dy flip).2.currentPlayer = b.currentPlayer := by
  unfold TryFlip
  simp only
  split
  · cases flip
    · rfl
    · simp [flipRun_currentPlayer]
  · rfl

theorem TryFlip_noflip (b : Board) (x y dx dy : Int) :
    (TryFlip b x y dx dy false).2 = b := by
  unfold TryFlip
  simp only
  split <;> rfl

theorem OnRunIn_append (b : Board) (x y : Int) (l1 l2 : List (Int × Int)) (r c : Int) :
    OnRunIn b x y (l1 ++ l2) r c ↔ OnRunIn b x y l1 r c ∨ OnRunIn b x y l2 r c := by
  unfold OnRunIn
  constructor
  · rintro ⟨d, hd, rest⟩
    rcases List.mem_append.1 hd with h | h
    · exact Or.inl ⟨d, h, rest⟩
    · exact Or.inr ⟨d, h, rest⟩
  · rintro (⟨d, hd, rest⟩ | ⟨d, hd, rest⟩)
    · exact ⟨d, List.mem_append.2 (Or.inl hd), rest⟩
    · exact ⟨d, List.mem_append.2 (Or.inr hd), rest⟩

theorem dirInv_step (b : Board) {x y : Int} (hxy : InBoard x y) (flip : Bool)
    {done : List (Int × Int)} {d : Int × Int} {s : Bool × Board}
    (hdone : ∀ e ∈ done, UnitDir e.1 e.2) (hd : UnitDir d.1 d.2) (hnot : d ∉ done)
    (hinv : DirInv b x y flip done s) :
    DirInv b x y flip (done ++ [d]) (canPlaceStep x y flip s d) := by
  obtain ⟨hcp, hval, hcells⟩ := hinv
  have hagree : ∀ i : Nat, 1 ≤ i → InBoard (x + (i : Int) * d.1) (y + (i : Int) * d.2) →
      cellAt s.2 (y + (i : Int) * d.2) (x + (i : Int) * d.1) =
        cellAt b (y + (i : Int) * d.2) (x + (i : Int) * d.1) := by
    intro i hi hin
    apply (hcells _ _ hin).2
    rintro ⟨_, e, hemem, k, j, _, hj1, _, hr, hc⟩
    have := ray_disjoint hd (hdone e hemem) hi hj1 (by linarith) (by linarith)
    exact hnot (by rw [Prod.ext this.1 this.2]; exact hemem)
  have hrunEq : ∀ k, RunOf s.2 (otherDisc s.2.currentPlayer) s.2.currentPlayer x y d.1 d.2 k ↔
      RunOf b (otherDisc b.currentPlayer) b.currentPlayer x y d.1 d.2 k := by
    intro k; rw [hcp]; exact RunOf_congr hagree k
  obtain ⟨hT1, hT2, hT3⟩ := TryFlip_spec s.2 hxy hd flip
  have hsingle : ∀ r c : Int, OnRunIn b x y [d] r c ↔ ∃ k i : Nat,
      RunOf b (otherDisc b.currentPlayer) b.currentPlayer x y d.1 d.2 k ∧
      1 ≤ i ∧ i ≤ k ∧ r = y + (i : Int) * d.2 ∧ c = x + (i : Int) * d.1 := by
    intro r c
    unfold OnRunIn
    simp
  refine ⟨?_, ?_, ?_⟩
  · show (TryFlip s.2 x y d.1 d.2 flip).2.currentPlayer = b.currentPlayer
    rw [TryFlip_currentPlayer, hcp]
  · show (s.1 || (TryFlip s.2 x y d.1 d.2 flip).1) = true ↔ _
    rw [Bool.or_eq_true, hval, hT1]
    constructor
    · rintro (⟨e, he, k, hk⟩ | ⟨k, hk⟩)
      · exact ⟨e, List.mem_append.2 (Or.inl he), k, hk⟩
      · exact ⟨d, List.mem_append.2 (Or.inr (List.mem_singleton.2 rfl)), k, (hrunEq k).1 hk⟩
    · rintro ⟨e, he, k, hk⟩
      rcases List.mem_append.1 he with h | h
      · exact Or.inl ⟨e, h, k, hk⟩
      · rw [List.mem_singleton.1 h] at hk
        exact Or.inr ⟨k, (hrunEq k).2 hk⟩
  · intro r c hrc
    show ((flip = true ∧ OnRunIn b x y (done ++ [d]) r c) →
        cellAt (TryFlip s.2 x y d.1 d.2 flip).2 r c = b.currentPlayer) ∧
      (¬ (flip = true ∧ OnRunIn b x y (done ++ [d]) r c) →
        cellAt (TryFlip s.2 x y d.1 d.2 flip).2 r c = cellAt b r c)
    rw [OnRunIn_append, hsingle]
    by_cases hex : ∃ k, RunOf b (otherDisc b.currentPlayer) b.currentPlayer x y d.1 d.2 k
    · obtain ⟨k, hk⟩ := hex
      have hk2 := (hrunEq k).2 hk
      rw [hT2 k hk2]
      cases flip with
      | false =>
        simp only [Bool.false_eq_true, false_and, not_false_eq_true, forall_true_left,
          IsEmpty.forall_iff, true_and, if_false]
        exact (hcells r c hrc).2 (by simp)
      | true =>
        simp only [true_and, if_true]
        have hfc := flipRun_cell s.2 x y d.1 d.2 k (fun i h1 h2 => (hk.2.1 i h1 h2).1) hrc
        rw [hcp] at hfc
        have hc2 := hcells r c hrc
        simp only [true_and] at hc2
        constructor
        · rintro (h | ⟨k2, i, hk2run, h1, h2, h3⟩)
          · by_cases hon : ∃ i : Nat, 1 ≤ i ∧ i ≤ k ∧ r = y + (i : Int) * d.2 ∧
                c = x + (i : Int) * d.1
            · exact hfc.1 hon
            · rw [hfc.2 hon]; exact hc2.1 h
          · have := RunOf_unique b (otherDisc_ne b.currentPlayer) hk2run hk
            subst this
            exact hfc.1 ⟨i, h1, h2, h3⟩
        · intro hno
          have hon : ¬ ∃ i : Nat, 1 ≤ i ∧ i ≤ k ∧ r = y + (i : Int) * d.2 ∧
              c = x + (i : Int) * d.1 := by
            rintro ⟨i, h1, h2, h3⟩
            exact hno (Or.inr ⟨k, i, hk, h1, h2, h3⟩)
          rw [hfc.2 hon]
          exact hc2.2 (fun h => hno (Or.inl h))
    · have hfalse : (TryFlip s.2 x y d.1 d.2 flip).1 = false := by
        cases hres : (TryFlip s.2 x y d.1 d.2 flip).1 with
        | false => rfl
        | true =>
          obtain ⟨k, hk⟩ := hT1.1 hres
          exact absurd ⟨k, (hrunEq k).1 hk⟩ hex
      rw [hT3 hfalse]
      have hc2 := hcells r c hrc
      constructor
      · rintro ⟨hf, h | ⟨k, i, hk, _⟩⟩
        · exact hc2.1 ⟨hf, h⟩
        · exact absurd ⟨k, hk⟩ hex
      · intro hno
        exact hc2.2 (fun h => hno ⟨h.1, Or.inl h.2⟩)

theorem dirInv_fold (b : Board) {x y : Int} (hxy : InBoard x y) (flip : Bool) :
    ∀ (ds done : List (Int × Int)) (s : Bool × Board),
      (∀ e ∈ done, UnitDir e.1 e.2) → (∀ e ∈ ds, UnitDir e.1 e.2) →
      (∀ e ∈ ds, e ∉ done) → ds.Nodup → DirInv b x y flip done s →
      DirInv b x y flip (done ++ ds) (ds.foldl (canPlaceStep x y flip) s) := by
  intro ds
  induction ds with
  | nil => intro done s _ _ _ _ h; simpa using h
  | cons d ds ih =>
    intro done s hdone hds hnot hnd hinv
    have hstep := dirInv_step b hxy flip hdone (hds d (List.mem_cons_self _ _))
      (hnot d (List.mem_cons_self _ _)) hinv
    have hnd2 := List.nodup_cons.1 hnd
    have := ih (done ++ [d]) (canPlaceStep x y flip s d)
      (by
        intro e he
        rcases List.mem_append.1 he with h | h
        · exact hdone e h
        · rw [List.mem_singleton.1 h]; exact hds d (List.mem_cons_self _ _))
      (fun e he => hds e (List.mem_cons_of_mem _ he))
      (by
        intro e he hmem
        rcases List.mem_append.1 hmem with h | h
        · exact hnot e (List.mem_cons_of_mem _ he) h
        · rw [List.mem_singleton.1 h] at he; exact hnd2.1 he)
      hnd2.2 hstep
    simpa [List.foldl_cons, List.append_assoc] using this

theorem CanPlace_nonempty (b : Board) (x y : Int) (flip : Bool)
    (h : cellAt b y x ≠ Cell.EMPTY) : CanPlace b x y flip = (false, b) := by
  unfold CanPlace
  rw [if_pos h]

theorem CanPlace_spec (b : Board) {x y : Int} (hxy : InBoard x y) (flip : Bool)
    (hempty : cellAt b y x = Cell.EMPTY) : DirInv b x y flip dirs (CanPlace b x y flip) := by
  rw [CanPlace_eq_dirs, if_neg (by simp [hempty])]
  have hbase : DirInv b x y flip [] (false, b) := by
    refine ⟨rfl, ?_, ?_⟩
    · simp
    · intro r c _
      refine ⟨?_, fun _ => rfl⟩
      rintro ⟨_, e, he, _⟩
      simp at he
  have := dirInv_fold b hxy flip dirs [] (false, b) (by simp)
    (fun e he => (mem_dirs_iff e).1 he) (by simp) dirs_nodup hbase
  simpa using this

theorem CanPlace_noflip (b : Board) (x y : Int) : (CanPlace b x y false).2 = b := by
  rw [CanPlace_eq_dirs]
  split
  · rfl
  · have : ∀ (ds : List (Int × Int)) (v : Bool),
        (ds.foldl (canPlaceStep x y false) (v, b)).2 = b := by
      intro ds
      induction ds with
      | nil => intro v; rfl
      | cons d ds ih =>
        intro v
        rw [List.foldl_cons]
        have e : canPlaceStep x y false (v, b) d = ((v || (TryFlip b x y d.1 d.2 false).1), b) := by
          unfold canPlaceStep
          simp only [TryFlip_noflip]
        rw [e]; exact ih _
    exact this dirs false

theorem CanPlace_currentPlayer (b : Board) (x y : Int) (flip : Bool) :
    (CanPlace b x y flip).2.currentPlayer = b.currentPlayer := by
  rw [CanPlace_eq_dirs]
  split
  · rfl
  · have : ∀ (ds : List (Int × Int)) (s : Bool × Board),
        (ds.foldl (canPlaceStep x y flip) s).2.currentPlayer = s.2.currentPlayer := by
      intro ds
      induction ds with
      | nil => intro s; rfl
      | cons d ds ih =>
        intro s
        rw [List.foldl_cons, ih]
        exact TryFlip_currentPlayer _ _ _ _ _ _
    exact this dirs (false, b)

/-- Legality as the code decides it, stated on the cells of the board. -/
theorem CanPlace_true_iff (b : Board) {x y : Int} (hxy : InBoard x y) (flip : Bool) :
    (CanPlace b x y flip).1 = true ↔
      cellAt b y x = Cell.EMPTY ∧ ∃ dx dy : Int, ∃ k : Nat, UnitDir dx dy ∧
        RunOf b (otherDisc b.currentPlayer) b.currentPlayer x y dx dy k := by
  by_cases hempty : cellAt b y x = Cell.EMPTY
  · rw [(CanPlace_spec b hxy flip hempty).2.1]
    constructor
    · rintro ⟨d, hd, k, hk⟩
      exact ⟨hempty, d.1, d.2, k, (mem_dirs_iff d).1 hd, hk⟩
    · rintro ⟨_, dx, dy, k, hd, hk⟩
      exact ⟨(dx, dy), (mem_dirs_iff (dx, dy)).2 hd, k, hk⟩
  · rw [CanPlace_nonempty b x y flip hempty]
    simp [hempty]

theorem CanPlace_true_iff_legal (b : Board) {x y : Int} (hxy : InBoard x y) (flip : Bool)
    (hside : b.currentPlayer ≠ Cell.EMPTY) :
    (CanPlace b x y flip).1 = true ↔ LegalFor b b.currentPlayer x y := by
  rw [CanPlace_true_iff b hxy flip, otherDisc_eq_opposing hside]
  rfl

/-- What `PlacePiece` leaves on the grid when the placement is legal for the side to move:
every cell of every outflanked run and the target cell hold the mover's colour. -/
theorem PlacePiece_legal_cells (b : Board) {x y : Int} (hxy : InBoard x y)
    (hside : b.currentPlayer ≠ Cell.EMPTY) (hlegal : LegalFor b b.currentPlayer x y)
    {r c : Int} (hrc : InBoard c r) :
    (((r = y ∧ c = x) ∨ OnFlippableRun b b.currentPlayer x y r c) →
      cellAt (PlacePiece b x y) r c = b.currentPlayer) ∧
    (¬ ((r = y ∧ c = x) ∨ OnFlippableRun b b.currentPlayer x y r c) →
      cellAt (PlacePiece b x y) r c = cellAt b r c) := by
  have hcan := (CanPlace_true_iff_legal b hxy true hside).2 hlegal
  obtain ⟨hcp, _, hcells⟩ := CanPlace_spec b hxy true hlegal.1
  have hP : cellAt (PlacePiece b x y) r c =
      if r = y ∧ c = x then b.currentPlayer else cellAt (CanPlace b x y true).2 r c := by
    unfold PlacePiece
    simp only [hcan, if_true]
    show cellAt (setCell _ y x _) r c = _
    rw [cellAt_setCell _ hxy hrc, hcp]
  have hon : OnFlippableRun b b.currentPlayer x y r c ↔ OnRunIn b x y dirs r c := by
    unfold OnFlippableRun OnRunIn FlippableRun
    rw [otherDisc_eq_opposing hside]
    constructor
    · rintro ⟨dx, dy, k, i, hd, rest⟩
      exact ⟨(dx, dy), (mem_dirs_iff (dx, dy)).2 hd, k, i, rest⟩
    · rintro ⟨d, hd, k, i, rest⟩
      exact ⟨d.1, d.2, k, i, (mem_dirs_iff d).1 hd, rest⟩
  have hc2 := hcells r c hrc
  simp only [true_and] at hc2
  rw [hP, hon]
  by_cases hyx : r = y ∧ c = x
  · rw [if_pos hyx]
    exact ⟨fun _ => rfl, fun h => absurd (Or.inl hyx) h⟩
  · rw [if_neg hyx]
    constructor
    · rintro (h | h)
      · exact absurd h hyx
      · exact hc2.1 h
    · intro h
      exact hc2.2 (fun h2 => h (Or.inr h2))

theorem CanPlace_illegal (b : Board) {x y : Int} (hxy : InBoard x y)
    (hnot : (CanPlace b x y false).1 = false) (flip : Bool) :
    CanPlace b x y flip = (false, b) := by
  by_cases hempty : cellAt b y x = Cell.EMPTY
  · have hno : ¬ ∃ d ∈ dirs, ∃ k : Nat,
        RunOf b (otherDisc b.currentPlayer) b.currentPlayer x y d.1 d.2 k := by
      intro h
      have := (CanPlace_spec b hxy false hempty).2.1.2 h
      rw [hnot] at this
      exact Bool.false_ne_true this
    obtain ⟨hcp, hval, hcells⟩ := CanPlace_spec b hxy flip hempty
    apply Prod.ext
    · cases hres : (CanPlace b x y flip).1 with
      | false => rfl
      | true => exact absurd (hval.1 hres) hno
    · apply board_ext hcp
      intro r c hrc
      apply (hcells r c hrc).2
      rintro ⟨_, d, hd, k, _, hk, _⟩
      exact hno ⟨d, hd, k, hk⟩
  · exact CanPlace_nonempty b x y flip hempty

theorem mem_indices (i : Int) : i ∈ indices ↔ 0 ≤ i ∧ i < 8 := by
  unfold indices
  simp only [List.mem_cons, List.mem_singleton, List.mem_nil_iff, or_false]
  omega

theorem fillRow_currentPlayer (f : Int → Int → Cell) (y : Int) (xs : List Int) (b : Board) :
    (xs.foldl (fun acc2 x => setCell acc2 y x (f y x)) b).currentPlayer = b.currentPlayer := by
  induction xs generalizing b with
  | nil => rfl
  | cons x xs ih => rw [List.foldl_cons, ih]; rfl

theorem fillRow_cell (f : Int → Int → Cell) {y : Int} (hy : 0 ≤ y ∧ y < 8) (xs : List Int)
    (hxs : ∀ x ∈ xs, 0 ≤ x ∧ x < 8) (b : Board) {r c : Int} (hrc : InBoard c r) :
    cellAt (xs.foldl (fun acc2 x => setCell acc2 y x (f y x)) b) r c =
      if r = y ∧ c ∈ xs then f r c else cellAt b r c := by
  induction xs generalizing b with
  | nil => simp
  | cons x xs ih =>
    have hx := hxs x (List.mem_cons_self _ _)
    rw [List.foldl_cons, ih (fun z hz => hxs z (List.mem_cons_of_mem _ hz)),
      cellAt_setCell _ ⟨hx.1, hx.2, hy.1, hy.2⟩ hrc]
    by_cases h1 : r = y ∧ c ∈ xs
    · rw [if_pos h1, if_pos ⟨h1.1, List.mem_cons_of_mem _ h1.2⟩]
    · rw [if_neg h1]
      by_cases h2 : r = y ∧ c = x
      · rw [if_pos h2, if_pos ⟨h2.1, by rw [h2.2]; exact List.mem_cons_self _ _⟩, h2.1, h2.2]
      · rw [if_neg h2, if_neg]
        rintro ⟨hr, hc⟩
        rcases List.mem_cons.1 hc with h | h
        · exact h2 ⟨hr, h⟩
        · exact h1 ⟨hr, h⟩

theorem fill_currentPlayer (f : Int → Int → Cell) (ys xs : List Int) (b : Board) :
    (ys.foldl (fun acc y => xs.foldl (fun acc2 x => setCell acc2 y x (f y x)) acc) b).currentPlayer
      = b.currentPlayer := by
  induction ys generalizing b with
  | nil => rfl
  | cons y ys ih => rw [List.foldl_cons, ih, fillRow_currentPlayer]

theorem fill_cell (f : Int → Int → Cell) (ys xs : List Int)
    (hys : ∀ y ∈ ys, 0 ≤ y ∧ y < 8) (hxs : ∀ x ∈ xs, 0 ≤ x ∧ x < 8) (b : Board)
    {r c : Int} (hrc : InBoard c r) :
    cellAt (ys.foldl (fun acc y => xs.foldl (fun acc2 x => setCell acc2 y x (f y x)) acc) b) r c
      = if r ∈ ys ∧ c ∈ xs then f r c else cellAt b r c := by
  induction ys generalizing b with
  | nil => simp
  | cons y ys ih =>
    rw [List.foldl_cons, ih (fun z hz => hys z (List.mem_cons_of_mem _ hz)),
      fillRow_cell f (hys y (List.mem_cons_self _ _)) xs hxs b hrc]
    by_cases h1 : r ∈ ys ∧ c ∈ xs
    · rw [if_pos h1, if_pos ⟨List.mem_cons_of_mem _ h1.1, h1.2⟩]
    · rw [if_neg h1]
      by_cases h2 : r = y ∧ c ∈ xs
      · rw [if_pos h2, if_pos ⟨by rw [h2.1]; exact List.mem_cons_self _ _, h2.2⟩]
      · rw [if_neg h2, if_neg]
        rintro ⟨hr, hc⟩
        rcases List.mem_cons.1 hr with h | h
        · exact h2 ⟨h, hc⟩
        · exact h1 ⟨h, hc⟩

/-- The method `Initialize_Board` overwrites every cell: its result does not depend on the grid it
starts from. -/
theorem Initialize_Board_indep (b c : Board) (hp : b.currentPlayer = c.currentPlayer) :
    Initialize_Board b = Initialize_Board c := by
  have hcl : ∀ d : Board, ∀ r k : Int, InBoard k r →
      cellAt (indices.foldl (fun acc row => indices.foldl
        (fun acc2 col => setCell acc2 row col Cell.EMPTY) acc) d) r k = Cell.EMPTY := by
    intro d r k hrk
    rw [fill_cell (fun _ _ => Cell.EMPTY) indices indices (fun y hy => (mem_indices y).1 hy)
      (fun x hx => (mem_indices x).1 hx) d hrk]
    rw [if_pos ⟨(mem_indices r).2 ⟨hrk.2.2.1, hrk.2.2.2⟩, (mem_indices k).2 ⟨hrk.1, hrk.2.1⟩⟩]
  have hcur : ∀ d : Board, (Initialize_Board d).currentPlayer = d.currentPlayer := by
    intro d
    unfold Initialize_Board
    simp only [setCell_currentPlayer]
    exact fill_currentPlayer (fun _ _ => Cell.EMPTY) indices indices d
  apply board_ext
  · rw [hcur, hcur, hp]
  · intro r k hrk
    unfold Initialize_Board
    simp only
    rw [cellAt_setCell _ (by decide) hrk, cellAt_setCell _ (by decide) hrk,
      cellAt_setCell _ (by decide) hrk, cellAt_setCell _ (by decide) hrk,
      cellAt_setCell _ (by decide) hrk, cellAt_setCell _ (by decide) hrk,
      cellAt_setCell _ (by decide) hrk, cellAt_setCell _ (by decide) hrk, hcl b r k hrk,
      hcl c r k hrk]

theorem Board_new_eq (storage : Grid) : Board.new storage = initialBoard :=
  Initialize_Board_indep _ _ rfl

/-- The method `Clone` returns an equal board. -/
theorem Clone_eq (b : Board) : Clone b = b := by
  have hcur : (Clone b).currentPlayer = b.currentPlayer := by
    unfold Clone
    simp only
  apply board_ext hcur
  intro r c hrc
  have hcell : cellAt (Clone b) r c = cellAt (indices.foldl (fun acc y => indices.foldl
      (fun acc2 x => setCell acc2 y x (cellAt b y x)) acc) (Board.new rawStorage)) r c := by
    unfold Clone cellAt
    simp only
  rw [hcell, fill_cell (fun y x => cellAt b y x) indices indices
    (fun y hy => (mem_indices y).1 hy) (fun x hx => (mem_indices x).1 hx) _ hrc]
  rw [if_pos ⟨(mem_indices r).2 ⟨hrc.2.2.1, hrc.2.2.2⟩, (mem_indices c).2 ⟨hrc.1, hrc.2.1⟩⟩]

theorem forall_inBoard_of_indices {P : Int → Int → Prop}
    (h : ∀ r ∈ indices, ∀ c ∈ indices, P r c) : ∀ r c : Int, InBoard c r → P r c :=
  fun r c hrc => h r ((mem_indices r).2 ⟨hrc.2.2.1, hrc.2.2.2⟩) c
    ((mem_indices c).2 ⟨hrc.1, hrc.2.1⟩)

/-- C1: for an in-range `(row, col)` and a side Black or White, `IsValidMove(row, col, side)`
returns true iff the cell is EMPTY and some unit direction holds one or more consecutive discs
of the opposing colour, starting at the adjacent cell, followed inside the board by a disc of
`side`. -/
theorem IsValidMove_iff_legal (b : Board) (row col : Int) (side : Cell)
    (hin : InBoard col row) (hside : side = Cell.Black_Disc ∨ side = Cell.White_Disc) :
    (IsValidMove b row col side).1 = true ↔ LegalFor b side col row := by
  have hs : side ≠ Cell.EMPTY := by rcases hside with h | h <;> rw [h] <;> decide
  unfold IsValidMove
  by_cases hempty : cellAt b row col = Cell.EMPTY
  · rw [if_neg (by simp [hempty])]
    exact CanPlace_true_iff_legal { b with currentPlayer := side } hin false hs
  · rw [if_pos hempty]
    constructor
    · intro h; exact absurd h Bool.false_ne_true
    · intro h; exact absurd h.1 hempty

theorem IsValidMove_iff_legal_witness :
    InBoard 3 2 ∧ (IsValidMove initialBoard 2 3 Cell.Black_Disc).1 = true ∧
      ((IsValidMove initialBoard 2 3 Cell.Black_Disc).1 = true ↔
        LegalFor initialBoard Cell.Black_Disc 3 2) :=
  ⟨by decide, by decide,
    IsValidMove_iff_legal initialBoard 2 3 Cell.Black_Disc (by decide) (Or.inl rfl)⟩

/-- C2: for an in-range `(x, y)` that is a legal placement for the side to move, after
`PlacePiece(x, y)` the cell `(y, x)` and every cell on a flippable run in any of the 8
directions hold the mover's disc, and every other cell is unchanged. -/
theorem PlacePiece_legal_grid (b : Board) (x y : Int) (hxy : InBoard x y)
    (hside : b.currentPlayer = Cell.Black_Disc ∨ b.currentPlayer = Cell.White_Disc)
    (hlegal : LegalFor b b.currentPlayer x y) :
    ∀ r c : Int, InBoard c r →
      (((r = y ∧ c = x) ∨ OnFlippableRun b b.currentPlayer x y r c) →
        cellAt (PlacePiece b x y) r c = b.currentPlayer) ∧
      (¬ ((r = y ∧ c = x) ∨ OnFlippableRun b b.currentPlayer x y r c) →
        cellAt (PlacePiece b x y) r c = cellAt b r c) := by
  have hs : b.currentPlayer ≠ Cell.EMPTY := by rcases hside with h | h <;> rw [h] <;> decide
  intro r c hrc
  exact PlacePiece_legal_cells b hxy hs hlegal hrc

theorem flipExample_run :
    FlippableRun flipExample flipExample.currentPlayer 3 3 1 0 1 := by
  refine ⟨le_refl _, ?_, by decide, by decide⟩
  intro i h1 h2
  have : i = 1 := by omega
  subst this
  exact ⟨by decide, by decide⟩

theorem PlacePiece_legal_grid_witness :
    InBoard 3 3 ∧ cellAt flipExample 3 4 = Cell.White_Disc ∧
      cellAt flipExample 3 5 = Cell.Black_Disc ∧
      flipExample.currentPlayer = Cell.Black_Disc ∧
      cellAt (PlacePiece flipExample 3 3) 3 4 = Cell.Black_Disc :=
  ⟨by decide, by decide, by decide, rfl,
    ((PlacePiece_legal_grid flipExample 3 3 (by decide) (Or.inl rfl)
      ⟨by decide, 1, 0, 1, by decide, flipExample_run⟩ 3 4 (by decide)).1
      (Or.inr ⟨1, 0, 1, 1, by decide, flipExample_run, le_refl _, le_refl _,
        by decide, by decide⟩))⟩

/-- C3: for an in-range `(x, y)` that is not a legal placement for the side to move,
`CanPlace(x, y, true)` returns false and changes nothing, and `PlacePiece(x, y)` leaves the
grid and `currentPlayer` as they were. -/
theorem PlacePiece_illegal_unchanged (b : Board) (x y : Int) (hxy : InBoard x y)
    (hside : b.currentPlayer = Cell.Black_Disc ∨ b.currentPlayer = Cell.White_Disc)
    (hnot : ¬ LegalFor b b.currentPlayer x y) :
    (CanPlace b x y true).1 = false ∧ (CanPlace b x y true).2 = b ∧ PlacePiece b x y = b := by
  have hs : b.currentPlayer ≠ Cell.EMPTY := by rcases hside with h | h <;> rw [h] <;> decide
  have hfalse : (CanPlace b x y false).1 = false := by
    cases hres : (CanPlace b x y false).1 with
    | false => rfl
    | true => exact absurd ((CanPlace_true_iff_legal b hxy false hs).1 hres) hnot
  have hcan := CanPlace_illegal b hxy hfalse true
  refine ⟨by rw [hcan], by rw [hcan], ?_⟩
  unfold PlacePiece
  simp only [hcan]
  rfl

theorem PlacePiece_illegal_unchanged_witness :
    (InBoard 3 3 ∧ cellAt initialBoard 3 3 ≠ Cell.EMPTY ∧
      (CanPlace initialBoard 3 3 true).1 = false ∧ (CanPlace initialBoard 3 3 true).2 = initialBoard
        ∧ PlacePiece initialBoard 3 3 = initialBoard) ∧
    (InBoard 0 0 ∧ cellAt initialBoard 0 0 = Cell.EMPTY ∧
      (CanPlace initialBoard 0 0 true).1 = false ∧ (CanPlace initialBoard 0 0 true).2 = initialBoard
        ∧ PlacePiece initialBoard 0 0 = initialBoard) :=
  ⟨⟨by decide, by decide,
    PlacePiece_illegal_unchanged initialBoard 3 3 (by decide) (Or.inl rfl)
      (fun h => absurd h.1 (by decide))⟩,
   ⟨by decide, by decide,
    PlacePiece_illegal_unchanged initialBoard 0 0 (by decide) (Or.inl rfl)
      (fun h => absurd ((CanPlace_true_iff_legal initialBoard (by decide) false (by decide)).2 h)
        (by decide))⟩⟩

/-- C4: a freshly constructed `Board`, whatever its storage held before, has exactly two
Black and two White discs, its non-empty cells are exactly (3,3), (3,4), (4,3), (4,4), the
other 60 cells are EMPTY, and `currentPlayer` is `Black_Disc`. -/
theorem Board_new_fresh (storage : Grid) :
    countDiscs (Board.new storage) Cell.Black_Disc = 2 ∧
    countDiscs (Board.new storage) Cell.White_Disc = 2 ∧
    countDiscs (Board.new storage) Cell.EMPTY = 60 ∧
    (∀ r c : Int, InBoard c r →
      (cellAt (Board.new storage) r c ≠ Cell.EMPTY ↔
        (r = 3 ∧ c = 3) ∨ (r = 3 ∧ c = 4) ∨ (r = 4 ∧ c = 3) ∨ (r = 4 ∧ c = 4))) ∧
    (Board.new storage).currentPlayer = Cell.Black_Disc := by
  rw [Board_new_eq]
  refine ⟨by decide, by decide, by decide, ?_, by decide⟩
  exact forall_inBoard_of_indices (by decide)

theorem nested_foldl {σ : Type} (f : Int → Int → σ → σ) (s : σ) :
    indices.foldl (fun acc y => indices.foldl (fun acc2 x => f y x acc2) acc) s =
      allCells.foldl (fun acc p => f p.1 p.2 acc) s := rfl

theorem mem_allCells (p : Int × Int) : p ∈ allCells ↔ InBoard p.2 p.1 := by
  obtain ⟨y, x⟩ := p
  unfold allCells InBoard
  simp only [List.mem_flatMap, List.mem_map, Prod.mk.injEq]
  constructor
  · rintro ⟨a, ha, c, hc, rfl, rfl⟩
    have h1 := (mem_indices a).1 ha
    have h2 := (mem_indices c).1 hc
    exact ⟨h2.1, h2.2, h1.1, h1.2⟩
  · rintro ⟨h1, h2, h3, h4⟩
    exact ⟨y, (mem_indices y).2 ⟨h3, h4⟩, x, (mem_indices x).2 ⟨h1, h2⟩, rfl, rfl⟩

theorem restore_player (b : Board) (p : Cell) (x y : Int) :
    ({ (CanPlace { b with currentPlayer := p } x y false).2 with
        currentPlayer := b.currentPlayer } : Board) = b := by
  rw [CanPlace_noflip]

theorem canMoveAt_iff (b : Board) (side : Cell) (hside : side ≠ Cell.EMPTY) {x y : Int}
    (hxy : InBoard x y) : canMoveAt b side y x = true ↔ LegalFor b side x y := by
  unfold canMoveAt
  rw [Bool.and_eq_true, decide_eq_true_eq,
    CanPlace_true_iff_legal { b with currentPlayer := side } hxy false hside]
  constructor
  · intro h; exact h.2
  · intro h; exact ⟨h.1, h⟩

theorem any_canMoveAt_iff (b : Board) (side : Cell) (hside : side ≠ Cell.EMPTY) :
    allCells.any (fun p => canMoveAt b side p.1 p.2) = true ↔ HasLegalMove b side := by
  rw [List.any_eq_true]
  constructor
  · rintro ⟨p, hp, h⟩
    have hin := (mem_allCells p).1 hp
    exact ⟨p.2, p.1, hin, (canMoveAt_iff b side hside hin).1 h⟩
  · rintro ⟨x, y, hin, h⟩
    exact ⟨(y, x), (mem_allCells (y, x)).2 hin, (canMoveAt_iff b side hside hin).2 h⟩

/-- One pass through the loop body of `CheckGameOver`, in closed form. -/
theorem checkCell_eq (y x : Int) (s : ScanState) :
    checkCell y x s =
      { board := s.board,
        blackCount := s.blackCount + (if cellAt s.board y x = Cell.Black_Disc then 1 else 0),
        whiteCount := s.whiteCount + (if cellAt s.board y x = Cell.White_Disc then 1 else 0),
        blackCanMove := s.blackCanMove || canMoveAt s.board Cell.Black_Disc y x,
        whiteCanMove := s.whiteCanMove || canMoveAt s.board Cell.White_Disc y x } := by
  obtain ⟨b, bc, wc, bm, wm⟩ := s
  unfold checkCell canMoveAt
  cases hcell : cellAt b y x <;> cases bm <;> cases wm <;>
    simp [hcell, restore_player, CanPlace_noflip]

theorem scan_fold (b : Board) : ∀ (cs : List (Int × Int)) (s : ScanState), s.board = b →
    cs.foldl (fun acc p => checkCell p.1 p.2 acc) s =
      { board := b,
        blackCount := s.blackCount + (cs.countP (fun p => decide (cellAt b p.1 p.2 = Cell.Black_Disc)) : Nat),
        whiteCount := s.whiteCount + (cs.countP (fun p => decide (cellAt b p.1 p.2 = Cell.White_Disc)) : Nat),
        blackCanMove := s.blackCanMove || cs.any (fun p => canMoveAt b Cell.Black_Disc p.1 p.2),
        whiteCanMove := s.whiteCanMove || cs.any (fun p => canMoveAt b Cell.White_Disc p.1 p.2) } := by
  intro cs
  induction cs with
  | nil =>
    intro s hs
    obtain ⟨b2, bc, wc, bm, wm⟩ := s
    simp only at hs
    subst hs
    simp
  | cons p cs ih =>
    intro s hs
    rw [List.foldl_cons, checkCell_eq, ih _ (by simpa using hs)]
    simp only [hs, List.countP_cons, List.any_cons, decide_eq_true_eq]
    congr 1
    · split <;> push_cast <;> ring
    · split <;> push_cast <;> ring
    · rw [Bool.or_assoc]
    · rw [Bool.or_assoc]

theorem scanBoard_eq (b : Board) :
    scanBoard b =
      { board := b,
        blackCount := (countDiscs b Cell.Black_Disc : Nat),
        whiteCount := (countDiscs b Cell.White_Disc : Nat),
        blackCanMove := allCells.any (fun p => canMoveAt b Cell.Black_Disc p.1 p.2),
        whiteCanMove := allCells.any (fun p => canMoveAt b Cell.White_Disc p.1 p.2) } := by
  unfold scanBoard
  rw [nested_foldl (fun y x s => checkCell y x s), scan_fold b allCells _ rfl]
  simp [countDiscs]

theorem gameOn_board (b : Board) : (gameOn b).board = b := rfl

theorem CheckGameOver_board (g : Game) : (CheckGameOver g).board.board = g.board.board := by
  unfold CheckGameOver
  simp only [scanBoard_eq]
  split
  · rfl
  · split <;> rfl

/-- When the scan finds no move for either side, `CheckGameOver` ends the game and leaves
the side to move as it is. -/
theorem CheckGameOver_when_over (g : Game)
    (e1 : allCells.any (fun p => canMoveAt g.board Cell.Black_Disc p.1 p.2) = false)
    (e2 : allCells.any (fun p => canMoveAt g.board Cell.White_Disc p.1 p.2) = false) :
    (CheckGameOver g).board.currentPlayer = g.board.currentPlayer ∧
    (CheckGameOver g).gameOver = true := by
  unfold CheckGameOver
  simp [scanBoard_eq, e1, e2]

theorem wipeout_reached :
    playMoves initialBoard
      [(5, 4), (3, 5), (2, 4), (5, 3), (4, 6), (5, 5), (6, 4), (4, 5), (4, 2)] = wipeoutBoard := by
  decide!

theorem wipeout_scan :
    allCells.any (fun p => canMoveAt wipeoutBoard Cell.Black_Disc p.1 p.2) = false ∧
    allCells.any (fun p => canMoveAt wipeoutBoard Cell.White_Disc p.1 p.2) = false := by
  decide!

set_option maxRecDepth 100000 in
theorem wipeout_counts :
    countDiscs wipeoutBoard Cell.Black_Disc = 13 ∧ countDiscs wipeoutBoard Cell.White_Disc = 0 := by
  decide!

theorem wipeout_no_moves :
    ¬ HasLegalMove wipeoutBoard Cell.Black_Disc ∧ ¬ HasLegalMove wipeoutBoard Cell.White_Disc := by
  constructor
  · intro h
    have := (any_canMoveAt_iff wipeoutBoard Cell.Black_Disc (by decide)).2 h
    rw [wipeout_scan.1] at this
    exact Bool.false_ne_true this
  · intro h
    have := (any_canMoveAt_iff wipeoutBoard Cell.White_Disc (by decide)).2 h
    rw [wipeout_scan.2] at this
    exact Bool.false_ne_true this

/-- C5: `CheckGameOver` sets `gameOver` exactly when neither Black nor White has a legal
move, and then `result` is BLACK_WINS, WHITE_WINS or DRAW as the Black disc count is
greater than, smaller than or equal to the White one; when some side has a legal move,
`gameOver` and `result` keep their values. -/
theorem CheckGameOver_outcome (g : Game) :
    ((¬ HasLegalMove g.board Cell.Black_Disc ∧ ¬ HasLegalMove g.board Cell.White_Disc) →
      (CheckGameOver g).gameOver = true ∧
      (CheckGameOver g).result =
        (if countDiscs g.board Cell.Black_Disc > countDiscs g.board Cell.White_Disc then
          GameResult.BLACK_WINS
        else if countDiscs g.board Cell.Black_Disc < countDiscs g.board Cell.White_Disc then
          GameResult.WHITE_WINS
        else GameResult.DRAW)) ∧
    ((HasLegalMove g.board Cell.Black_Disc ∨ HasLegalMove g.board Cell.White_Disc) →
      (CheckGameOver g).gameOver = g.gameOver ∧ (CheckGameOver g).result = g.result) := by
  have hB := any_canMoveAt_iff g.board Cell.Black_Disc (by decide)
  have hW := any_canMoveAt_iff g.board Cell.White_Disc (by decide)
  constructor
  · rintro ⟨h1, h2⟩
    have e1 : allCells.any (fun p => canMoveAt g.board Cell.Black_Disc p.1 p.2) = false := by
      cases h : allCells.any (fun p => canMoveAt g.board Cell.Black_Disc p.1 p.2) with
      | false => rfl
      | true => exact absurd (hB.1 h) h1
    have e2 : allCells.any (fun p => canMoveAt g.board Cell.White_Disc p.1 p.2) = false := by
      cases h : allCells.any (fun p => canMoveAt g.board Cell.White_Disc p.1 p.2) with
      | false => rfl
      | true => exact absurd (hW.1 h) h2
    unfold CheckGameOver
    simp only [scanBoard_eq, e1, e2, Bool.not_false, Bool.and_self, if_true, true_and,
      gt_iff_lt, Nat.cast_lt]
  · intro h
    have e : ¬ ((!allCells.any (fun p => canMoveAt g.board Cell.Black_Disc p.1 p.2) &&
        !allCells.any (fun p => canMoveAt g.board Cell.White_Disc p.1 p.2)) = true) := by
      intro hc
      simp only [Bool.and_eq_true, Bool.not_eq_true', ← Bool.not_eq_true] at hc
      rcases h with h | h
      · exact hc.1 (hB.2 h)
      · exact hc.2 (hW.2 h)
    unfold CheckGameOver
    simp only [scanBoard_eq, if_neg e]
    split <;> exact ⟨rfl, rfl⟩

theorem CheckGameOver_outcome_witness :
    countDiscs wipeoutBoard Cell.Black_Disc = 13 ∧ countDiscs wipeoutBoard Cell.White_Disc = 0 ∧
    (CheckGameOver (gameOn wipeoutBoard)).gameOver = true ∧
    (CheckGameOver (gameOn wipeoutBoard)).result = GameResult.BLACK_WINS := by
  have h := (CheckGameOver_outcome (gameOn wipeoutBoard)).1
    (by rw [gameOn_board]; exact wipeout_no_moves)
  rw [gameOn_board] at h
  have c1 : countDiscs wipeoutBoard Cell.Black_Disc = 13 := wipeout_counts.1
  have c2 : countDiscs wipeoutBoard Cell.White_Disc = 0 := wipeout_counts.2
  refine ⟨c1, c2, h.1, ?_⟩
  rw [h.2]
  show (if countDiscs wipeoutBoard Cell.Black_Disc > countDiscs wipeoutBoard Cell.White_Disc
    then GameResult.BLACK_WINS else _) = _
  rw [c1, c2]
  rfl

/-- C6, as stated, fails: on the position reached by the nine placements of `wipeoutBoard`,
White is to move and has no legal move, yet `CheckGameOver` does not toggle the side to
move (it ends the game instead). -/
theorem CheckGameOver_no_toggle_at_end :
    wipeoutBoard.currentPlayer = Cell.White_Disc ∧
    ¬ HasLegalMove wipeoutBoard wipeoutBoard.currentPlayer ∧
    (CheckGameOver (gameOn wipeoutBoard)).board.currentPlayer = Cell.White_Disc := by
  have hc : wipeoutBoard.currentPlayer = Cell.White_Disc := rfl
  refine ⟨hc, ?_, ?_⟩
  · rw [hc]; exact wipeout_no_moves.2
  · rw [(CheckGameOver_when_over (gameOn wipeoutBoard) (by rw [gameOn_board]; exact wipeout_scan.1)
      (by rw [gameOn_board]; exact wipeout_scan.2)).1, gameOn_board]
    exact hc

/-- C6, amended: when the side to move has no legal move, `CheckGameOver` alters no cell;
it toggles the side to move if the other side has a legal move, and leaves the side to
move as it is (ending the game) if the other side has none either. -/
theorem CheckGameOver_forced_pass (g : Game)
    (hside : g.board.currentPlayer = Cell.Black_Disc ∨ g.board.currentPlayer = Cell.White_Disc)
    (hno : ¬ HasLegalMove g.board g.board.currentPlayer) :
    (CheckGameOver g).board.board = g.board.board ∧
    (HasLegalMove g.board (opposing g.board.currentPlayer) →
      (CheckGameOver g).board.currentPlayer = opposing g.board.currentPlayer) ∧
    (¬ HasLegalMove g.board (opposing g.board.currentPlayer) →
      (CheckGameOver g).board.currentPlayer = g.board.currentPlayer ∧
      (CheckGameOver g).gameOver = true) := by
  have hB := any_canMoveAt_iff g.board Cell.Black_Disc (by decide)
  have hW := any_canMoveAt_iff g.board Cell.White_Disc (by decide)
  refine ⟨CheckGameOver_board g, ?_, ?_⟩
  · intro hother
    rcases hside with hs | hs
    · rw [hs] at hno hother ⊢
      have e1 : allCells.any (fun p => canMoveAt g.board Cell.Black_Disc p.1 p.2) = false := by
        cases h : allCells.any (fun p => canMoveAt g.board Cell.Black_Disc p.1 p.2) with
        | false => rfl
        | true => exact absurd (hB.1 h) hno
      have e2 := hW.2 hother
      unfold CheckGameOver
      simp [scanBoard_eq, e1, e2, hs, otherDisc, opposing]
    · rw [hs] at hno hother ⊢
      have e1 : allCells.any (fun p => canMoveAt g.board Cell.White_Disc p.1 p.2) = false := by
        cases h : allCells.any (fun p => canMoveAt g.board Cell.White_Disc p.1 p.2) with
        | false => rfl
        | true => exact absurd (hW.1 h) hno
      have e2 := hB.2 hother
      unfold CheckGameOver
      simp [scanBoard_eq, e1, e2, hs, otherDisc, opposing]
  · intro hother
    have e1 : allCells.any (fun p => canMoveAt g.board Cell.Black_Disc p.1 p.2) = false := by
      cases h : allCells.any (fun p => canMoveAt g.board Cell.Black_Disc p.1 p.2) with
      | false => rfl
      | true =>
        rcases hside with hs | hs
        · rw [hs] at hno; exact absurd (hB.1 h) hno
        · rw [hs] at hother; exact absurd (hB.1 h) hother
    have e2 : allCells.any (fun p => canMoveAt g.board Cell.White_Disc p.1 p.2) = false := by
      cases h : allCells.any (fun p => canMoveAt g.board Cell.White_Disc p.1 p.2) with
      | false => rfl
      | true =>
        rcases hside with hs | hs
        · rw [hs] at hother; exact absurd (hW.1 h) hother
        · rw [hs] at hno; exact absurd (hW.1 h) hno
    exact CheckGameOver_when_over g e1 e2

theorem pass_scan :
    allCells.any (fun p => canMoveAt passBoard Cell.Black_Disc p.1 p.2) = true ∧
    allCells.any (fun p => canMoveAt passBoard Cell.White_Disc p.1 p.2) = false := by
  decide!

theorem CheckGameOver_forced_pass_witness :
    passBoard.currentPlayer = Cell.White_Disc ∧
    ¬ HasLegalMove passBoard passBoard.currentPlayer ∧
    HasLegalMove passBoard (opposing passBoard.currentPlayer) ∧
    (CheckGameOver (gameOn passBoard)).board.currentPlayer = Cell.Black_Disc := by
  have hno : ¬ HasLegalMove passBoard passBoard.currentPlayer := by
    intro h
    have := (any_canMoveAt_iff passBoard Cell.White_Disc (by decide)).2 h
    rw [pass_scan.2] at this
    exact Bool.false_ne_true this
  have hyes : HasLegalMove passBoard (opposing passBoard.currentPlayer) :=
    (any_canMoveAt_iff passBoard Cell.Black_Disc (by decide)).1 pass_scan.1
  have hcur : passBoard.currentPlayer = Cell.White_Disc := rfl
  have h := (CheckGameOver_forced_pass (gameOn passBoard)
    (by rw [gameOn_board]; exact Or.inr hcur) (by rw [gameOn_board]; exact hno)).2.1
    (by rw [gameOn_board]; exact hyes)
  rw [gameOn_board, hcur] at h
  exact ⟨hcur, hno, hyes, h⟩

theorem minimaxCell_skip (c : Board → Bool → Int → Int → Int) (isMax : Bool) (y x : Int)
    (s : SearchState) (h : cellAt s.board y x ≠ Cell.EMPTY) :
    minimaxCell c isMax y x s = (s, false) := by
  unfold minimaxCell
  rw [if_neg h]

theorem minimaxCell_nomove (c : Board → Bool → Int → Int → Int) (isMax : Bool) (y x : Int)
    (s : SearchState) (h1 : cellAt s.board y x = Cell.EMPTY)
    (h2 : (CanPlace s.board x y isMax).1 = false) :
    minimaxCell c isMax y x s = ({ s with board := (CanPlace s.board x y isMax).2 }, false) := by
  unfold minimaxCell
  rw [if_pos h1]
  simp only [h2, Bool.false_eq_true, if_false]

theorem minimaxCell_move (c : Board → Bool → Int → Int → Int) (isMax : Bool) (y x : Int)
    (s : SearchState) (h1 : cellAt s.board y x = Cell.EMPTY)
    (h2 : (CanPlace s.board x y isMax).1 = true) :
    minimaxCell c isMax y x s =
      (scoredState isMax s (CanPlace s.board x y isMax).2
        (c (PlacePiece (Clone (CanPlace s.board x y isMax).2) x y) (!isMax) s.alpha s.beta),
       decide ((scoredState isMax s (CanPlace s.board x y isMax).2
        (c (PlacePiece (Clone (CanPlace s.board x y isMax).2) x y) (!isMax) s.alpha s.beta)).beta ≤
        (scoredState isMax s (CanPlace s.board x y isMax).2
        (c (PlacePiece (Clone (CanPlace s.board x y isMax).2) x y) (!isMax) s.alpha s.beta)).alpha)) := by
  unfold minimaxCell scoredState
  rw [if_pos h1]
  simp only [h2, if_true]

theorem minimaxCell_cut (c : Board → Bool → Int → Int → Int) (isMax : Bool) (a0 b0 y x : Int)
    (s : SearchState) (h : CutState isMax a0 b0 s) :
    CutState isMax a0 b0 (minimaxCell c isMax y x s).1 := by
  obtain ⟨h1, h2⟩ := h
  by_cases hc : cellAt s.board y x = Cell.EMPTY
  · cases hr : (CanPlace s.board x y isMax).1 with
    | false =>
      rw [minimaxCell_nomove c isMax y x s hc hr]
      exact ⟨h1, h2⟩
    | true =>
      rw [minimaxCell_move c isMax y x s hc hr]
      cases isMax
      · simp only [Bool.false_eq_true, if_false] at h2
        simp only [CutState, scoredState, Bool.false_eq_true, if_false, true_and]
        omega
      · simp only [if_true] at h2
        simp only [CutState, scoredState, if_true, true_and]
        omega
  · rw [minimaxCell_skip c isMax y x s hc]
    exact ⟨h1, h2⟩

theorem sync_cell (cp cu : Board → Bool → Int → Int → Int) (hc : ChildAgree cp cu)
    (isMax : Bool) (a0 b0 : Int) (ha : INT_MIN ≤ a0) (hb : b0 ≤ INT_MAX) (y x : Int)
    (sp su : SearchState) (h : SyncRel isMax a0 b0 sp su) :
    ((minimaxCell cp isMax y x sp).2 = false ∧
      SyncRel isMax a0 b0 (minimaxCell cp isMax y x sp).1 (minimaxCell cu isMax y x su).1) ∨
    ((minimaxCell cp isMax y x sp).2 = true ∧
      CutState isMax a0 b0 (minimaxCell cp isMax y x sp).1 ∧
      CutState isMax a0 b0 (minimaxCell cu isMax y x su).1) := by
  obtain ⟨hbd, hm, hw, hrest⟩ := h
  by_cases hcell : cellAt sp.board y x = Cell.EMPTY
  · have hcell2 : cellAt su.board y x = Cell.EMPTY := by rw [← hbd]; exact hcell
    cases hr : (CanPlace sp.board x y isMax).1 with
    | false =>
      have hr2 : (CanPlace su.board x y isMax).1 = false := by rw [← hbd]; exact hr
      rw [minimaxCell_nomove cp isMax y x sp hcell hr, minimaxCell_nomove cu isMax y x su hcell2 hr2]
      left
      refine ⟨rfl, ?_, hm, hw, hrest⟩
      show (CanPlace sp.board x y isMax).2 = (CanPlace su.board x y isMax).2
      rw [hbd]
    | true =>
      have hr2 : (CanPlace su.board x y isMax).1 = true := by rw [← hbd]; exact hr
      rw [minimaxCell_move cp isMax y x sp hcell hr, minimaxCell_move cu isMax y x su hcell2 hr2]
      have hbeq : (CanPlace su.board x y isMax).2 = (CanPlace sp.board x y isMax).2 := by rw [hbd]
      rw [hbeq]
      generalize (CanPlace sp.board x y isMax).2 = nb
      cases isMax
      · simp only [Bool.false_eq_true, if_false] at hrest
        obtain ⟨h1, h2, h3, h4⟩ := hrest
        have hwr := hc (PlacePiece (Clone nb) x y) (!false) sp.alpha sp.beta su.alpha su.beta
          (by omega) hw (by omega)
        generalize cp (PlacePiece (Clone nb) x y) (!false) sp.alpha sp.beta = p at hwr ⊢
        generalize cu (PlacePiece (Clone nb) x y) (!false) su.alpha su.beta = u at hwr ⊢
        obtain ⟨w1, w2, w3⟩ := hwr
        simp only [scoredState, SyncRel, CutState, Bool.false_eq_true, if_false,
          decide_eq_false_iff_not, decide_eq_true_eq, true_and]
        by_cases hbrk : min sp.beta (min sp.bestScore p) ≤ sp.alpha
        · right
          refine ⟨hbrk, ?_, ?_⟩ <;> omega
        · left
          refine ⟨hbrk, ?_, ?_, ?_, ?_, ?_⟩ <;> omega
      · simp only [if_true] at hrest
        obtain ⟨h1, h2, h3, h4⟩ := hrest
        have hwr := hc (PlacePiece (Clone nb) x y) (!true) sp.alpha sp.beta su.alpha su.beta
          (by omega) hw (by omega)
        generalize cp (PlacePiece (Clone nb) x y) (!true) sp.alpha sp.beta = p at hwr ⊢
        generalize cu (PlacePiece (Clone nb) x y) (!true) su.alpha su.beta = u at hwr ⊢
        obtain ⟨w1, w2, w3⟩ := hwr
        simp only [scoredState, SyncRel, CutState, if_true,
          decide_eq_false_iff_not, decide_eq_true_eq, true_and]
        by_cases hbrk : sp.beta ≤ max sp.alpha (max sp.bestScore p)
        · right
          refine ⟨hbrk, ?_, ?_⟩ <;> omega
        · left
          refine ⟨hbrk, ?_, ?_, ?_, ?_, ?_⟩ <;> omega
  · have hcell2 : cellAt su.board y x ≠ Cell.EMPTY := by rw [← hbd]; exact hcell
    rw [minimaxCell_skip cp isMax y x sp hcell, minimaxCell_skip cu isMax y x su hcell2]
    left
    exact ⟨rfl, hbd, hm, hw, hrest⟩

theorem foldl_preserves {σ β : Type} (P : σ → Prop) (f : σ → β → σ)
    (hP : ∀ s x, P s → P (f s x)) : ∀ (l : List β) (s : σ), P s → P (l.foldl f s) := by
  intro l
  induction l with
  | nil => intro s h; exact h
  | cons x xs ih => intro s h; exact ih _ (hP s x h)

theorem minimaxRow_preserves (P : SearchState → Prop) (c : Board → Bool → Int → Int → Int)
    (isMax : Bool) (y : Int) (hP : ∀ x s, P s → P (minimaxCell c isMax y x s).1) :
    ∀ (xs : List Int) (s : SearchState), P s → P (minimaxRow c isMax y xs s) := by
  intro xs
  induction xs with
  | nil => intro s h; exact h
  | cons x xs ih =>
    intro s h
    have := hP x s h
    unfold minimaxRow
    simp only
    split
    · exact this
    · exact ih _ this

theorem noCutRow_preserves (P : SearchState → Prop) (c : Board → Bool → Int → Int → Int)
    (isMax : Bool) (y : Int) (hP : ∀ x s, P s → P (minimaxCell c isMax y x s).1) :
    ∀ (xs : List Int) (s : SearchState), P s → P (noCutRow c isMax y xs s) := by
  intro xs
  induction xs with
  | nil => intro s h; exact h
  | cons x xs ih => intro s h; exact ih _ (hP x s h)

theorem sync_row (cp cu : Board → Bool → Int → Int → Int) (hc : ChildAgree cp cu)
    (isMax : Bool) (a0 b0 : Int) (ha : INT_MIN ≤ a0) (hb : b0 ≤ INT_MAX) (y : Int) :
    ∀ (xs : List Int) (sp su : SearchState), SyncRel isMax a0 b0 sp su →
      SyncRel isMax a0 b0 (minimaxRow cp isMax y xs sp) (noCutRow cu isMax y xs su) ∨
      (CutState isMax a0 b0 (minimaxRow cp isMax y xs sp) ∧
       CutState isMax a0 b0 (noCutRow cu isMax y xs su)) := by
  intro xs
  induction xs with
  | nil => intro sp su h; exact Or.inl h
  | cons x xs ih =>
    intro sp su h
    rcases sync_cell cp cu hc isMax a0 b0 ha hb y x sp su h with ⟨h1, h2⟩ | ⟨h1, h2, h3⟩
    · have e : minimaxRow cp isMax y (x :: xs) sp =
          minimaxRow cp isMax y xs (minimaxCell cp isMax y x sp).1 := by
        rw [minimaxRow]; simp only [h1, Bool.false_eq_true, if_false]
      rw [e]
      exact ih _ _ h2
    · have e : minimaxRow cp isMax y (x :: xs) sp = (minimaxCell cp isMax y x sp).1 := by
        rw [minimaxRow]; simp only [h1, if_true]
      rw [e]
      exact Or.inr ⟨h2, noCutRow_preserves _ cu isMax y
        (fun x s hs => minimaxCell_cut cu isMax a0 b0 y x s hs) xs _ h3⟩

theorem sync_rows (cp cu : Board → Bool → Int → Int → Int) (hc : ChildAgree cp cu)
    (isMax : Bool) (a0 b0 : Int) (ha : INT_MIN ≤ a0) (hb : b0 ≤ INT_MAX) (xs : List Int) :
    ∀ (ys : List Int) (sp su : SearchState),
      (SyncRel isMax a0 b0 sp su ∨ (CutState isMax a0 b0 sp ∧ CutState isMax a0 b0 su)) →
      (SyncRel isMax a0 b0 (ys.foldl (fun acc y => minimaxRow cp isMax y xs acc) sp)
          (ys.foldl (fun acc y => noCutRow cu isMax y xs acc) su) ∨
        (CutState isMax a0 b0 (ys.foldl (fun acc y => minimaxRow cp isMax y xs acc) sp) ∧
         CutState isMax a0 b0 (ys.foldl (fun acc y => noCutRow cu isMax y xs acc) su))) := by
  intro ys
  induction ys with
  | nil => intro sp su h; exact h
  | cons y ys ih =>
    intro sp su h
    rw [List.foldl_cons, List.foldl_cons]
    apply ih
    rcases h with h | ⟨h1, h2⟩
    · exact sync_row cp cu hc isMax a0 b0 ha hb y xs sp su h
    · exact Or.inr ⟨minimaxRow_preserves _ cp isMax y
          (fun x s hs => minimaxCell_cut cp isMax a0 b0 y x s hs) xs _ h1,
        noCutRow_preserves _ cu isMax y
          (fun x s hs => minimaxCell_cut cu isMax a0 b0 y x s hs) xs _ h2⟩

theorem Minimax_succ (b : Board) (d : Nat) (isMax : Bool) (alpha beta : Int) :
    Minimax b (d + 1) isMax alpha beta =
      if (indices.foldl
          (fun acc y => minimaxRow (fun nb m a c => Minimax nb d m a c) isMax y indices acc)
          { board := b, bestScore := if isMax then INT_MIN else INT_MAX,
            moveAvailable := false, alpha := alpha, beta := beta }).moveAvailable = true
      then (indices.foldl
          (fun acc y => minimaxRow (fun nb m a c => Minimax nb d m a c) isMax y indices acc)
          { board := b, bestScore := if isMax then INT_MIN else INT_MAX,
            moveAvailable := false, alpha := alpha, beta := beta }).bestScore
      else EvaluateBoard (indices.foldl
          (fun acc y => minimaxRow (fun nb m a c => Minimax nb d m a c) isMax y indices acc)
          { board := b, bestScore := if isMax then INT_MIN else INT_MAX,
            moveAvailable := false, alpha := alpha, beta := beta }).board := rfl

theorem MinimaxNoCut_succ (b : Board) (d : Nat) (isMax : Bool) (alpha beta : Int) :
    MinimaxNoCut b (d + 1) isMax alpha beta =
      if (indices.foldl
          (fun acc y => noCutRow (fun nb m a c => MinimaxNoCut nb d m a c) isMax y indices acc)
          { board := b, bestScore := if isMax then INT_MIN else INT_MAX,
            moveAvailable := false, alpha := alpha, beta := beta }).moveAvailable = true
      then (indices.foldl
          (fun acc y => noCutRow (fun nb m a c => MinimaxNoCut nb d m a c) isMax y indices acc)
          { board := b, bestScore := if isMax then INT_MIN else INT_MAX,
            moveAvailable := false, alpha := alpha, beta := beta }).bestScore
      else EvaluateBoard (indices.foldl
          (fun acc y => noCutRow (fun nb m a c => MinimaxNoCut nb d m a c) isMax y indices acc)
          { board := b, bestScore := if isMax then INT_MIN else INT_MAX,
            moveAvailable := false, alpha := alpha, beta := beta }).board := rfl

/-- On every window inside `[INT_MIN, INT_MAX]` the pruned search returns the unpruned
score when that score lies inside the window, and a score on the same side of the window
otherwise. -/
theorem Minimax_agree : ∀ d : Nat,
    ChildAgree (fun b m a c => Minimax b d m a c) (fun b m a c => MinimaxNoCut b d m a c) := by
  intro d
  induction d with
  | zero =>
    intro b m a c a2 c2 _ _ _
    show WindowRel a c (EvaluateBoard b) (EvaluateBoard b)
    exact ⟨fun h => h, fun h => h, fun _ _ => rfl⟩
  | succ d ih =>
    intro b m a c a2 c2 ha hac hc
    show WindowRel a c (Minimax b (d + 1) m a c) (MinimaxNoCut b (d + 1) m a2 c2)
    rw [Minimax_succ, MinimaxNoCut_succ]
    have hinit : SyncRel m a c
        { board := b, bestScore := if m then INT_MIN else INT_MAX,
          moveAvailable := false, alpha := a, beta := c }
        { board := b, bestScore := if m then INT_MIN else INT_MAX,
          moveAvailable := false, alpha := a2, beta := c2 } := by
      refine ⟨rfl, rfl, hac, ?_⟩
      cases m
      · show a = a ∧ c = min c INT_MAX ∧ (c ≤ INT_MAX → c ≤ INT_MAX) ∧
          (INT_MAX < c → INT_MAX = INT_MAX)
        refine ⟨rfl, ?_, ?_, ?_⟩ <;> omega
      · show c = c ∧ a = max a INT_MIN ∧ (INT_MIN ≤ a → INT_MIN ≤ a) ∧
          (a < INT_MIN → INT_MIN = INT_MIN)
        refine ⟨rfl, ?_, ?_, ?_⟩ <;> omega
    have hfin := sync_rows _ _ ih m a c ha hc indices indices _ _ (Or.inl hinit)
    generalize indices.foldl
      (fun acc y => minimaxRow (fun nb m a c => Minimax nb d m a c) m y indices acc)
      { board := b, bestScore := if m then INT_MIN else INT_MAX,
        moveAvailable := false, alpha := a, beta := c } = sp at hfin ⊢
    generalize indices.foldl
      (fun acc y => noCutRow (fun nb m a c => MinimaxNoCut nb d m a c) m y indices acc)
      { board := b, bestScore := if m then INT_MIN else INT_MAX,
        moveAvailable := false, alpha := a2, beta := c2 } = su at hfin ⊢
    rcases hfin with ⟨hbd, hm, hw, hrest⟩ | ⟨⟨hp1, hp2⟩, ⟨hu1, hu2⟩⟩
    · rw [← hm, ← hbd]
      by_cases hav : sp.moveAvailable = true
      · rw [if_pos hav, if_pos hav]
        cases m
        · simp only [Bool.false_eq_true, if_false] at hrest
          refine ⟨?_, ?_, ?_⟩ <;> omega
        · simp only [if_true] at hrest
          refine ⟨?_, ?_, ?_⟩ <;> omega
      · rw [if_neg hav, if_neg hav]
        exact ⟨fun h => h, fun h => h, fun _ _ => rfl⟩
    · rw [if_pos hp1, if_pos hu1]
      cases m
      · simp only [Bool.false_eq_true, if_false] at hp2 hu2
        refine ⟨?_, ?_, ?_⟩ <;> omega
      · simp only [if_true] at hp2 hu2
        refine ⟨?_, ?_, ?_⟩ <;> omega

theorem weight_bound : ∀ p ∈ allCells, -100 ≤ weightAt p.1 p.2 ∧ weightAt p.1 p.2 ≤ 100 := by
  decide

theorem evalFold_bound (b : Board) : ∀ (cs : List (Int × Int)),
    (∀ p ∈ cs, -100 ≤ weightAt p.1 p.2 ∧ weightAt p.1 p.2 ≤ 100) → ∀ s : Int,
    s - 100 * (cs.length : Int) ≤ cs.foldl (fun score p =>
        if cellAt b p.1 p.2 = Cell.Black_Disc then score + weightAt p.1 p.2
        else if cellAt b p.1 p.2 = Cell.White_Disc then score - weightAt p.1 p.2
        else score) s ∧
    cs.foldl (fun score p =>
        if cellAt b p.1 p.2 = Cell.Black_Disc then score + weightAt p.1 p.2
        else if cellAt b p.1 p.2 = Cell.White_Disc then score - weightAt p.1 p.2
        else score) s ≤ s + 100 * (cs.length : Int) := by
  intro cs
  induction cs with
  | nil => intro _ s; simp
  | cons p cs ih =>
    intro h s
    have hp := h p (List.mem_cons_self _ _)
    have ih2 := ih (fun q hq => h q (List.mem_cons_of_mem _ hq))
    rw [List.foldl_cons, List.length_cons]
    push_cast
    split
    · have := ih2 (s + weightAt p.1 p.2); omega
    · split
      · have := ih2 (s - weightAt p.1 p.2); omega
      · have := ih2 s; omega

/-- The scores of `EvaluateBoard` stay far inside the range of `int`. -/
theorem EvaluateBoard_bound (b : Board) :
    -6400 ≤ EvaluateBoard b ∧ EvaluateBoard b ≤ 6400 := by
  have h := evalFold_bound b allCells weight_bound 0
  have hl : (allCells.length : Int) = 64 := by decide
  rw [hl] at h
  have e : EvaluateBoard b = allCells.foldl (fun score p =>
        if cellAt b p.1 p.2 = Cell.Black_Disc then score + weightAt p.1 p.2
        else if cellAt b p.1 p.2 = Cell.White_Disc then score - weightAt p.1 p.2
        else score) 0 :=
    nested_foldl (fun y x score =>
        if cellAt b y x = Cell.Black_Disc then score + weightAt y x
        else if cellAt b y x = Cell.White_Disc then score - weightAt y x
        else score) 0
  rw [e]
  omega

theorem minimaxCell_bound (c : Board → Bool → Int → Int → Int)
    (hc : ∀ b m a k, -6400 ≤ c b m a k ∧ c b m a k ≤ 6400) (isMax : Bool) (y x : Int)
    (s : SearchState) (h : BoundState isMax s) :
    BoundState isMax (minimaxCell c isMax y x s).1 := by
  have hmin : INT_MIN = -2147483648 := rfl
  have hmax : INT_MAX = 2147483647 := rfl
  by_cases hcell : cellAt s.board y x = Cell.EMPTY
  · cases hr : (CanPlace s.board x y isMax).1 with
    | false =>
      rw [minimaxCell_nomove c isMax y x s hcell hr]
      exact h
    | true =>
      rw [minimaxCell_move c isMax y x s hcell hr]
      have hs := hc (PlacePiece (Clone (CanPlace s.board x y isMax).2) x y) (!isMax) s.alpha s.beta
      generalize c (PlacePiece (Clone (CanPlace s.board x y isMax).2) x y) (!isMax)
        s.alpha s.beta = v at hs ⊢
      obtain ⟨h1, h2⟩ := h
      cases hav : s.moveAvailable with
      | false =>
        have hb := h2 hav
        cases isMax
        · simp only [Bool.false_eq_true, if_false] at hb
          simp only [BoundState, scoredState, Bool.false_eq_true, if_false, forall_true_left,
            true_implies, IsEmpty.forall_iff, and_true, reduceCtorEq]
          omega
        · simp only [if_true] at hb
          simp only [BoundState, scoredState, if_true, forall_true_left,
            true_implies, IsEmpty.forall_iff, and_true, reduceCtorEq]
          omega
      | true =>
        have hb := h1 hav
        cases isMax
        · simp only [BoundState, scoredState, Bool.false_eq_true, if_false, forall_true_left,
            true_implies, IsEmpty.forall_iff, and_true, reduceCtorEq]
          omega
        · simp only [BoundState, scoredState, if_true, forall_true_left,
            true_implies, IsEmpty.forall_iff, and_true, reduceCtorEq]
          omega
  · rw [minimaxCell_skip c isMax y x s hcell]
    exact h

theorem BoundState_result (isMax : Bool) (s : SearchState) (h : BoundState isMax s) :
    -6400 ≤ (if s.moveAvailable = true then s.bestScore else EvaluateBoard s.board) ∧
    (if s.moveAvailable = true then s.bestScore else EvaluateBoard s.board) ≤ 6400 := by
  by_cases hav : s.moveAvailable = true
  · rw [if_pos hav]; exact h.1 hav
  · rw [if_neg hav]; exact EvaluateBoard_bound _

theorem BoundState_init (isMax : Bool) (b : Board) (alpha beta : Int) :
    BoundState isMax ⟨b, if isMax then INT_MIN else INT_MAX, false, alpha, beta⟩ :=
  ⟨fun h => absurd h (by simp), fun _ => rfl⟩

theorem Minimax_bound : ∀ (d : Nat) (b : Board) (m : Bool) (a c : Int),
    -6400 ≤ Minimax b d m a c ∧ Minimax b d m a c ≤ 6400 := by
  intro d
  induction d with
  | zero => intro b m a c; exact EvaluateBoard_bound b
  | succ d ih =>
    intro b m a c
    rw [Minimax_succ]
    apply BoundState_result m
    apply foldl_preserves (BoundState m)
    · intro s y hs
      exact minimaxRow_preserves _ _ m y
        (fun x t ht => minimaxCell_bound _ (fun b2 m2 a2 k2 => ih b2 m2 a2 k2) m y x t ht) _ s hs
    · exact BoundState_init m b a c

theorem MinimaxNoCut_bound : ∀ (d : Nat) (b : Board) (m : Bool) (a c : Int),
    -6400 ≤ MinimaxNoCut b d m a c ∧ MinimaxNoCut b d m a c ≤ 6400 := by
  intro d
  induction d with
  | zero => intro b m a c; exact EvaluateBoard_bound b
  | succ d ih =>
    intro b m a c
    rw [MinimaxNoCut_succ]
    apply BoundState_result m
    apply foldl_preserves (BoundState m)
    · intro s y hs
      exact noCutRow_preserves _ _ m y
        (fun x t ht => minimaxCell_bound _ (fun b2 m2 a2 k2 => ih b2 m2 a2 k2) m y x t ht) _ s hs
    · exact BoundState_init m b a c

/-- C7: for every board, depth and `isMax`, `Minimax(board, depth, isMax, INT_MIN, INT_MAX)`
returns the same score as the same procedure with the cutoff `if (beta <= alpha) break;`
removed. -/
theorem Minimax_eq_MinimaxNoCut (b : Board) (depth : Nat) (isMax : Bool) :
    Minimax b depth isMax INT_MIN INT_MAX = MinimaxNoCut b depth isMax INT_MIN INT_MAX := by
  have h : WindowRel INT_MIN INT_MAX (Minimax b depth isMax INT_MIN INT_MAX)
      (MinimaxNoCut b depth isMax INT_MIN INT_MAX) :=
    Minimax_agree depth b isMax INT_MIN INT_MAX INT_MIN INT_MAX (le_refl _)
      (by decide) (le_refl _)
  have hb := MinimaxNoCut_bound depth b isMax INT_MIN INT_MAX
  have hmin : INT_MIN = -2147483648 := rfl
  have hmax : INT_MAX = 2147483647 := rfl
  exact h.2.2 (by omega) (by omega)

theorem canMoveAt_current (b : Board) (y x : Int) :
    canMoveAt b b.currentPlayer y x =
      (decide (cellAt b y x = Cell.EMPTY) && (CanPlace b x y false).1) := rfl

/-- One pass through the loop body of `MakeMove` on the board `b`, in closed form. -/
theorem makeMoveCell_eq (b : Board) (y x : Int) (s : MoveState) (hb : s.board = b) :
    makeMoveCell y x s =
      if canMoveAt b b.currentPlayer y x = true then
        if moveScore b x y > s.bestScore then ⟨b, moveScore b x y, x, y⟩ else s
      else s := by
  obtain ⟨sb, best, mx, my⟩ := s
  simp only at hb
  subst hb
  unfold makeMoveCell moveScore
  rw [canMoveAt_current]
  by_cases hc : cellAt sb y x = Cell.EMPTY
  · cases hr : (CanPlace sb x y false).1 with
    | false => simp [hc, hr, CanPlace_noflip]
    | true => simp [hc, hr, CanPlace_noflip]
  · simp [hc]

theorem makeMoveCell_board (b : Board) (y x : Int) (s : MoveState) (hb : s.board = b) :
    (makeMoveCell y x s).board = b := by
  rw [makeMoveCell_eq b y x s hb]
  split
  · split
    · rfl
    · exact hb
  · exact hb

/-- The loops of `MakeMove` over the cells `cs`, started in the state `s` on the board `b`:
the best score never decreases, it is at least the score of every legal cell visited, and
the final state is either `s` or the state set at a legal cell whose score beats `s`. -/
theorem searchMove_fold (b : Board) : ∀ (cs : List (Int × Int)) (s : MoveState),
    s.board = b →
    (cs.foldl (fun acc p => makeMoveCell p.1 p.2 acc) s).board = b ∧
    s.bestScore ≤ (cs.foldl (fun acc p => makeMoveCell p.1 p.2 acc) s).bestScore ∧
    (∀ p ∈ cs, canMoveAt b b.currentPlayer p.1 p.2 = true →
      moveScore b p.2 p.1 ≤ (cs.foldl (fun acc p => makeMoveCell p.1 p.2 acc) s).bestScore) ∧
    (cs.foldl (fun acc p => makeMoveCell p.1 p.2 acc) s = s ∨
      ∃ p ∈ cs, canMoveAt b b.currentPlayer p.1 p.2 = true ∧
        cs.foldl (fun acc p => makeMoveCell p.1 p.2 acc) s = ⟨b, moveScore b p.2 p.1, p.2, p.1⟩ ∧
        s.bestScore < moveScore b p.2 p.1) := by
  intro cs
  induction cs with
  | nil =>
    intro s hb
    exact ⟨hb, le_refl _, fun p hp => absurd hp (List.not_mem_nil p), Or.inl rfl⟩
  | cons p cs ih =>
    intro s hb
    rw [List.foldl_cons]
    obtain ⟨i1, i2, i3, i4⟩ := ih (makeMoveCell p.1 p.2 s) (makeMoveCell_board b _ _ s hb)
    have hstep := makeMoveCell_eq b p.1 p.2 s hb
    by_cases hupd : canMoveAt b b.currentPlayer p.1 p.2 = true ∧ moveScore b p.2 p.1 > s.bestScore
    · have e : makeMoveCell p.1 p.2 s = ⟨b, moveScore b p.2 p.1, p.2, p.1⟩ := by
        rw [hstep, if_pos hupd.1, if_pos hupd.2]
      rw [e] at i1 i2 i3 i4 ⊢
      simp only at i2
      refine ⟨i1, by omega, ?_, ?_⟩
      · intro q hq hlegal
        rcases List.mem_cons.1 hq with h | h
        · rw [h]; exact i2
        · exact i3 q h hlegal
      · right
        rcases i4 with h | ⟨q, hq, hlegal, hfin, hlt⟩
        · exact ⟨p, List.mem_cons_self _ _, hupd.1, h, hupd.2⟩
        · exact ⟨q, List.mem_cons_of_mem _ hq, hlegal, hfin, by simp only at hlt; omega⟩
    · have e : makeMoveCell p.1 p.2 s = s := by
        rw [hstep]
        by_cases hl : canMoveAt b b.currentPlayer p.1 p.2 = true
        · rw [if_pos hl, if_neg (fun h => hupd ⟨hl, h⟩)]
        · rw [if_neg hl]
      rw [e] at i1 i2 i3 i4 ⊢
      refine ⟨i1, i2, ?_, ?_⟩
      · intro q hq hlegal
        rcases List.mem_cons.1 hq with h | h
        · rw [h] at hlegal ⊢
          have : ¬ moveScore b p.2 p.1 > s.bestScore := fun h2 => hupd ⟨hlegal, h2⟩
          omega
        · exact i3 q h hlegal
      · rcases i4 with h | ⟨q, hq, hlegal, hfin, hlt⟩
        · exact Or.inl h
        · exact Or.inr ⟨q, List.mem_cons_of_mem _ hq, hlegal, hfin, hlt⟩

/-- What the loops of `MakeMove` compute: the best score is at least the score of every
legal move, and the move kept is a legal one with that score (none if there is no legal
move). -/
theorem searchMove_spec (b : Board) :
    (∀ x y : Int, InBoard x y → canMoveAt b b.currentPlayer y x = true →
      moveScore b x y ≤ (searchMove b).bestScore) ∧
    (searchMove b = ⟨b, INT_MIN, -1, -1⟩ ∨
      ∃ x y : Int, InBoard x y ∧ canMoveAt b b.currentPlayer y x = true ∧
        searchMove b = ⟨b, moveScore b x y, x, y⟩) := by
  have hfold : searchMove b =
      allCells.foldl (fun acc p => makeMoveCell p.1 p.2 acc) ⟨b, INT_MIN, -1, -1⟩ :=
    nested_foldl (fun y x s => makeMoveCell y x s) _
  obtain ⟨_, _, h3, h4⟩ := searchMove_fold b allCells ⟨b, INT_MIN, -1, -1⟩ rfl
  rw [← hfold] at h3 h4
  refine ⟨fun x y hin hl => h3 (y, x) ((mem_allCells (y, x)).2 hin) hl, ?_⟩
  rcases h4 with h | ⟨p, hp, hl, hfin, _⟩
  · exact Or.inl h
  · exact Or.inr ⟨p.2, p.1, (mem_allCells p).1 hp, hl, hfin⟩

theorem moveScore_bound (b : Board) (x y : Int) :
    -6400 ≤ moveScore b x y ∧ moveScore b x y ≤ 6400 :=
  Minimax_bound 2 _ true INT_MIN INT_MAX

/-- When the side to move has a legal move, `MakeMove` plays the move its loops kept, a
legal one, and the score of that move is the best score found. -/
theorem MakeMove_plays (b : Board) {x0 y0 : Int} (hin0 : InBoard x0 y0)
    (hl0 : canMoveAt b b.currentPlayer y0 x0 = true) :
    InBoard (searchMove b).moveX (searchMove b).moveY ∧
    canMoveAt b b.currentPlayer (searchMove b).moveY (searchMove b).moveX = true ∧
    (searchMove b).bestScore = moveScore b (searchMove b).moveX (searchMove b).moveY ∧
    MakeMove b = PlacePiece b (searchMove b).moveX (searchMove b).moveY := by
  obtain ⟨h1, h2⟩ := searchMove_spec b
  rcases h2 with h | ⟨x, y, hin, hl, hfin⟩
  · have := h1 x0 y0 hin0 hl0
    rw [h] at this
    have hb := (moveScore_bound b x0 y0).1
    have hmin : INT_MIN = -2147483648 := rfl
    simp only at this
    omega
  · have hx : x ≠ -1 := by have := hin.1; omega
    have hy : y ≠ -1 := by have := hin.2.2.1; omega
    unfold MakeMove
    simp only [hfin]
    exact ⟨hin, hl, trivial, by rw [if_pos ⟨hx, hy⟩]⟩

/-- C10: when the side to move has a legal move, `MakeMove` changes the board by exactly
one legal placement: the board afterwards is `PlacePiece(x, y)` of the board before, for an
in-range legal `(x, y)`. -/
theorem MakeMove_single_placement (b : Board)
    (hside : b.currentPlayer = Cell.Black_Disc ∨ b.currentPlayer = Cell.White_Disc)
    (hmove : HasLegalMove b b.currentPlayer) :
    ∃ x y : Int, InBoard x y ∧ LegalFor b b.currentPlayer x y ∧ MakeMove b = PlacePiece b x y := by
  have hs : b.currentPlayer ≠ Cell.EMPTY := by rcases hside with h | h <;> rw [h] <;> decide
  obtain ⟨x0, y0, hin0, hleg0⟩ := hmove
  obtain ⟨hin, hl, _, hplay⟩ :=
    MakeMove_plays b hin0 ((canMoveAt_iff b b.currentPlayer hs hin0).2 hleg0)
  exact ⟨(searchMove b).moveX, (searchMove b).moveY, hin,
    (canMoveAt_iff b b.currentPlayer hs hin).1 hl, hplay⟩

theorem MakeMove_single_placement_witness :
    HasLegalMove initialBoard initialBoard.currentPlayer ∧
    ∃ x y : Int, InBoard x y ∧ LegalFor initialBoard initialBoard.currentPlayer x y ∧
      MakeMove initialBoard = PlacePiece initialBoard x y :=
  have h : HasLegalMove initialBoard initialBoard.currentPlayer :=
    ⟨3, 2, by decide, (canMoveAt_iff initialBoard _ (by decide) (by decide)).1 (by decide)⟩
  ⟨h, MakeMove_single_placement initialBoard (Or.inl rfl) h⟩

theorem directCell_eq (child : Board → Bool → Int → Int → Int) (isMax : Bool) (y x : Int)
    (s : SearchState) : minimaxCell child isMax y x s = directCell child isMax y x s := by
  unfold minimaxCell directCell scoredState
  simp only [Clone_eq]

theorem directRow_eq (child : Board → Bool → Int → Int → Int) (isMax : Bool) (y : Int) :
    ∀ (xs : List Int) (s : SearchState),
      minimaxRow child isMax y xs s = directRow child isMax y xs s := by
  intro xs
  induction xs with
  | nil => intro s; rfl
  | cons x xs ih =>
    intro s
    unfold minimaxRow directRow
    simp only [directCell_eq, ih]

theorem MinimaxDirect_succ (b : Board) (d : Nat) (isMax : Bool) (alpha beta : Int) :
    MinimaxDirect b (d + 1) isMax alpha beta =
      if (indices.foldl
          (fun acc y => directRow (fun nb m a c => MinimaxDirect nb d m a c) isMax y indices acc)
          ⟨b, if isMax then INT_MIN else INT_MAX, false, alpha, beta⟩).moveAvailable = true
      then (indices.foldl
          (fun acc y => directRow (fun nb m a c => MinimaxDirect nb d m a c) isMax y indices acc)
          ⟨b, if isMax then INT_MIN else INT_MAX, false, alpha, beta⟩).bestScore
      else EvaluateBoard (indices.foldl
          (fun acc y => directRow (fun nb m a c => MinimaxDirect nb d m a c) isMax y indices acc)
          ⟨b, if isMax then INT_MIN else INT_MAX, false, alpha, beta⟩).board := rfl

/-- Leaving out the copies made by `Clone` does not change the score of the search. -/
theorem MinimaxDirect_eq : ∀ (d : Nat) (b : Board) (m : Bool) (a c : Int),
    Minimax b d m a c = MinimaxDirect b d m a c := by
  intro d
  induction d with
  | zero => intro b m a c; rfl
  | succ d ih =>
    intro b m a c
    have hrow : (fun (acc : SearchState) (y : Int) =>
        minimaxRow (fun nb m a c => Minimax nb d m a c) m y indices acc) =
        (fun (acc : SearchState) (y : Int) =>
          directRow (fun nb m a c => MinimaxDirect nb d m a c) m y indices acc) := by
      funext acc y
      have hchild : (fun nb m a c => Minimax nb d m a c) =
          (fun nb m a c => MinimaxDirect nb d m a c) := by
        funext nb m a c; exact ih nb m a c
      rw [hchild]
      exact directRow_eq _ m y indices acc
    rw [Minimax_succ, MinimaxDirect_succ, hrow]

theorem whiteToMove_reached : playMoves initialBoard [(3, 2), (2, 2), (1, 2)] = whiteToMove := by
  decide!

theorem afterB2_reached : PlacePiece whiteToMove 1 1 = afterB2 := by
  decide!

theorem afterE3_reached : PlacePiece whiteToMove 4 2 = afterE3 := by
  decide!

theorem moveScore_direct (b : Board) (x y : Int) :
    moveScore b x y = MinimaxDirect (PlacePiece b x y) 2 true INT_MIN INT_MAX := by
  unfold moveScore
  rw [Clone_eq, MinimaxDirect_eq]

theorem childScores_direct (b : Board) (depth : Nat) (isMax : Bool) :
    childScores b depth isMax = (legalMoves b).map
      (fun p => MinimaxDirect (PlacePiece b p.2 p.1) depth (!isMax) INT_MIN INT_MAX) := by
  unfold childScores
  simp only [Clone_eq, MinimaxDirect_eq]

set_option maxRecDepth 100000 in
theorem afterB2_score : MinimaxDirect afterB2 2 true INT_MIN INT_MAX = -52 := by
  decide!

theorem afterB2_moves : legalMoves afterB2 = [(0, 1), (3, 2), (4, 5), (5, 4)] := by
  decide!

set_option maxRecDepth 100000 in
theorem afterB2_children :
    [((0 : Int), (1 : Int)), (3, 2), (4, 5), (5, 4)].map
      (fun p => MinimaxDirect (PlacePiece afterB2 p.2 p.1) 1 (!true) INT_MIN INT_MAX) =
      [-78, 42, 42, 42] := by
  decide!

/-- C9 fails on the code: on the board `afterB2` (Black to move), which `MakeMove` passes to
`Minimax(newBoard, 2, true, INT_MIN, INT_MAX)`, the call returns -52, while the scores
`Minimax(b_m, 1, false, INT_MIN, INT_MAX)` of the four legal moves of Black are -78, 42, 42
and 42, whose maximum is 42. -/
theorem Minimax_isMax_not_max_of_moves :
    afterB2.currentPlayer = Cell.Black_Disc ∧
    Minimax afterB2 2 true INT_MIN INT_MAX = -52 ∧
    legalMoves afterB2 = [(0, 1), (3, 2), (4, 5), (5, 4)] ∧
    childScores afterB2 1 true = [-78, 42, 42, 42] := by
  refine ⟨rfl, ?_, afterB2_moves, ?_⟩
  · rw [MinimaxDirect_eq]; exact afterB2_score
  · rw [childScores_direct, afterB2_moves]; exact afterB2_children

set_option maxRecDepth 100000 in
theorem afterE3_score : MinimaxDirect afterE3 2 true INT_MIN INT_MAX = -2 := by
  decide!

theorem whiteToMove_legal :
    canMoveAt whiteToMove Cell.White_Disc 1 1 = true ∧
    canMoveAt whiteToMove Cell.White_Disc 2 4 = true := by
  decide!

/-- C8 fails on the code when White moves: on the board `whiteToMove` (reached from the
initial board by three placements, White to move) the legal move `(x, y) = (1, 1)` has the
score -52 and the legal move `(4, 2)` the score -2, and the move `MakeMove` plays has a
score of at least -2: it is not a move of smallest score. -/
theorem MakeMove_white_takes_largest :
    whiteToMove.currentPlayer = Cell.White_Disc ∧
    LegalFor whiteToMove Cell.White_Disc 1 1 ∧ moveScore whiteToMove 1 1 = -52 ∧
    LegalFor whiteToMove Cell.White_Disc 4 2 ∧ moveScore whiteToMove 4 2 = -2 ∧
    LegalFor whiteToMove Cell.White_Disc
      (searchMove whiteToMove).moveX (searchMove whiteToMove).moveY ∧
    MakeMove whiteToMove =
      PlacePiece whiteToMove (searchMove whiteToMove).moveX (searchMove whiteToMove).moveY ∧
    -2 ≤ moveScore whiteToMove (searchMove whiteToMove).moveX (searchMove whiteToMove).moveY := by
  have hcur : whiteToMove.currentPlayer = Cell.White_Disc := rfl
  have h11 : canMoveAt whiteToMove whiteToMove.currentPlayer 1 1 = true := whiteToMove_legal.1
  have h42 : canMoveAt whiteToMove whiteToMove.currentPlayer 2 4 = true := whiteToMove_legal.2
  have s11 : moveScore whiteToMove 1 1 = -52 := by
    rw [moveScore_direct, afterB2_reached]; exact afterB2_score
  have s42 : moveScore whiteToMove 4 2 = -2 := by
    rw [moveScore_direct, afterE3_reached]; exact afterE3_score
  obtain ⟨pin, plegal, pbest, pplay⟩ := MakeMove_plays whiteToMove (by decide) h11
  have hge := (searchMove_spec whiteToMove).1 4 2 (by decide) h42
  rw [pbest, s42] at hge
  exact ⟨hcur, (canMoveAt_iff whiteToMove _ (by decide) (by decide)).1 h11, s11,
    (canMoveAt_iff whiteToMove _ (by decide) (by decide)).1 h42, s42,
    (canMoveAt_iff whiteToMove _ (by decide) pin).1 plegal, pplay, hge⟩

theorem makeMoveCellLog_fst (y x : Int) (s : MoveState × List Board) :
    (makeMoveCellLog y x s).1 = makeMoveCell y x s.1 := by
  unfold makeMoveCellLog makeMoveCell
  by_cases hc : cellAt s.1.board y x = Cell.EMPTY
  · rw [if_pos hc, if_pos hc]
    cases hr : (CanPlace s.1.board x y false).1 with
    | false => simp only [hr, Bool.false_eq_true, if_false]
    | true =>
      simp only [hr, if_true]
      split <;> rfl
  · rw [if_neg hc, if_neg hc]

theorem searchMoveLog_fold_fst : ∀ (cs : List (Int × Int)) (s : MoveState × List Board),
    (cs.foldl (fun acc p => makeMoveCellLog p.1 p.2 acc) s).1 =
      cs.foldl (fun acc p => makeMoveCell p.1 p.2 acc) s.1 := by
  intro cs
  induction cs with
  | nil => intro s; rfl
  | cons p cs ih =>
    intro s
    rw [List.foldl_cons, List.foldl_cons, ih, makeMoveCellLog_fst]

/-- The instrumented loops of `MakeMove` compute the same state as the loops themselves. -/
theorem searchMoveLog_fst (b : Board) : (searchMoveLog b).1 = searchMove b := by
  have h1 : searchMoveLog b =
      allCells.foldl (fun acc p => makeMoveCellLog p.1 p.2 acc) (⟨b, INT_MIN, -1, -1⟩, []) :=
    nested_foldl (fun y x s => makeMoveCellLog y x s) _
  have h2 : searchMove b =
      allCells.foldl (fun acc p => makeMoveCell p.1 p.2 acc) ⟨b, INT_MIN, -1, -1⟩ :=
    nested_foldl (fun y x s => makeMoveCell y x s) _
  rw [h1, h2, searchMoveLog_fold_fst]

theorem makeMoveCellLog_no_move (b : Board) (y x : Int) (s : MoveState × List Board)
    (hb : s.1.board = b) (h : canMoveAt b b.currentPlayer y x = false) :
    makeMoveCellLog y x s = s := by
  obtain ⟨⟨sb, best, mx, my⟩, log⟩ := s
  simp only at hb
  subst hb
  rw [canMoveAt_current] at h
  unfold makeMoveCellLog
  by_cases hc : cellAt sb y x = Cell.EMPTY
  · have hr : (CanPlace sb x y false).1 = false := by simpa [hc] using h
    simp [hc, hr, CanPlace_noflip]
  · simp [hc]

theorem searchMoveLog_no_move (b : Board) : ∀ (cs : List (Int × Int))
    (s : MoveState × List Board), s.1.board = b →
    (∀ p ∈ cs, canMoveAt b b.currentPlayer p.1 p.2 = false) →
    cs.foldl (fun acc p => makeMoveCellLog p.1 p.2 acc) s = s := by
  intro cs
  induction cs with
  | nil => intro s _ _; rfl
  | cons p cs ih =>
    intro s hb h
    rw [List.foldl_cons, makeMoveCellLog_no_move b p.1 p.2 s hb (h p (List.mem_cons_self _ _))]
    exact ih s hb (fun q hq => h q (List.mem_cons_of_mem _ hq))

/-- C11: when the side to move has no legal move, `MakeMove` leaves the 64 cells and
`currentPlayer` unchanged, and `Minimax` is never called: the search with its list of
`Minimax` calls computes what the search computes, and the list is empty. -/
theorem MakeMove_no_move (b : Board)
    (hside : b.currentPlayer = Cell.Black_Disc ∨ b.currentPlayer = Cell.White_Disc)
    (hno : ¬ HasLegalMove b b.currentPlayer) :
    MakeMove b = b ∧ (searchMoveLog b).1 = searchMove b ∧ (searchMoveLog b).2 = [] := by
  have hs : b.currentPlayer ≠ Cell.EMPTY := by rcases hside with h | h <;> rw [h] <;> decide
  have hnone : ∀ p ∈ allCells, canMoveAt b b.currentPlayer p.1 p.2 = false := by
    intro p hp
    cases h : canMoveAt b b.currentPlayer p.1 p.2 with
    | false => rfl
    | true =>
      have hin := (mem_allCells p).1 hp
      exact absurd ⟨p.2, p.1, hin, (canMoveAt_iff b b.currentPlayer hs hin).1 h⟩ hno
  have hlog : searchMoveLog b = (⟨b, INT_MIN, -1, -1⟩, []) := by
    have h1 : searchMoveLog b =
        allCells.foldl (fun acc p => makeMoveCellLog p.1 p.2 acc) (⟨b, INT_MIN, -1, -1⟩, []) :=
      nested_foldl (fun y x s => makeMoveCellLog y x s) _
    rw [h1]
    exact searchMoveLog_no_move b allCells _ rfl hnone
  have hsearch : searchMove b = ⟨b, INT_MIN, -1, -1⟩ := by
    rw [← searchMoveLog_fst, hlog]
  refine ⟨?_, searchMoveLog_fst b, by rw [hlog]⟩
  unfold MakeMove
  simp only [hsearch]
  rw [if_neg (by simp)]

theorem MakeMove_no_move_witness :
    ¬ HasLegalMove wipeoutBoard wipeoutBoard.currentPlayer ∧
    MakeMove wipeoutBoard = wipeoutBoard ∧
    (searchMoveLog wipeoutBoard).1 = searchMove wipeoutBoard ∧
    (searchMoveLog wipeoutBoard).2 = [] :=
  have h : ¬ HasLegalMove wipeoutBoard wipeoutBoard.currentPlayer := wipeout_no_moves.2
  ⟨h, MakeMove_no_move wipeoutBoard (Or.inr rfl) h⟩

theorem PlacePiece_currentPlayer (b : Board) (x y : Int) :
    (PlacePiece b x y).currentPlayer =
      if (CanPlace b x y true).1 = true then otherDisc b.currentPlayer else b.currentPlayer := by
  unfold PlacePiece
  simp only
  split
  · show otherDisc (setCell _ y x _).currentPlayer = _
    rw [setCell_currentPlayer, CanPlace_currentPlayer]
  · exact CanPlace_currentPlayer b x y true

/-- C15, as stated, fails: Black's placement at `(x, y) = (3, 2)` on the initial board is
legal, and `PlacePiece` itself makes White the side to move. -/
theorem PlacePiece_advances_on_initial :
    initialBoard.currentPlayer = Cell.Black_Disc ∧
    LegalFor initialBoard initialBoard.currentPlayer 3 2 ∧
    (PlacePiece initialBoard 3 2).currentPlayer = Cell.White_Disc :=
  ⟨by decide, (canMoveAt_iff initialBoard _ (by decide) (by decide)).1 (by decide), by decide⟩

/-- C15, amended: for every in-range legal placement `(x, y)` of the side to move,
`PlacePiece(x, y)` itself advances the side to move: `currentPlayer` after the call is the
opposing colour.  Its callers do not toggle it again: `HumanPlayer::MakeMove` with a click
on `(x, y)` and `AIPlayer::MakeMove` both return with the opposing colour to move. -/
theorem PlacePiece_legal_advances (b : Board) (x y : Int) (hxy : InBoard x y)
    (hside : b.currentPlayer = Cell.Black_Disc ∨ b.currentPlayer = Cell.White_Disc)
    (hlegal : LegalFor b b.currentPlayer x y) :
    (PlacePiece b x y).currentPlayer = opposing b.currentPlayer ∧
    (HumanMakeMove b (some (x, y))).currentPlayer = opposing b.currentPlayer ∧
    (MakeMove b).currentPlayer = opposing b.currentPlayer := by
  have hs : b.currentPlayer ≠ Cell.EMPTY := by rcases hside with h | h <;> rw [h] <;> decide
  have hplace : ∀ x2 y2 : Int, InBoard x2 y2 → LegalFor b b.currentPlayer x2 y2 →
      (PlacePiece b x2 y2).currentPlayer = opposing b.currentPlayer := by
    intro x2 y2 hin hl
    rw [PlacePiece_currentPlayer, if_pos ((CanPlace_true_iff_legal b hin true hs).2 hl),
      otherDisc_eq_opposing hs]
  refine ⟨hplace x y hxy hlegal, ?_, ?_⟩
  · have hhuman : HumanMakeMove b (some (x, y)) = PlacePiece b x y := by
      unfold HumanMakeMove
      simp only [(inb_iff x y).2 hxy, CanPlace_noflip,
        (CanPlace_true_iff_legal b hxy false hs).2 hlegal, if_true]
    rw [hhuman]
    exact hplace x y hxy hlegal
  · obtain ⟨hin, hl, _, hmk⟩ :=
      MakeMove_plays b hxy ((canMoveAt_iff b b.currentPlayer hs hxy).2 hlegal)
    rw [hmk]
    exact hplace _ _ hin ((canMoveAt_iff b b.currentPlayer hs hin).1 hl)

theorem PlacePiece_legal_advances_witness :
    InBoard 3 3 ∧ flipExample.currentPlayer = Cell.Black_Disc ∧
    (PlacePiece flipExample 3 3).currentPlayer = Cell.White_Disc :=
  ⟨by decide, rfl,
    (PlacePiece_legal_advances flipExample 3 3 (by decide) (Or.inl rfl)
      ⟨by decide, 1, 0, 1, by decide, flipExample_run⟩).1⟩

/-- C16: for every in-range `(row, col)` and every side, `IsValidMove(row, col, side)`
leaves the board as it was: the 64 cells and `currentPlayer` are unchanged, also when
`side` is not the side to move. -/
theorem IsValidMove_no_mutation (b : Board) (row col : Int) (side : Cell)
    (_hin : InBoard col row) : (IsValidMove b row col side).2 = b := by
  unfold IsValidMove
  split
  · rfl
  · simp only [CanPlace_noflip]

theorem IsValidMove_no_mutation_witness :
    InBoard 3 2 ∧ initialBoard.currentPlayer ≠ Cell.White_Disc ∧
    (IsValidMove initialBoard 2 3 Cell.White_Disc).2 = initialBoard :=
  ⟨by decide, by decide, IsValidMove_no_mutation initialBoard 2 3 Cell.White_Disc (by decide)⟩

/-- C19: when the side to move (Black or White) has a legal move, `CheckGameOver` leaves
`currentPlayer` unchanged; and `currentPlayer` is Black or White after `CheckGameOver` and
after `PlacePiece` whenever it was so before. -/
theorem currentPlayer_stays_a_side (g : Game)
    (hside : g.board.currentPlayer = Cell.Black_Disc ∨ g.board.currentPlayer = Cell.White_Disc) :
    (HasLegalMove g.board g.board.currentPlayer →
      (CheckGameOver g).board.currentPlayer = g.board.currentPlayer) ∧
    ((CheckGameOver g).board.currentPlayer = Cell.Black_Disc ∨
      (CheckGameOver g).board.currentPlayer = Cell.White_Disc) ∧
    (∀ x y : Int, (PlacePiece g.board x y).currentPlayer = Cell.Black_Disc ∨
      (PlacePiece g.board x y).currentPlayer = Cell.White_Disc) := by
  have hB := any_canMoveAt_iff g.board Cell.Black_Disc (by decide)
  have hW := any_canMoveAt_iff g.board Cell.White_Disc (by decide)
  refine ⟨?_, ?_, ?_⟩
  · intro hmove
    unfold CheckGameOver
    rcases hside with hs | hs
    · rw [hs] at hmove
      have e := hB.2 hmove
      simp [scanBoard_eq, e, hs]
    · rw [hs] at hmove
      have e := hW.2 hmove
      simp [scanBoard_eq, e, hs]
  · unfold CheckGameOver
    simp only [scanBoard_eq]
    split
    · exact hside
    · split
      · rcases hside with hs | hs <;> simp [hs, otherDisc]
      · exact hside
  · intro x y
    rw [PlacePiece_currentPlayer]
    split
    · rcases hside with hs | hs <;> simp [hs, otherDisc]
    · exact hside

theorem currentPlayer_stays_a_side_witness :
    HasLegalMove initialBoard initialBoard.currentPlayer ∧
    (CheckGameOver (gameOn initialBoard)).board.currentPlayer = Cell.Black_Disc := by
  have hmove : HasLegalMove initialBoard initialBoard.currentPlayer :=
    ⟨3, 2, by decide, (canMoveAt_iff initialBoard _ (by decide) (by decide)).1 (by decide)⟩
  have h := (currentPlayer_stays_a_side (gameOn initialBoard)
    (by rw [gameOn_board]; exact Or.inl (by decide))).1 (by rw [gameOn_board]; exact hmove)
  rw [gameOn_board] at h
  exact ⟨hmove, h.trans (by decide)⟩

/-- C20: `CheckGameOver` changes no cell of the grid, whether it ends the game, forces a
pass or does neither. -/
theorem CheckGameOver_grid_unchanged (g : Game) :
    (CheckGameOver g).board.board = g.board.board ∧
    (∀ r c : Int, cellAt (CheckGameOver g).board r c = cellAt g.board r c) := by
  have h := CheckGameOver_board g
  refine ⟨h, fun r c => ?_⟩
  unfold cellAt
  rw [h]

set_option maxRecDepth 100000 in
theorem allCells_ordered : allCells.Pairwise cellBefore := by decide!

theorem evalFold_sum (b : Board) : ∀ (cs : List (Int × Int)) (s : Int),
    cs.foldl (fun score p =>
        if cellAt b p.1 p.2 = Cell.Black_Disc then score + weightAt p.1 p.2
        else if cellAt b p.1 p.2 = Cell.White_Disc then score - weightAt p.1 p.2
        else score) s = s + (cs.map (cellValue b)).sum := by
  intro cs
  induction cs with
  | nil => intro s; simp
  | cons p cs ih =>
    intro s
    rw [List.foldl_cons, ih, List.map_cons, List.sum_cons]
    unfold cellValue
    split
    · ring
    · split
      · ring
      · ring

/-- The score of `EvaluateBoard` is the sum of the values of the 64 cells. -/
theorem EvaluateBoard_eq_sum (b : Board) :
    EvaluateBoard b = (allCells.map (cellValue b)).sum := by
  have e : EvaluateBoard b = allCells.foldl (fun score p =>
        if cellAt b p.1 p.2 = Cell.Black_Disc then score + weightAt p.1 p.2
        else if cellAt b p.1 p.2 = Cell.White_Disc then score - weightAt p.1 p.2
        else score) 0 :=
    nested_foldl (fun y x score =>
        if cellAt b y x = Cell.Black_Disc then score + weightAt y x
        else if cellAt b y x = Cell.White_Disc then score - weightAt y x
        else score) 0
  rw [e, evalFold_sum, zero_add]

theorem cellAt_swapColours (b : Board) (y x : Int) :
    cellAt (swapColours b) y x = opposing (cellAt b y x) := by
  unfold cellAt swapColours
  simp only [Mathlib.Vector.get_map]

theorem cellValue_swapColours (b : Board) (p : Int × Int) :
    cellValue (swapColours b) p = - cellValue b p := by
  unfold cellValue
  rw [cellAt_swapColours]
  cases cellAt b p.1 p.2 <;> simp [opposing]

theorem sum_map_neg (f g : Int × Int → Int) : ∀ (cs : List (Int × Int)),
    (∀ p ∈ cs, f p = - g p) → (cs.map f).sum = - (cs.map g).sum := by
  intro cs
  induction cs with
  | nil => intro _; simp
  | cons p cs ih =>
    intro h
    rw [List.map_cons, List.map_cons, List.sum_cons, List.sum_cons,
      ih (fun q hq => h q (List.mem_cons_of_mem _ hq)), h p (List.mem_cons_self _ _)]
    ring

/-- C13: `EvaluateBoard` of the colour-swapped grid is the negation of `EvaluateBoard` of
the grid. -/
theorem EvaluateBoard_swapColours (b : Board) :
    EvaluateBoard (swapColours b) = - EvaluateBoard b := by
  rw [EvaluateBoard_eq_sum, EvaluateBoard_eq_sum]
  exact sum_map_neg _ _ allCells (fun p _ => cellValue_swapColours b p)

theorem weight_symmetric : ∀ y ∈ indices, ∀ x ∈ indices,
    weightAt y x = weightAt x y ∧ weightAt y x = weightAt (7 - y) x ∧
    weightAt y x = weightAt y (7 - x) := by
  decide

theorem idx_rev {i : Int} (h : 0 ≤ i ∧ i < 8) : Fin.rev (idx i) = idx (7 - i) := by
  apply Fin.ext
  rw [Fin.val_rev]
  simp only [idx]
  omega

theorem cellAt_transposeBoard (b : Board) (y x : Int) :
    cellAt (transposeBoard b) y x = cellAt b x y := by
  unfold cellAt transposeBoard remapGrid
  simp only [Mathlib.Vector.get_ofFn]

theorem cellAt_flipRows (b : Board) {y : Int} (hy : 0 ≤ y ∧ y < 8) (x : Int) :
    cellAt (flipRows b) y x = cellAt b (7 - y) x := by
  unfold cellAt flipRows remapGrid
  simp only [Mathlib.Vector.get_ofFn, idx_rev hy]

theorem cellAt_flipCols (b : Board) (y : Int) {x : Int} (hx : 0 ≤ x ∧ x < 8) :
    cellAt (flipCols b) y x = cellAt b y (7 - x) := by
  unfold cellAt flipCols remapGrid
  simp only [Mathlib.Vector.get_ofFn, idx_rev hx]

theorem allCells_nodup : allCells.Nodup := by
  refine List.Pairwise.imp ?_ allCells_ordered
  intro p q h e
  rw [e] at h
  rcases h with h | ⟨_, h⟩ <;> omega

/-- A map of the 64 cells onto themselves that is its own inverse permutes `allCells`. -/
theorem allCells_perm (f : Int × Int → Int × Int) (hinv : ∀ p, f (f p) = p)
    (hmem : ∀ p, InBoard p.2 p.1 → InBoard (f p).2 (f p).1) :
    (allCells.map f).Perm allCells := by
  have hinj : Function.Injective f := by
    intro p q h
    rw [← hinv p, ← hinv q, h]
  rw [List.perm_ext_iff_of_nodup (allCells_nodup.map hinj) allCells_nodup]
  intro p
  rw [List.mem_map]
  constructor
  · rintro ⟨q, hq, rfl⟩
    exact (mem_allCells _).2 (hmem q ((mem_allCells q).1 hq))
  · intro hp
    exact ⟨f p, (mem_allCells _).2 (hmem p ((mem_allCells p).1 hp)), hinv p⟩

/-- The score does not change when the cells are moved by a permutation of the grid that
preserves the value of every cell. -/
theorem EvaluateBoard_remap (b c : Board) (f : Int × Int → Int × Int)
    (hinv : ∀ p, f (f p) = p) (hmem : ∀ p, InBoard p.2 p.1 → InBoard (f p).2 (f p).1)
    (hval : ∀ p ∈ allCells, cellValue c p = cellValue b (f p)) :
    EvaluateBoard c = EvaluateBoard b := by
  rw [EvaluateBoard_eq_sum, EvaluateBoard_eq_sum]
  have h1 : allCells.map (cellValue c) = (allCells.map f).map (cellValue b) := by
    rw [List.map_map]
    exact List.map_congr_left hval
  rw [h1]
  exact ((allCells_perm f hinv hmem).map (cellValue b)).sum_eq

theorem EvaluateBoard_transposeBoard (b : Board) :
    EvaluateBoard (transposeBoard b) = EvaluateBoard b := by
  apply EvaluateBoard_remap b (transposeBoard b) (fun p => (p.2, p.1))
  · intro p; rfl
  · intro p hp; exact ⟨hp.2.2.1, hp.2.2.2, hp.1, hp.2.1⟩
  · intro p hp
    have hin := (mem_allCells p).1 hp
    have hw := (weight_symmetric p.1 ((mem_indices _).2 ⟨hin.2.2.1, hin.2.2.2⟩) p.2
      ((mem_indices _).2 ⟨hin.1, hin.2.1⟩)).1
    unfold cellValue
    simp only [cellAt_transposeBoard, hw]

theorem EvaluateBoard_flipRows (b : Board) :
    EvaluateBoard (flipRows b) = EvaluateBoard b := by
  apply EvaluateBoard_remap b (flipRows b) (fun p => (7 - p.1, p.2))
  · intro p; simp
  · intro p hp
    unfold InBoard at hp ⊢
    simp only
    omega
  · intro p hp
    have hin := (mem_allCells p).1 hp
    have hw := (weight_symmetric p.1 ((mem_indices _).2 ⟨hin.2.2.1, hin.2.2.2⟩) p.2
      ((mem_indices _).2 ⟨hin.1, hin.2.1⟩)).2.1
    unfold cellValue
    simp only [cellAt_flipRows b ⟨hin.2.2.1, hin.2.2.2⟩, hw]

theorem EvaluateBoard_flipCols (b : Board) :
    EvaluateBoard (flipCols b) = EvaluateBoard b := by
  apply EvaluateBoard_remap b (flipCols b) (fun p => (p.1, 7 - p.2))
  · intro p; simp
  · intro p hp
    unfold InBoard at hp ⊢
    simp only
    omega
  · intro p hp
    have hin := (mem_allCells p).1 hp
    have hw := (weight_symmetric p.1 ((mem_indices _).2 ⟨hin.2.2.1, hin.2.2.2⟩) p.2
      ((mem_indices _).2 ⟨hin.1, hin.2.1⟩)).2.2
    unfold cellValue
    simp only [cellAt_flipCols b p.1 ⟨hin.1, hin.2.1⟩, hw]

/-- C14: the weight table satisfies `weight[y][x] = weight[x][y] = weight[7-y][x] =
weight[y][7-x]` for all `x, y` in `0..7`, and for every board `EvaluateBoard` returns the
same score on each of the 8 rotated or reflected images of the grid. -/
theorem EvaluateBoard_symmetric :
    (∀ y x : Int, InBoard x y →
      weightAt y x = weightAt x y ∧ weightAt y x = weightAt (7 - y) x ∧
      weightAt y x = weightAt y (7 - x)) ∧
    (∀ b : Board, ∀ img ∈ symmetricImages b, EvaluateBoard img = EvaluateBoard b) := by
  refine ⟨forall_inBoard_of_indices weight_symmetric, ?_⟩
  intro b img himg
  unfold symmetricImages at himg
  simp only [List.mem_cons, List.mem_singleton, List.mem_nil_iff, or_false] at himg
  rcases himg with h | h | h | h | h | h | h | h <;> rw [h] <;>
    simp only [EvaluateBoard_transposeBoard, EvaluateBoard_flipRows, EvaluateBoard_flipCols]

theorem walkLog_spec (b : Board) (dx dy : Int) : ∀ (fuel : Nat) (cx cy : Int) (count : Nat)
    (log : List (Int × Int)), (∀ p ∈ log, InBoard p.2 p.1) →
    (walkLog b dx dy fuel cx cy count log).1 = walk b dx dy fuel cx cy count ∧
    (∀ p ∈ (walkLog b dx dy fuel cx cy count log).2, InBoard p.2 p.1) := by
  intro fuel
  induction fuel with
  | zero => intro cx cy count log h; exact ⟨rfl, h⟩
  | succ f ih =>
    intro cx cy count log h
    unfold walkLog walk
    by_cases hin : Is_Within_Boundaries cx cy = true
    · have hlog : ∀ p ∈ log ++ [(cy, cx)], InBoard p.2 p.1 := by
        intro p hp
        rcases List.mem_append.1 hp with h1 | h1
        · exact h p h1
        · rw [List.mem_singleton.1 h1]; exact (inb_iff cx cy).1 hin
      by_cases hc : cellAt b cy cx = otherDisc b.currentPlayer
      · simp only [hin, hc, if_true, Bool.true_and, decide_True]
        exact ih _ _ _ _ hlog
      · simp only [hin, hc, if_true, if_false, Bool.true_and, decide_False, Bool.false_eq_true]
        exact ⟨trivial, hlog⟩
    · simp only [hin, if_false, Bool.false_and, Bool.false_eq_true]
      exact ⟨trivial, h⟩

/-- The instrumented `TryFlip` computes what `TryFlip` computes, and from an in-board cell in
a unit direction every subscript it uses lies on the board. -/
theorem TryFlipLog_spec (b : Board) {x y dx dy : Int} (hxy : InBoard x y) (hd : UnitDir dx dy)
    (flip : Bool) :
    (TryFlipLog b x y dx dy flip).1 = TryFlip b x y dx dy flip ∧
    (∀ p ∈ (TryFlipLog b x y dx dy flip).2, InBoard p.2 p.1) := by
  obtain ⟨hw1, hw2⟩ := walkLog_spec b dx dy 8 (x + dx) (y + dy) 0 [] (by simp)
  obtain ⟨n, _, hw, hall, _⟩ := walk_from b hxy hd 8 (le_refl _)
  unfold TryFlipLog TryFlip
  simp only [hw1]
  generalize (walkLog b dx dy 8 (x + dx) (y + dy) 0 []).2 = wl at hw2 ⊢
  rw [hw]
  simp only
  by_cases h1 : (decide (n > 0) && Is_Within_Boundaries (x + ((n : Int) + 1) * dx)
      (y + ((n : Int) + 1) * dy)) = true
  · have hin : InBoard (x + ((n : Int) + 1) * dx) (y + ((n : Int) + 1) * dy) := by
      simp only [Bool.and_eq_true, decide_eq_true_eq] at h1
      exact (inb_iff _ _).1 h1.2
    have hlog1 : ∀ p ∈ wl ++ [(y + ((n : Int) + 1) * dy, x + ((n : Int) + 1) * dx)],
        InBoard p.2 p.1 := by
      intro p hp
      rcases List.mem_append.1 hp with h2 | h2
      · exact hw2 p h2
      · rw [List.mem_singleton.1 h2]; exact hin
    by_cases h2 : cellAt b (y + ((n : Int) + 1) * dy) (x + ((n : Int) + 1) * dx) = b.currentPlayer
    · cases flip
      · simp only [h1, h2, if_true, Bool.true_and, decide_True, Bool.false_eq_true, if_false]
        exact ⟨trivial, hlog1⟩
      · simp only [h1, h2, if_true, Bool.true_and, decide_True]
        refine ⟨trivial, ?_⟩
        intro p hp
        rcases List.mem_append.1 hp with h3 | h3
        · exact hlog1 p h3
        · obtain ⟨i, hi, rfl⟩ := List.mem_map.1 h3
          have hr := List.mem_range'_1.1 hi
          exact (hall i hr.1 (by omega)).1
    · simp only [h1, h2, if_true, if_false, Bool.true_and, decide_False, Bool.false_eq_true]
      exact ⟨trivial, hlog1⟩
  · simp only [h1, if_false, Bool.false_and, Bool.false_eq_true]
    exact ⟨trivial, hw2⟩

theorem CanPlaceLog_eq_dirs (b : Board) (x y : Int) (flip : Bool) :
    CanPlaceLog b x y flip =
      if cellAt b y x ≠ Cell.EMPTY then ((false, b), [(y, x)])
      else dirs.foldl (canPlaceStepLog x y flip) ((false, b), [(y, x)]) := by
  unfold CanPlaceLog
  split
  · rfl
  · simp [deltas, dirs]

theorem canPlaceLog_fold (x y : Int) (hxy : InBoard x y) (flip : Bool) :
    ∀ (ds : List (Int × Int)) (s : (Bool × Board) × List (Int × Int)),
      (∀ d ∈ ds, UnitDir d.1 d.2) → (∀ p ∈ s.2, InBoard p.2 p.1) →
      (ds.foldl (canPlaceStepLog x y flip) s).1 = ds.foldl (canPlaceStep x y flip) s.1 ∧
      (∀ p ∈ (ds.foldl (canPlaceStepLog x y flip) s).2, InBoard p.2 p.1) := by
  intro ds
  induction ds with
  | nil => intro s _ h; exact ⟨rfl, h⟩
  | cons d ds ih =>
    intro s hds h
    rw [List.foldl_cons, List.foldl_cons]
    obtain ⟨t1, t2⟩ := TryFlipLog_spec s.1.2 hxy (hds d (List.mem_cons_self _ _)) flip
    have hstep : (canPlaceStepLog x y flip s d).1 = canPlaceStep x y flip s.1 d := by
      unfold canPlaceStepLog canPlaceStep
      simp only [t1]
    have hlog : ∀ p ∈ (canPlaceStepLog x y flip s d).2, InBoard p.2 p.1 := by
      intro p hp
      unfold canPlaceStepLog at hp
      rcases List.mem_append.1 hp with h1 | h1
      · exact h p h1
      · exact t2 p h1
    have := ih (canPlaceStepLog x y flip s d) (fun e he => hds e (List.mem_cons_of_mem _ he)) hlog
    rw [hstep] at this
    exact this

theorem CanPlaceLog_spec (b : Board) {x y : Int} (hxy : InBoard x y) (flip : Bool) :
    (CanPlaceLog b x y flip).1 = CanPlace b x y flip ∧
    (∀ p ∈ (CanPlaceLog b x y flip).2, InBoard p.2 p.1) := by
  have hfirst : ∀ p ∈ [(y, x)], InBoard p.2 p.1 := by
    intro p hp
    rw [List.mem_singleton.1 hp]; exact hxy
  rw [CanPlaceLog_eq_dirs, CanPlace_eq_dirs]
  by_cases hc : cellAt b y x ≠ Cell.EMPTY
  · rw [if_pos hc, if_pos hc]
    exact ⟨rfl, hfirst⟩
  · rw [if_neg hc, if_neg hc]
    exact canPlaceLog_fold x y hxy flip dirs ((false, b), [(y, x)])
      (fun d hd => (mem_dirs_iff d).1 hd) hfirst

/-- C18: for `0 <= x, y < 8` and both values of `flip`, every grid subscript that
`CanPlace(x, y, flip)` or `PlacePiece(x, y)` reads or writes has both coordinates in
`[0, 8)`; in particular every cell `TryFlip` flips, `(y + i*dy, x + i*dx)` for
`1 <= i <= count`, is in bounds. -/
theorem accesses_in_bounds (b : Board) (x y : Int) (hxy : InBoard x y) (flip : Bool) :
    (CanPlaceLog b x y flip).1 = CanPlace b x y flip ∧
    (∀ p ∈ (CanPlaceLog b x y flip).2, InBoard p.2 p.1) ∧
    (PlacePieceLog b x y).1 = PlacePiece b x y ∧
    (∀ p ∈ (PlacePieceLog b x y).2, InBoard p.2 p.1) ∧
    (∀ dx dy : Int, UnitDir dx dy → ∀ i : Nat, 1 ≤ i →
      i ≤ (walk b dx dy 8 (x + dx) (y + dy) 0).2.2 →
      InBoard (x + (i : Int) * dx) (y + (i : Int) * dy)) := by
  obtain ⟨c1, c2⟩ := CanPlaceLog_spec b hxy flip
  obtain ⟨p1, p2⟩ := CanPlaceLog_spec b hxy true
  refine ⟨c1, c2, ?_, ?_, ?_⟩
  · unfold PlacePieceLog PlacePiece
    simp only [p1]
    split <;> rfl
  · intro p hp
    unfold PlacePieceLog at hp
    simp only at hp
    split at hp
    · rcases List.mem_append.1 hp with h1 | h1
      · exact p2 p h1
      · rw [List.mem_singleton.1 h1]; exact hxy
    · exact p2 p hp
  · intro dx dy hd i h1 h2
    obtain ⟨n, _, hw, hall, _⟩ := walk_from b hxy hd 8 (le_refl _)
    rw [hw] at h2
    exact (hall i h1 h2).1

theorem accesses_in_bounds_witness :
    InBoard 3 3 ∧
    (PlacePieceLog flipExample 3 3).2 =
      [(3, 3), (2, 2), (2, 3), (2, 4), (3, 2), (3, 4), (3, 5), (3, 5), (3, 4), (4, 2), (4, 3),
       (4, 4), (3, 3)] ∧
    (∀ p ∈ (PlacePieceLog flipExample 3 3).2, InBoard p.2 p.1) :=
  ⟨by decide, by decide, (accesses_in_bounds flipExample 3 3 (by decide) true).2.2.2.1⟩

/-- On a board without a legal move for the side to move, the loop body of `Minimax` leaves
its state as it is and does not reach `break`, whatever `isMax` is. -/
theorem minimaxCell_no_move (c : Board → Bool → Int → Int → Int) (isMax : Bool) {y x : Int}
    (hxy : InBoard x y) (s : SearchState)
    (hno : canMoveAt s.board s.board.currentPlayer y x = false) :
    minimaxCell c isMax y x s = (s, false) := by
  by_cases he : cellAt s.board y x = Cell.EMPTY
  · have hf : (CanPlace s.board x y false).1 = false := by
      rw [canMoveAt_current] at hno
      simpa [he] using hno
    have hc := CanPlace_illegal s.board hxy hf isMax
    rw [minimaxCell_nomove c isMax y x s he (by rw [hc]), hc]
  · exact minimaxCell_skip c isMax y x s he

theorem minimaxRow_no_move (c : Board → Bool → Int → Int → Int) (isMax : Bool) {y : Int}
    (hy : 0 ≤ y ∧ y < 8) (s : SearchState) :
    ∀ xs : List Int, (∀ x ∈ xs, 0 ≤ x ∧ x < 8) →
      (∀ x ∈ xs, canMoveAt s.board s.board.currentPlayer y x = false) →
      minimaxRow c isMax y xs s = s := by
  intro xs
  induction xs with
  | nil => intro _ _; rfl
  | cons x xs ih =>
    intro hin hno
    have hx := hin x (List.mem_cons_self _ _)
    unfold minimaxRow
    simp only [minimaxCell_no_move c isMax ⟨hx.1, hx.2, hy.1, hy.2⟩ s
      (hno x (List.mem_cons_self _ _)), Bool.false_eq_true, if_false]
    exact ih (fun z hz => hin z (List.mem_cons_of_mem _ hz))
      (fun z hz => hno z (List.mem_cons_of_mem _ hz))

theorem minimaxLoops_no_move (c : Board → Bool → Int → Int → Int) (isMax : Bool)
    (s : SearchState)
    (hno : ∀ y x : Int, InBoard x y → canMoveAt s.board s.board.currentPlayer y x = false) :
    ∀ ys : List Int, (∀ y ∈ ys, 0 ≤ y ∧ y < 8) →
      ys.foldl (fun acc y => minimaxRow c isMax y indices acc) s = s := by
  intro ys
  induction ys with
  | nil => intro _; rfl
  | cons y ys ih =>
    intro hin
    have hy := hin y (List.mem_cons_self _ _)
    rw [List.foldl_cons, minimaxRow_no_move c isMax hy s indices
      (fun x hx => (mem_indices x).1 hx)
      (fun x hx => hno y x ⟨((mem_indices x).1 hx).1, ((mem_indices x).1 hx).2, hy.1, hy.2⟩)]
    exact ih (fun z hz => hin z (List.mem_cons_of_mem _ hz))

theorem canMoveAt_of_no_move (b : Board)
    (hside : b.currentPlayer = Cell.Black_Disc ∨ b.currentPlayer = Cell.White_Disc)
    (hno : ¬ HasLegalMove b b.currentPlayer) :
    ∀ y x : Int, InBoard x y → canMoveAt b b.currentPlayer y x = false := by
  intro y x hin
  have hs : b.currentPlayer ≠ Cell.EMPTY := by rcases hside with h | h <;> rw [h] <;> decide
  cases h : canMoveAt b b.currentPlayer y x with
  | false => rfl
  | true => exact absurd ⟨x, y, hin, (canMoveAt_iff b b.currentPlayer hs hin).1 h⟩ hno

/-- C21: `Minimax` returns exactly `EvaluateBoard(board)` when `depth = 0`, and also when
`depth >= 1` and the side to move (Black or White) has no legal move, for every `isMax`,
`alpha` and `beta`. -/
theorem Minimax_leaf (b : Board) (depth : Nat) (isMax : Bool) (alpha beta : Int)
    (hside : b.currentPlayer = Cell.Black_Disc ∨ b.currentPlayer = Cell.White_Disc)
    (h : depth = 0 ∨ ¬ HasLegalMove b b.currentPlayer) :
    Minimax b depth isMax alpha beta = EvaluateBoard b := by
  cases depth with
  | zero => rfl
  | succ d =>
    have hno : ¬ HasLegalMove b b.currentPlayer := by
      rcases h with h | h
      · exact absurd h (Nat.succ_ne_zero d)
      · exact h
    rw [Minimax_succ]
    rw [minimaxLoops_no_move (fun nb m a c => Minimax nb d m a c) isMax
      { board := b, bestScore := if isMax then INT_MIN else INT_MAX,
        moveAvailable := false, alpha := alpha, beta := beta }
      (canMoveAt_of_no_move b hside hno) indices (fun y hy => (mem_indices y).1 hy)]
    simp

theorem Minimax_leaf_witness :
    ¬ HasLegalMove wipeoutBoard wipeoutBoard.currentPlayer ∧
    Minimax wipeoutBoard 2 true INT_MIN INT_MAX = EvaluateBoard wipeoutBoard ∧
    Minimax wipeoutBoard 2 false INT_MIN INT_MAX = EvaluateBoard wipeoutBoard ∧
    Minimax initialBoard 0 true INT_MIN INT_MAX = EvaluateBoard initialBoard :=
  have hno : ¬ HasLegalMove wipeoutBoard wipeoutBoard.currentPlayer := wipeout_no_moves.2
  ⟨hno, Minimax_leaf wipeoutBoard 2 true INT_MIN INT_MAX (Or.inr rfl) (Or.inr hno),
    Minimax_leaf wipeoutBoard 2 false INT_MIN INT_MAX (Or.inr rfl) (Or.inr hno),
    Minimax_leaf initialBoard 0 true INT_MIN INT_MAX (Or.inl (by decide)) (Or.inl rfl)⟩

theorem MinimaxRun_succ (b : Board) (d : Nat) (isMax : Bool) (alpha beta : Int) :
    MinimaxRun b (d + 1) isMax alpha beta =
      (if (minimaxLoops b d isMax alpha beta).moveAvailable = true
        then (minimaxLoops b d isMax alpha beta).bestScore
        else EvaluateBoard (minimaxLoops b d isMax alpha beta).board,
       (minimaxLoops b d isMax alpha beta).board) := rfl

theorem Minimax_succ_loops (b : Board) (d : Nat) (isMax : Bool) (alpha beta : Int) :
    Minimax b (d + 1) isMax alpha beta =
      if (minimaxLoops b d isMax alpha beta).moveAvailable = true
        then (minimaxLoops b d isMax alpha beta).bestScore
        else EvaluateBoard (minimaxLoops b d isMax alpha beta).board :=
  Minimax_succ b d isMax alpha beta

theorem MinimaxRun_fst (b : Board) (depth : Nat) (isMax : Bool) (alpha beta : Int) :
    (MinimaxRun b depth isMax alpha beta).1 = Minimax b depth isMax alpha beta := by
  cases depth with
  | zero => rfl
  | succ d => rw [MinimaxRun_succ, Minimax_succ_loops]

theorem scoredState_board (isMax : Bool) (s : SearchState) (nb : Board) (score : Int) :
    (scoredState isMax s nb score).board = nb := by
  cases isMax <;> rfl

/-- The board after one pass through the loop body of `Minimax`: as `CanPlace(x, y, isMax)`
leaves it when the cell is empty, untouched otherwise. -/
theorem minimaxCell_board (c : Board → Bool → Int → Int → Int) (isMax : Bool) (y x : Int)
    (s : SearchState) :
    (minimaxCell c isMax y x s).1.board =
      if cellAt s.board y x = Cell.EMPTY then (CanPlace s.board x y isMax).2 else s.board := by
  by_cases he : cellAt s.board y x = Cell.EMPTY
  · rw [if_pos he]
    cases h2 : (CanPlace s.board x y isMax).1 with
    | false => rw [minimaxCell_nomove c isMax y x s he h2]
    | true => rw [minimaxCell_move c isMax y x s he h2, scoredState_board]
  · rw [if_neg he, minimaxCell_skip c isMax y x s he]

/-- A minimising call (`isMax = false`) leaves the board it is given unchanged. -/
theorem MinimaxRun_min_unchanged (b : Board) (depth : Nat) (alpha beta : Int) :
    (MinimaxRun b depth false alpha beta).2 = b := by
  cases depth with
  | zero => rfl
  | succ d =>
    rw [MinimaxRun_succ]
    simp only
    unfold minimaxLoops
    refine foldl_preserves (fun (s : SearchState) => s.board = b) _ ?_ indices _ rfl
    intro s y hs
    refine minimaxRow_preserves (fun (s : SearchState) => s.board = b) _ false y ?_ indices s hs
    intro x t ht
    show (minimaxCell _ false y x t).1.board = b
    rw [minimaxCell_board, CanPlace_noflip, ite_self, ht]

/-- A cell that holds the colour of the side to move still holds it after `CanPlace`. -/
theorem CanPlace_keeps_own (b : Board) {x y : Int} (hxy : InBoard x y) (flip : Bool)
    {r c : Int} (hrc : InBoard c r) (h : cellAt b r c = b.currentPlayer) :
    cellAt (CanPlace b x y flip).2 r c = b.currentPlayer := by
  by_cases he : cellAt b y x = Cell.EMPTY
  · obtain ⟨_, _, h3⟩ := CanPlace_spec b hxy flip he
    by_cases hc : flip = true ∧ OnRunIn b x y dirs r c
    · exact (h3 r c hrc).1 hc
    · rw [(h3 r c hrc).2 hc, h]
  · unfold CanPlace
    rw [if_pos he]
    exact h

/-- A cell that holds the colour `cur` of the side to move still holds it after one pass
through the loop body of `Minimax`, and the side to move is the same. -/
theorem minimaxCell_keeps_own (c : Board → Bool → Int → Int → Int) (isMax : Bool)
    (cur : Cell) {r c0 : Int} (hrc : InBoard c0 r) {y x : Int} (hxy : InBoard x y)
    (s : SearchState) (h : s.board.currentPlayer = cur ∧ cellAt s.board r c0 = cur) :
    (minimaxCell c isMax y x s).1.board.currentPlayer = cur ∧
    cellAt (minimaxCell c isMax y x s).1.board r c0 = cur := by
  rw [minimaxCell_board]
  by_cases he : cellAt s.board y x = Cell.EMPTY
  · rw [if_pos he, CanPlace_currentPlayer]
    refine ⟨h.1, ?_⟩
    rw [CanPlace_keeps_own s.board hxy isMax hrc (by rw [h.2, h.1]), h.1]
  · rw [if_neg he]
    exact h

theorem minimaxRow_keeps_own (c : Board → Bool → Int → Int → Int) (isMax : Bool)
    (cur : Cell) {r c0 : Int} (hrc : InBoard c0 r) {y : Int} (hy : 0 ≤ y ∧ y < 8) :
    ∀ (xs : List Int) (s : SearchState), (∀ x ∈ xs, 0 ≤ x ∧ x < 8) →
      (s.board.currentPlayer = cur ∧ cellAt s.board r c0 = cur) →
      (minimaxRow c isMax y xs s).board.currentPlayer = cur ∧
      cellAt (minimaxRow c isMax y xs s).board r c0 = cur := by
  intro xs
  induction xs with
  | nil => intro s _ h; exact h
  | cons x xs ih =>
    intro s hin h
    have hx := hin x (List.mem_cons_self _ _)
    have h1 := minimaxCell_keeps_own c isMax cur hrc ⟨hx.1, hx.2, hy.1, hy.2⟩ s h
    unfold minimaxRow
    simp only
    split
    · exact h1
    · exact ih _ (fun z hz => hin z (List.mem_cons_of_mem _ hz)) h1

theorem minimaxRows_keep_own (c : Board → Bool → Int → Int → Int) (isMax : Bool)
    (cur : Cell) {r c0 : Int} (hrc : InBoard c0 r) :
    ∀ (ys : List Int) (s : SearchState), (∀ y ∈ ys, 0 ≤ y ∧ y < 8) →
      (s.board.currentPlayer = cur ∧ cellAt s.board r c0 = cur) →
      (ys.foldl (fun acc y => minimaxRow c isMax y indices acc) s).board.currentPlayer = cur ∧
      cellAt (ys.foldl (fun acc y => minimaxRow c isMax y indices acc) s).board r c0 = cur := by
  intro ys
  induction ys with
  | nil => intro s _ h; exact h
  | cons y ys ih =>
    intro s hin h
    rw [List.foldl_cons]
    exact ih _ (fun z hz => hin z (List.mem_cons_of_mem _ hz))
      (minimaxRow_keeps_own c isMax cur hrc (hin y (List.mem_cons_self _ _)) indices s
        (fun x hx => (mem_indices x).1 hx) h)

/-- If the first cell `(0, 0)` offers no move to the side to move of `b` and `CanPlace` with
`flip = isMax` at the second cell `(x, y) = (1, 0)` turns the cell `(r, c0)` to the colour of
the side to move, then that cell holds this colour when the first row has been searched. -/
theorem minimaxRow_flip (c : Board → Bool → Int → Int → Int) (isMax : Bool) (b : Board)
    (s0 : SearchState) (hb : s0.board = b) {r c0 : Int} (hrc : InBoard c0 r)
    (h00 : canMoveAt b b.currentPlayer 0 0 = false)
    (h01 : cellAt b 0 1 = Cell.EMPTY)
    (hflip : cellAt (CanPlace b 1 0 isMax).2 r c0 = b.currentPlayer) :
    (minimaxRow c isMax 0 indices s0).board.currentPlayer = b.currentPlayer ∧
    cellAt (minimaxRow c isMax 0 indices s0).board r c0 = b.currentPlayer := by
  rw [show indices = [0, 1, 2, 3, 4, 5, 6, 7] from rfl]
  unfold minimaxRow
  rw [minimaxCell_no_move c isMax (by decide) s0 (by rw [hb]; exact h00)]
  simp only [Bool.false_eq_true, if_false]
  unfold minimaxRow
  have h1 : (minimaxCell c isMax 0 1 s0).1.board.currentPlayer = b.currentPlayer ∧
      cellAt (minimaxCell c isMax 0 1 s0).1.board r c0 = b.currentPlayer := by
    rw [minimaxCell_board, hb, if_pos h01, CanPlace_currentPlayer]
    exact ⟨rfl, hflip⟩
  simp only
  split
  · exact h1
  · refine minimaxRow_keeps_own c isMax b.currentPlayer hrc (by decide) _ _ ?_ h1
    intro x hx
    simp only [List.mem_cons, List.mem_singleton, List.mem_nil_iff, or_false] at hx
    omega

/-- The same cell holds the colour of the side to move when the loops of `Minimax` are left. -/
theorem minimaxLoops_flips (b : Board) (d : Nat) (isMax : Bool) (alpha beta : Int)
    {r c0 : Int} (hrc : InBoard c0 r)
    (h00 : canMoveAt b b.currentPlayer 0 0 = false)
    (h01 : cellAt b 0 1 = Cell.EMPTY)
    (hflip : cellAt (CanPlace b 1 0 isMax).2 r c0 = b.currentPlayer) :
    cellAt (minimaxLoops b d isMax alpha beta).board r c0 = b.currentPlayer := by
  unfold minimaxLoops
  generalize hc : (fun nb m a c => Minimax nb d m a c) = c
  generalize hs0 : SearchState.mk b (if isMax then INT_MIN else INT_MAX) false alpha beta = s0
  have hb : s0.board = b := by rw [← hs0]
  have h1 := minimaxRow_flip c isMax b s0 hb hrc h00 h01 hflip
  generalize hF : (fun acc y => minimaxRow c isMax y indices acc) = F at h1 ⊢
  have hrow : minimaxRow c isMax 0 indices s0 = F s0 0 := by rw [← hF]
  rw [hrow] at h1
  rw [show indices = 0 :: [1, 2, 3, 4, 5, 6, 7] from rfl, List.foldl_cons, ← hF]
  rw [← hF] at h1
  refine (minimaxRows_keep_own c isMax b.currentPlayer hrc _ _ ?_ h1).2
  intro y hy
  simp only [List.mem_cons, List.mem_singleton, List.mem_nil_iff, or_false] at hy
  omega

/-- C22, failing input: `MakeMove` scores White's answer b2 by `Minimax(newBoard, 2, true,
INT_MIN, INT_MAX)` on the board `afterB2` (Black to move).  The call does not leave that
board unchanged: the cell `(row, column) = (1, 1)` holds a White disc before the call and a
Black disc after it, turned by `CanPlace(1, 0, isMax)` on the board itself. -/
theorem Minimax_changes_given_board :
    (MinimaxRun afterB2 2 true INT_MIN INT_MAX).1 = Minimax afterB2 2 true INT_MIN INT_MAX ∧
    cellAt afterB2 1 1 = Cell.White_Disc ∧
    cellAt (MinimaxRun afterB2 2 true INT_MIN INT_MAX).2 1 1 = Cell.Black_Disc ∧
    (MinimaxRun afterB2 2 true INT_MIN INT_MAX).2 ≠ afterB2 := by
  have h00 : canMoveAt afterB2 afterB2.currentPlayer 0 0 = false := by decide!
  have h01 : cellAt afterB2 0 1 = Cell.EMPTY := by decide!
  have hflip : cellAt (CanPlace afterB2 1 0 true).2 1 1 = afterB2.currentPlayer := by decide!
  have hin : InBoard 1 1 := by decide
  have hcur : afterB2.currentPlayer = Cell.Black_Disc := by decide!
  have hbefore : cellAt afterB2 1 1 = Cell.White_Disc := by decide!
  have hloops := minimaxLoops_flips afterB2 1 true INT_MIN INT_MAX hin h00 h01 hflip
  rw [hcur] at hloops
  have hcell : cellAt (MinimaxRun afterB2 2 true INT_MIN INT_MAX).2 1 1 = Cell.Black_Disc := by
    rw [MinimaxRun_succ]
    dsimp only
    exact hloops
  refine ⟨MinimaxRun_fst _ _ _ _ _, hbefore, hcell, ?_⟩
  intro h
  rw [h, hbefore] at hcell
  exact absurd hcell (by decide)

theorem hasValidMove_returned (isWhite : Bool) :
    ∀ (cs : List (Int × Int)) (s : Bool × Board), s.1 = true →
      cs.foldl (fun acc p => hasValidMoveCell isWhite p.1 p.2 acc) s = s := by
  intro cs
  induction cs with
  | nil => intro s _; rfl
  | cons p cs ih =>
    intro s hs
    have h1 : hasValidMoveCell isWhite p.1 p.2 s = s := by
      unfold hasValidMoveCell
      rw [if_pos hs]
    rw [List.foldl_cons, h1]
    exact ih s hs

/-- The loops of `HasValidMove(isWhite)` test the side to move of the board, whatever
`isWhite` is: the result is `true` exactly when some empty cell offers a move to
`currentPlayer`, and when the result is `false` the board is unchanged. -/
theorem hasValidMove_fold (b : Board) (isWhite : Bool) :
    ∀ cs : List (Int × Int), (∀ p ∈ cs, InBoard p.2 p.1) →
      (cs.foldl (fun acc p => hasValidMoveCell isWhite p.1 p.2 acc) (false, b)).1 =
        cs.any (fun p => canMoveAt b b.currentPlayer p.1 p.2) ∧
      (cs.any (fun p => canMoveAt b b.currentPlayer p.1 p.2) = false →
        cs.foldl (fun acc p => hasValidMoveCell isWhite p.1 p.2 acc) (false, b) = (false, b)) := by
  intro cs
  induction cs with
  | nil => intro _; exact ⟨rfl, fun _ => rfl⟩
  | cons p cs ih =>
    intro hin
    have hp := hin p (List.mem_cons_self _ _)
    have ih2 := ih (fun q hq => hin q (List.mem_cons_of_mem _ hq))
    rw [List.foldl_cons, List.any_cons]
    cases hm : canMoveAt b b.currentPlayer p.1 p.2 with
    | false =>
      have h1 : hasValidMoveCell isWhite p.1 p.2 (false, b) = (false, b) := by
        unfold hasValidMoveCell
        simp only [Bool.false_eq_true, if_false]
        by_cases he : cellAt b p.1 p.2 = Cell.EMPTY
        · rw [if_pos he]
          have hf : (CanPlace b p.2 p.1 false).1 = false := by
            rw [canMoveAt_current] at hm
            simpa [he] using hm
          exact CanPlace_illegal b hp hf isWhite
        · rw [if_neg he]
      rw [h1, Bool.false_or]
      exact ih2
    | true =>
      have h1 : (hasValidMoveCell isWhite p.1 p.2 (false, b)).1 = true := by
        rw [canMoveAt_current] at hm
        simp only [Bool.and_eq_true, decide_eq_true_eq] at hm
        unfold hasValidMoveCell
        simp only [Bool.false_eq_true, if_false]
        rw [if_pos hm.1]
        exact (CanPlace_true_iff b hp isWhite).2 ((CanPlace_true_iff b hp false).1 hm.2)
      rw [hasValidMove_returned isWhite cs _ h1, h1, Bool.true_or]
      exact ⟨rfl, fun h => absurd h (by decide)⟩

theorem HasValidMove_eq (b : Board) (isWhite : Bool) :
    (HasValidMove b isWhite).1 = allCells.any (fun p => canMoveAt b b.currentPlayer p.1 p.2) := by
  have h1 : HasValidMove b isWhite =
      allCells.foldl (fun acc p => hasValidMoveCell isWhite p.1 p.2 acc) (false, b) :=
    nested_foldl (fun y x s => hasValidMoveCell isWhite y x s) _
  rw [h1]
  exact (hasValidMove_fold b isWhite allCells (fun p hp => (mem_allCells p).1 hp)).1

/-- C23, failing input: on the board with a Black disc at (0,0) and a White disc at (0,1),
White to move, `HasValidMove(false)` returns `false` although the player its argument
selects, Black, has a valid move (at `(x, y) = (2, 0)`): the loops test the side to move,
White, which has none. -/
theorem HasValidMove_ignores_argument :
    passBoard.currentPlayer = Cell.White_Disc ∧
    selectedPlayer false = Cell.Black_Disc ∧
    LegalFor passBoard Cell.Black_Disc 2 0 ∧
    HasLegalMove passBoard (selectedPlayer false) ∧
    (HasValidMove passBoard false).1 = false := by
  have hcur : passBoard.currentPlayer = Cell.White_Disc := by decide!
  have hlegal : LegalFor passBoard Cell.Black_Disc 2 0 :=
    (canMoveAt_iff passBoard Cell.Black_Disc (by decide) (by decide)).1 (by decide!)
  refine ⟨hcur, rfl, hlegal, ⟨2, 0, by decide, hlegal⟩, ?_⟩
  rw [HasValidMove_eq, hcur]
  exact pass_scan.2

/-- Counting over a list splits along two properties that exclude each other. -/
theorem countP_split {α : Type} (P Q R : α → Bool) :
    ∀ l : List α, (∀ a ∈ l, P a = (Q a || R a) ∧ (Q a && R a) = false) →
      l.countP P = l.countP Q + l.countP R := by
  intro l
  induction l with
  | nil => intro _; rfl
  | cons a l ih =>
    intro h
    have ha := h a (List.mem_cons_self _ _)
    have ih2 := ih (fun c hc => h c (List.mem_cons_of_mem _ hc))
    rw [List.countP_cons, List.countP_cons, List.countP_cons, ih2, ha.1]
    cases hq : Q a <;> cases hr : R a <;> simp [hq, hr] at ha ⊢ <;> omega

theorem countP_eq_one {α : Type} [DecidableEq α] (a : α) :
    ∀ l : List α, l.Nodup → a ∈ l → l.countP (fun p => decide (p = a)) = 1 := by
  intro l
  induction l with
  | nil => intro _ h; exact absurd h (List.not_mem_nil a)
  | cons c l ih =>
    intro hnd hmem
    obtain ⟨hc, hl⟩ := List.nodup_cons.1 hnd
    rw [List.countP_cons]
    by_cases hca : c = a
    · have h0 : l.countP (fun p => decide (p = a)) = 0 := by
        rw [List.countP_eq_zero]
        intro p hp
        simp only [decide_eq_true_eq]
        intro hpa
        exact hc (by rw [hca, ← hpa]; exact hp)
      simp [h0, hca]
    · have hal : a ∈ l := by
        rcases List.mem_cons.1 hmem with h | h
        · exact absurd h.symm hca
        · exact h
      simp [ih hl hal, hca]

theorem countP_target (x y : Int) (hxy : InBoard x y) :
    allCells.countP (fun p => decide (p.1 = y ∧ p.2 = x)) = 1 := by
  rw [← countP_eq_one (y, x) allCells allCells_nodup ((mem_allCells (y, x)).2 hxy)]
  apply List.countP_congr
  intro p _
  simp only [decide_eq_true_eq, Prod.ext_iff]

/-- The three kinds of cell at a legal placement `(x, y)`: the target cell turns from EMPTY
to the mover's colour, a cell on a flippable run from the opposing colour to the mover's,
and any other cell keeps its value. -/
theorem PlacePiece_cell_cases (b : Board) {x y : Int} (hxy : InBoard x y)
    (hside : b.currentPlayer ≠ Cell.EMPTY) (hlegal : LegalFor b b.currentPlayer x y)
    {r c : Int} (hrc : InBoard c r) :
    ((r = y ∧ c = x) ∧ cellAt b r c = Cell.EMPTY ∧
      cellAt (PlacePiece b x y) r c = b.currentPlayer) ∨
    (¬ (r = y ∧ c = x) ∧ cellAt b r c = opposing b.currentPlayer ∧
      cellAt (PlacePiece b x y) r c = b.currentPlayer) ∨
    (¬ (r = y ∧ c = x) ∧ cellAt (PlacePiece b x y) r c = cellAt b r c) := by
  have hcells := PlacePiece_legal_cells b hxy hside hlegal hrc
  by_cases ht : r = y ∧ c = x
  · left
    refine ⟨ht, ?_, hcells.1 (Or.inl ht)⟩
    rw [ht.1, ht.2]
    exact hlegal.1
  · right
    by_cases hrun : OnFlippableRun b b.currentPlayer x y r c
    · left
      refine ⟨ht, ?_, hcells.1 (Or.inr hrun)⟩
      obtain ⟨dx, dy, k, i, _, hk, hi1, hi2, hr, hc⟩ := hrun
      rw [hr, hc]
      exact (hk.2.1 i hi1 hi2).2
    · right
      refine ⟨ht, hcells.2 ?_⟩
      rintro (h | h)
      · exact ht h
      · exact hrun h

theorem opposing_ne {p : Cell} (h : p ≠ Cell.EMPTY) :
    opposing p ≠ p ∧ opposing p ≠ Cell.EMPTY := by
  cases p
  · exact absurd rfl h
  · exact ⟨by decide, by decide⟩
  · exact ⟨by decide, by decide⟩

theorem mem_flippedCells (b b2 : Board) (p : Int × Int) :
    p ∈ flippedCells b b2 ↔
      InBoard p.2 p.1 ∧ cellAt b p.1 p.2 ≠ Cell.EMPTY ∧ cellAt b2 p.1 p.2 ≠ cellAt b p.1 p.2 := by
  unfold flippedCells
  rw [List.mem_filter, mem_allCells]
  simp only [Bool.and_eq_true, decide_eq_true_eq]

theorem flippedCells_length (b b2 : Board) :
    (flippedCells b b2).length =
      allCells.countP (fun p =>
        decide (cellAt b p.1 p.2 ≠ Cell.EMPTY) &&
          decide (cellAt b2 p.1 p.2 ≠ cellAt b p.1 p.2)) := by
  unfold flippedCells
  rw [List.countP_eq_length_filter]

/-- Disc counts after a legal placement, with `k` the number of flipped discs. -/
theorem PlacePiece_counts (b : Board) {x y : Int} (hxy : InBoard x y)
    (hside : b.currentPlayer ≠ Cell.EMPTY) (hlegal : LegalFor b b.currentPlayer x y) :
    countDiscs (PlacePiece b x y) b.currentPlayer =
      countDiscs b b.currentPlayer + (flippedCells b (PlacePiece b x y)).length + 1 ∧
    countDiscs (PlacePiece b x y) (opposing b.currentPlayer) +
      (flippedCells b (PlacePiece b x y)).length = countDiscs b (opposing b.currentPlayer) ∧
    countOccupied (PlacePiece b x y) = countOccupied b + 1 := by
  obtain ⟨hne1, hne2⟩ := opposing_ne hside
  have hcase : ∀ p ∈ allCells, _ := fun p hp =>
    PlacePiece_cell_cases b hxy hside hlegal ((mem_allCells p).1 hp)
  rw [flippedCells_length]
  unfold countDiscs countOccupied
  rw [← countP_target x y hxy]
  refine ⟨?_, ?_, ?_⟩
  · rw [Nat.add_assoc, ← countP_split
      (fun p => decide (cellAt b p.1 p.2 ≠ b.currentPlayer) &&
        decide (cellAt (PlacePiece b x y) p.1 p.2 = b.currentPlayer))]
    · apply countP_split
      intro p hp
      rcases hcase p hp with ⟨_, h2, h3⟩ | ⟨_, h2, h3⟩ | ⟨_, h3⟩
      · simp [h2, h3, hside, Ne.symm hside]
      · simp [h2, h3, hne1, hside]
      · rw [h3]
        by_cases h : cellAt b p.1 p.2 = b.currentPlayer <;> simp [h]
    · intro p hp
      rcases hcase p hp with ⟨h1, h2, h3⟩ | ⟨h1, h2, h3⟩ | ⟨h1, h3⟩
      · rw [h1.1, h1.2] at h2 h3
        simp [h1, h2, h3, hside, Ne.symm hside]
      · simp [h1, h2, h3, hne1, hne2, Ne.symm hne1]
      · simp [h1, h3]
  · rw [Nat.add_comm]
    symm
    apply countP_split
    intro p hp
    rcases hcase p hp with ⟨_, h2, h3⟩ | ⟨_, h2, h3⟩ | ⟨_, h3⟩
    · simp [h2, h3, hne1, hne2, Ne.symm hne2, Ne.symm hne1]
    · simp [h2, h3, hne1, hne2, Ne.symm hne1]
    · simp [h3]
  · apply countP_split
    intro p hp
    rcases hcase p hp with ⟨h1, h2, h3⟩ | ⟨h1, h2, h3⟩ | ⟨h1, h3⟩
    · rw [h1.1, h1.2] at h2 h3
      simp [h1, h2, h3, hside]
    · simp [h1, h2, h3, hne2, hside]
    · simp [h1, h3]

theorem side_ne_empty {p : Cell} (h : p = Cell.Black_Disc ∨ p = Cell.White_Disc) :
    p ≠ Cell.EMPTY := by
  rcases h with h | h <;> rw [h] <;> decide

/-- A legal placement flips at least one disc. -/
theorem flippedCells_pos (b : Board) {x y : Int} (hxy : InBoard x y)
    (hside : b.currentPlayer ≠ Cell.EMPTY) (hlegal : LegalFor b b.currentPlayer x y) :
    1 ≤ (flippedCells b (PlacePiece b x y)).length := by
  obtain ⟨hne1, hne2⟩ := opposing_ne hside
  obtain ⟨_, dx, dy, k, hd, hk⟩ := hlegal
  have hlegal2 : LegalFor b b.currentPlayer x y := ⟨by assumption, dx, dy, k, hd, hk⟩
  have hfirst := hk.2.1 1 (le_refl 1) hk.1
  have hrun : OnFlippableRun b b.currentPlayer x y (y + ((1 : Nat) : Int) * dy)
      (x + ((1 : Nat) : Int) * dx) :=
    ⟨dx, dy, k, 1, hd, hk, le_refl 1, hk.1, rfl, rfl⟩
  have hafter := (PlacePiece_legal_cells b hxy hside hlegal2 hfirst.1).1 (Or.inr hrun)
  have hmem : (y + ((1 : Nat) : Int) * dy, x + ((1 : Nat) : Int) * dx) ∈
      flippedCells b (PlacePiece b x y) := by
    rw [mem_flippedCells]
    refine ⟨hfirst.1, ?_, ?_⟩
    · show cellAt b (y + ((1 : Nat) : Int) * dy) (x + ((1 : Nat) : Int) * dx) ≠ Cell.EMPTY
      rw [hfirst.2]
      exact hne2
    · show cellAt (PlacePiece b x y) (y + ((1 : Nat) : Int) * dy) (x + ((1 : Nat) : Int) * dx) ≠
        cellAt b (y + ((1 : Nat) : Int) * dy) (x + ((1 : Nat) : Int) * dx)
      rw [hafter, hfirst.2]
      exact Ne.symm hne1
  exact List.length_pos_of_mem hmem

/-- The flipped discs were of the opposing colour and are of the mover's colour. -/
theorem flippedCells_turned (b : Board) {x y : Int} (hxy : InBoard x y)
    (hside : b.currentPlayer ≠ Cell.EMPTY) (hlegal : LegalFor b b.currentPlayer x y) :
    ∀ p ∈ flippedCells b (PlacePiece b x y),
      cellAt b p.1 p.2 = opposing b.currentPlayer ∧
      cellAt (PlacePiece b x y) p.1 p.2 = b.currentPlayer := by
  intro p hp
  obtain ⟨hin, h1, h2⟩ := (mem_flippedCells b _ p).1 hp
  rcases PlacePiece_cell_cases b hxy hside hlegal hin with ⟨_, h, _⟩ | ⟨_, h, h3⟩ | ⟨_, h⟩
  · exact absurd h h1
  · exact ⟨h, h3⟩
  · exact absurd h h2

/-- No disc is removed by a legal placement. -/
theorem PlacePiece_keeps_discs (b : Board) {x y : Int} (hxy : InBoard x y)
    (hside : b.currentPlayer ≠ Cell.EMPTY) (hlegal : LegalFor b b.currentPlayer x y)
    {r c : Int} (hrc : InBoard c r) (h : cellAt b r c ≠ Cell.EMPTY) :
    cellAt (PlacePiece b x y) r c ≠ Cell.EMPTY := by
  rcases PlacePiece_cell_cases b hxy hside hlegal hrc with ⟨_, _, h3⟩ | ⟨_, _, h3⟩ | ⟨_, h3⟩
  · rw [h3]; exact hside
  · rw [h3]; exact hside
  · rw [h3]; exact h

theorem PlacePiece_of_fail (b : Board) {x y : Int} (hxy : InBoard x y)
    (hfail : (CanPlace b x y true).1 = false) : PlacePiece b x y = b := by
  have hfalse : (CanPlace b x y false).1 = false := by
    cases hres : (CanPlace b x y false).1 with
    | false => rfl
    | true =>
      have := (CanPlace_true_iff b hxy true).2 ((CanPlace_true_iff b hxy false).1 hres)
      rw [hfail] at this
      exact absurd this (by decide)
  have hcan := CanPlace_illegal b hxy hfalse true
  unfold PlacePiece
  simp only [hcan]
  rfl

/-- A turn adds one occupied cell when it is a successful placement and none otherwise, and
the side to move stays Black or White. -/
theorem applyTurn_occupied (b : Board)
    (hside : b.currentPlayer = Cell.Black_Disc ∨ b.currentPlayer = Cell.White_Disc)
    (t : Turn) (ht : turnInRange t) :
    countOccupied (applyTurn b t) = countOccupied b + (if turnPlaces b t = true then 1 else 0) ∧
    ((applyTurn b t).currentPlayer = Cell.Black_Disc ∨
      (applyTurn b t).currentPlayer = Cell.White_Disc) := by
  have hs := side_ne_empty hside
  have hother : otherDisc b.currentPlayer = Cell.Black_Disc ∨
      otherDisc b.currentPlayer = Cell.White_Disc := by
    rcases hside with h | h <;> rw [h] <;> decide
  cases t with
  | place x y =>
    have hxy : InBoard x y := ht
    show countOccupied (PlacePiece b x y) =
        countOccupied b + (if (CanPlace b x y true).1 = true then 1 else 0) ∧
      ((PlacePiece b x y).currentPlayer = Cell.Black_Disc ∨
        (PlacePiece b x y).currentPlayer = Cell.White_Disc)
    cases hres : (CanPlace b x y true).1 with
    | true =>
      have hlegal := (CanPlace_true_iff_legal b hxy true hs).1 hres
      refine ⟨by simpa using (PlacePiece_counts b hxy hs hlegal).2.2, ?_⟩
      rw [PlacePiece_currentPlayer, if_pos hres]
      exact hother
    | false =>
      rw [PlacePiece_of_fail b hxy hres]
      exact ⟨by simp, hside⟩
  | pass => exact ⟨rfl, hother⟩

theorem placements_occupied : ∀ (ts : List Turn) (b : Board),
    (b.currentPlayer = Cell.Black_Disc ∨ b.currentPlayer = Cell.White_Disc) →
    (∀ t ∈ ts, turnInRange t) →
    countOccupied (ts.foldl applyTurn b) = countOccupied b + successfulPlacements b ts := by
  intro ts
  induction ts with
  | nil => intro b _ _; rfl
  | cons t ts ih =>
    intro b hside hin
    obtain ⟨h1, h2⟩ := applyTurn_occupied b hside t (hin t (List.mem_cons_self _ _))
    rw [List.foldl_cons, ih (applyTurn b t) h2 (fun u hu => hin u (List.mem_cons_of_mem _ hu)), h1]
    rw [show successfulPlacements b (t :: ts) =
      (if turnPlaces b t = true then 1 else 0) + successfulPlacements (applyTurn b t) ts from rfl]
    omega

theorem countOccupied_le (b : Board) : countOccupied b ≤ 64 :=
  List.countP_le_length _

theorem initialBoard_occupied :
    countOccupied initialBoard = 4 ∧ initialBoard.currentPlayer = Cell.Black_Disc := by
  decide

/-- C24: a legal placement `(x, y)` of the side to move flips `k >= 1` discs, all of them
opposing discs turned to the mover's colour; the mover's disc count grows by `k + 1`, the
opponent's shrinks by `k`, the number of non-EMPTY cells grows by 1 and no non-EMPTY cell
becomes EMPTY.  Hence at most 60 successful placements can follow the initial position,
whatever in-range placements are tried and whatever passes are made in between. -/
theorem PlacePiece_disc_counts (b : Board) (x y : Int) (hxy : InBoard x y)
    (hside : b.currentPlayer = Cell.Black_Disc ∨ b.currentPlayer = Cell.White_Disc)
    (hlegal : LegalFor b b.currentPlayer x y) :
    1 ≤ (flippedCells b (PlacePiece b x y)).length ∧
    (∀ p ∈ flippedCells b (PlacePiece b x y),
      cellAt b p.1 p.2 = opposing b.currentPlayer ∧
      cellAt (PlacePiece b x y) p.1 p.2 = b.currentPlayer) ∧
    countDiscs (PlacePiece b x y) b.currentPlayer =
      countDiscs b b.currentPlayer + (flippedCells b (PlacePiece b x y)).length + 1 ∧
    countDiscs (PlacePiece b x y) (opposing b.currentPlayer) +
      (flippedCells b (PlacePiece b x y)).length = countDiscs b (opposing b.currentPlayer) ∧
    countOccupied (PlacePiece b x y) = countOccupied b + 1 ∧
    (∀ r c : Int, InBoard c r → cellAt b r c ≠ Cell.EMPTY →
      cellAt (PlacePiece b x y) r c ≠ Cell.EMPTY) ∧
    (∀ ts : List Turn, (∀ t ∈ ts, turnInRange t) →
      successfulPlacements initialBoard ts ≤ 60) := by
  have hs := side_ne_empty hside
  obtain ⟨c1, c2, c3⟩ := PlacePiece_counts b hxy hs hlegal
  refine ⟨flippedCells_pos b hxy hs hlegal, flippedCells_turned b hxy hs hlegal, c1, c2, c3,
    fun r c hrc h => PlacePiece_keeps_discs b hxy hs hlegal hrc h, ?_⟩
  intro ts hts
  have h1 := placements_occupied ts initialBoard (Or.inl initialBoard_occupied.2) hts
  have h2 := countOccupied_le (ts.foldl applyTurn initialBoard)
  rw [h1, initialBoard_occupied.1] at h2
  omega

theorem PlacePiece_disc_counts_witness :
    InBoard 3 3 ∧ LegalFor flipExample flipExample.currentPlayer 3 3 ∧
    flippedCells flipExample (PlacePiece flipExample 3 3) = [(3, 4)] ∧
    countDiscs flipExample Cell.Black_Disc = 1 ∧
    countDiscs (PlacePiece flipExample 3 3) flipExample.currentPlayer =
      countDiscs flipExample flipExample.currentPlayer +
        (flippedCells flipExample (PlacePiece flipExample 3 3)).length + 1 :=
  have hlegal : LegalFor flipExample flipExample.currentPlayer 3 3 :=
    (canMoveAt_iff flipExample _ (by decide) (by decide)).1 (by decide)
  ⟨by decide, hlegal, by decide, by decide,
    (PlacePiece_disc_counts flipExample 3 3 (by decide) (Or.inl (by decide)) hlegal).2.2.1⟩

/-- Whether a side has a legal move depends on the grid only. -/
theorem HasLegalMove_of_grid {b1 b2 : Board} (h : b1.board = b2.board) (side : Cell) :
    HasLegalMove b1 side ↔ HasLegalMove b2 side := by
  cases b1 with
  | mk g1 p1 =>
    cases b2 with
    | mk g2 p2 =>
      simp only at h
      subst h
      exact Iff.rfl

/-- After `CheckGameOver` the game is over, or the side to move is one for which the scan
has found a move. -/
theorem CheckGameOver_player (g : Game)
    (hside : g.board.currentPlayer = Cell.Black_Disc ∨ g.board.currentPlayer = Cell.White_Disc) :
    (CheckGameOver g).gameOver = true ∨
    ((CheckGameOver g).board.currentPlayer = Cell.Black_Disc ∧
      allCells.any (fun p => canMoveAt g.board Cell.Black_Disc p.1 p.2) = true) ∨
    ((CheckGameOver g).board.currentPlayer = Cell.White_Disc ∧
      allCells.any (fun p => canMoveAt g.board Cell.White_Disc p.1 p.2) = true) := by
  cases e1 : allCells.any (fun p => canMoveAt g.board Cell.Black_Disc p.1 p.2) <;>
  cases e2 : allCells.any (fun p => canMoveAt g.board Cell.White_Disc p.1 p.2) <;>
  rcases hside with hs | hs <;>
  (unfold CheckGameOver; simp [scanBoard_eq, e1, e2, hs, otherDisc])

theorem CheckGameOver_side (g : Game)
    (hside : g.board.currentPlayer = Cell.Black_Disc ∨ g.board.currentPlayer = Cell.White_Disc) :
    (CheckGameOver g).board.currentPlayer = Cell.Black_Disc ∨
    (CheckGameOver g).board.currentPlayer = Cell.White_Disc := by
  unfold CheckGameOver
  simp only [scanBoard_eq]
  split
  · exact hside
  · split
    · rcases hside with hs | hs <;> simp [hs, otherDisc]
    · exact hside

theorem CheckGameOver_can_move (g : Game)
    (hside : g.board.currentPlayer = Cell.Black_Disc ∨ g.board.currentPlayer = Cell.White_Disc) :
    (CheckGameOver g).gameOver = true ∨
    HasLegalMove (CheckGameOver g).board (CheckGameOver g).board.currentPlayer := by
  rcases CheckGameOver_player g hside with h | ⟨h1, h2⟩ | ⟨h1, h2⟩
  · exact Or.inl h
  · right
    rw [h1, HasLegalMove_of_grid (CheckGameOver_board g)]
    exact (any_canMoveAt_iff g.board Cell.Black_Disc (by decide)).1 h2
  · right
    rw [h1, HasLegalMove_of_grid (CheckGameOver_board g)]
    exact (any_canMoveAt_iff g.board Cell.White_Disc (by decide)).1 h2

theorem PlacePiece_side (b : Board) (x y : Int)
    (hside : b.currentPlayer = Cell.Black_Disc ∨ b.currentPlayer = Cell.White_Disc) :
    (PlacePiece b x y).currentPlayer = Cell.Black_Disc ∨
    (PlacePiece b x y).currentPlayer = Cell.White_Disc := by
  rw [PlacePiece_currentPlayer]
  split
  · rcases hside with hs | hs <;> simp [hs, otherDisc]
  · exact hside

theorem playerMakeMove_side (k : PlayerKind) (b : Board) (click : Option (Int × Int))
    (hside : b.currentPlayer = Cell.Black_Disc ∨ b.currentPlayer = Cell.White_Disc) :
    (playerMakeMove k b click).currentPlayer = Cell.Black_Disc ∨
    (playerMakeMove k b click).currentPlayer = Cell.White_Disc := by
  cases k with
  | human =>
    show (HumanMakeMove b click).currentPlayer = _ ∨ (HumanMakeMove b click).currentPlayer = _
    unfold HumanMakeMove
    cases click with
    | none => exact hside
    | some p =>
      obtain ⟨x, y⟩ := p
      simp only [CanPlace_noflip]
      split
      · split
        · exact PlacePiece_side b x y hside
        · exact hside
      · exact hside
  | computer =>
    show (MakeMove b).currentPlayer = _ ∨ (MakeMove b).currentPlayer = _
    unfold MakeMove
    rcases (searchMove_spec b).2 with h | ⟨x, y, _, _, h⟩
    · rw [h]
      simp only
      split
      · exact PlacePiece_side b _ _ hside
      · exact hside
    · rw [h]
      simp only
      split
      · exact PlacePiece_side b _ _ hside
      · exact hside

/-- What holds between two calls of `HandleInput`: the side to move is Black or White, and
it has a legal move unless the game is over. -/
theorem HandleInput_invariant (vsAI : Bool) (g : Game) (f : Frame)
    (h : (g.board.currentPlayer = Cell.Black_Disc ∨ g.board.currentPlayer = Cell.White_Disc) ∧
      (g.gameOver = false → HasLegalMove g.board g.board.currentPlayer)) :
    ((HandleInput vsAI g f).board.currentPlayer = Cell.Black_Disc ∨
      (HandleInput vsAI g f).board.currentPlayer = Cell.White_Disc) ∧
    ((HandleInput vsAI g f).gameOver = false →
      HasLegalMove (HandleInput vsAI g f).board (HandleInput vsAI g f).board.currentPlayer) := by
  have hstep : ∀ b2 : Board,
      (b2.currentPlayer = Cell.Black_Disc ∨ b2.currentPlayer = Cell.White_Disc) →
      ((CheckGameOver { g with board := b2 }).board.currentPlayer = Cell.Black_Disc ∨
        (CheckGameOver { g with board := b2 }).board.currentPlayer = Cell.White_Disc) ∧
      ((CheckGameOver { g with board := b2 }).gameOver = false →
        HasLegalMove (CheckGameOver { g with board := b2 }).board
          (CheckGameOver { g with board := b2 }).board.currentPlayer) := by
    intro b2 h2
    refine ⟨CheckGameOver_side _ h2, fun hg => ?_⟩
    rcases CheckGameOver_can_move { g with board := b2 } h2 with h3 | h3
    · rw [hg] at h3
      exact absurd h3 (by decide)
    · exact h3
  unfold HandleInput
  split
  · exact h
  · simp only
    split
    · split
      · exact hstep _ (playerMakeMove_side _ _ _ h.1)
      · exact h
    · exact hstep _ (playerMakeMove_side _ _ _ h.1)

theorem playGame_invariant (vsAI : Bool) : ∀ (fs : List Frame) (g : Game),
    ((g.board.currentPlayer = Cell.Black_Disc ∨ g.board.currentPlayer = Cell.White_Disc) ∧
      (g.gameOver = false → HasLegalMove g.board g.board.currentPlayer)) →
    (((fs.foldl (HandleInput vsAI) g).board.currentPlayer = Cell.Black_Disc ∨
      (fs.foldl (HandleInput vsAI) g).board.currentPlayer = Cell.White_Disc) ∧
    ((fs.foldl (HandleInput vsAI) g).gameOver = false →
      HasLegalMove (fs.foldl (HandleInput vsAI) g).board
        (fs.foldl (HandleInput vsAI) g).board.currentPlayer)) := by
  intro fs
  induction fs with
  | nil => intro g h; exact h
  | cons f fs ih =>
    intro g h
    rw [List.foldl_cons]
    exact ih _ (HandleInput_invariant vsAI g f h)

theorem initial_can_move :
    (initialBoard.currentPlayer = Cell.Black_Disc ∨ initialBoard.currentPlayer = Cell.White_Disc) ∧
    HasLegalMove initialBoard initialBoard.currentPlayer :=
  ⟨Or.inl (by decide),
    ⟨3, 2, by decide, (canMoveAt_iff initialBoard _ (by decide) (by decide)).1 (by decide)⟩⟩

/-- When the side to move has a legal move, the search of `MakeMove` ends with a move:
`moveX != -1 && moveY != -1` holds and the branch "no valid moves" is not taken. -/
theorem searchMove_finds (b : Board)
    (hside : b.currentPlayer = Cell.Black_Disc ∨ b.currentPlayer = Cell.White_Disc)
    (hmove : HasLegalMove b b.currentPlayer) :
    (searchMove b).moveX ≠ -1 ∧ (searchMove b).moveY ≠ -1 := by
  obtain ⟨x, y, hin, hl⟩ := hmove
  have hs : b.currentPlayer ≠ Cell.EMPTY := by rcases hside with h | h <;> rw [h] <;> decide
  have h := (MakeMove_plays b hin ((canMoveAt_iff b b.currentPlayer hs hin).2 hl)).1
  obtain ⟨h1, _, h3, _⟩ := h
  constructor
  · intro e; rw [e] at h1; exact absurd h1 (by decide)
  · intro e; rw [e] at h3; exact absurd h3 (by decide)

/-- C25: after `CheckGameOver` returns, `gameOver` is true or the side to move has a legal
move.  Consequently, in every state reached from a new game by calls of `HandleInput`
(`MakeMove` of the player to move, then `CheckGameOver`), with or without the computer as
White, the side to move has a legal move while the game is not over, and the search of
`AIPlayer::MakeMove` on that board ends with a move (`moveX != -1 && moveY != -1`), so the
branch "no valid moves" is not taken. -/
theorem CheckGameOver_leaves_a_move (g : Game)
    (hside : g.board.currentPlayer = Cell.Black_Disc ∨ g.board.currentPlayer = Cell.White_Disc) :
    ((CheckGameOver g).gameOver = true ∨
      HasLegalMove (CheckGameOver g).board (CheckGameOver g).board.currentPlayer) ∧
    (∀ (vsAI : Bool) (fs : List Frame), (playGame vsAI fs).gameOver = false →
      HasLegalMove (playGame vsAI fs).board (playGame vsAI fs).board.currentPlayer ∧
      (searchMove (playGame vsAI fs).board).moveX ≠ -1 ∧
      (searchMove (playGame vsAI fs).board).moveY ≠ -1) := by
  refine ⟨CheckGameOver_can_move g hside, ?_⟩
  intro vsAI fs hover
  have hinv := playGame_invariant vsAI fs (gameOn initialBoard)
    ⟨initial_can_move.1, fun _ => initial_can_move.2⟩
  exact ⟨hinv.2 hover, searchMove_finds _ hinv.1 (hinv.2 hover)⟩

theorem CheckGameOver_leaves_a_move_witness :
    (passBoard.currentPlayer = Cell.White_Disc ∧ ¬ HasLegalMove passBoard Cell.White_Disc) ∧
    ((CheckGameOver (gameOn passBoard)).gameOver = true ∨
      HasLegalMove (CheckGameOver (gameOn passBoard)).board
        (CheckGameOver (gameOn passBoard)).board.currentPlayer) := by
  refine ⟨⟨by decide!, ?_⟩,
    (CheckGameOver_leaves_a_move (gameOn passBoard) (Or.inr (by decide!))).1⟩
  intro h
  have := (any_canMoveAt_iff passBoard Cell.White_Disc (by decide)).2 h
  rw [pass_scan.2] at this
  exact Bool.false_ne_true this

theorem Store.put_obj (s : Store) (a : Nat) (v : Board) (n : Nat) :
    (s.put a v).obj n = if n = a then v else s.obj n := rfl

/-- The copy loop of `Clone` on the store: the object `copy` receives the 64 writes, every
other object, the object `self` among them, is as before. -/
theorem cloneLoop_spec (self copy : Nat) (hne : self ≠ copy) :
    ∀ (cs : List (Int × Int)) (s : Store),
      (cs.foldl (fun acc p =>
          acc.put copy (setCell (acc.obj copy) p.1 p.2 (cellAt (acc.obj self) p.1 p.2))) s).obj copy =
        cs.foldl (fun o p => setCell o p.1 p.2 (cellAt (s.obj self) p.1 p.2)) (s.obj copy) ∧
      (∀ n, n ≠ copy → (cs.foldl (fun acc p =>
          acc.put copy (setCell (acc.obj copy) p.1 p.2 (cellAt (acc.obj self) p.1 p.2))) s).obj n =
        s.obj n) := by
  intro cs
  induction cs with
  | nil => intro s; exact ⟨rfl, fun _ _ => rfl⟩
  | cons p cs ih =>
    intro s
    rw [List.foldl_cons, List.foldl_cons]
    obtain ⟨h1, h2⟩ := ih (s.put copy (setCell (s.obj copy) p.1 p.2 (cellAt (s.obj self) p.1 p.2)))
    have hself : (s.put copy (setCell (s.obj copy) p.1 p.2 (cellAt (s.obj self) p.1 p.2))).obj self =
        s.obj self := by
      rw [Store.put_obj, if_neg hne]
    have hcopy : (s.put copy (setCell (s.obj copy) p.1 p.2 (cellAt (s.obj self) p.1 p.2))).obj copy =
        setCell (s.obj copy) p.1 p.2 (cellAt (s.obj self) p.1 p.2) := by
      rw [Store.put_obj, if_pos rfl]
    refine ⟨?_, ?_⟩
    · rw [h1, hself, hcopy]
    · intro n hn
      rw [h2 n hn, Store.put_obj, if_neg hn]

/-- The store after `Clone` on the object at `self`, an object in use: the returned object
is at the address that was unused, it equals what `Clone` computes from the value of
`self`, and every other address holds what it held. -/
theorem CloneAt_spec (s : Store) (self : Nat) (hself : self < s.next) :
    (CloneAt s self).2 = s.next ∧
    (CloneAt s self).1.obj s.next = Clone (s.obj self) ∧
    (∀ n, n ≠ s.next → (CloneAt s self).1.obj n = s.obj n) := by
  have hne : self ≠ s.next := Nat.ne_of_lt hself
  have hloop := cloneLoop_spec self s.next hne allCells (declareBoard s).1
  have hflat : indices.foldl (fun acc y => indices.foldl (fun acc2 x =>
      acc2.put s.next (setCell (acc2.obj s.next) y x (cellAt (acc2.obj self) y x))) acc)
        (declareBoard s).1 =
      allCells.foldl (fun acc p =>
        acc.put s.next (setCell (acc.obj s.next) p.1 p.2 (cellAt (acc.obj self) p.1 p.2)))
        (declareBoard s).1 :=
    nested_foldl (fun y x (acc : Store) =>
      acc.put s.next (setCell (acc.obj s.next) y x (cellAt (acc.obj self) y x))) _
  have hd_self : (declareBoard s).1.obj self = s.obj self := by
    show (if self = s.next then _ else s.obj self) = s.obj self
    rw [if_neg hne]
  have hd_copy : (declareBoard s).1.obj s.next = Board.new rawStorage := by
    show (if s.next = s.next then Board.new (s.obj s.next).board else s.obj s.next) = _
    rw [if_pos rfl, Board_new_eq, Board_new_eq]
  have hclone : Clone (s.obj self) =
      { allCells.foldl (fun o p => setCell o p.1 p.2 (cellAt (s.obj self) p.1 p.2))
          (Board.new rawStorage) with currentPlayer := (s.obj self).currentPlayer } := by
    unfold Clone
    simp only
    rw [nested_foldl (fun y x (o : Board) => setCell o y x (cellAt (s.obj self) y x))]
  unfold CloneAt
  simp only
  rw [show (declareBoard s).2 = s.next from rfl, hflat]
  refine ⟨rfl, ?_, ?_⟩
  · rw [Store.put_obj, if_pos rfl, hloop.1, hloop.2 self hne, hd_self, hd_copy, hclone]
  · intro n hn
    rw [Store.put_obj, if_neg hn, hloop.2 n hn]
    show (if n = s.next then _ else s.obj n) = s.obj n
    rw [if_neg hn]

/-- C17: `Clone`, called on a `Board` object in use, returns an object at another address
whose 64 cells and `currentPlayer` equal those of the original, and changes no object in
use.  `PlacePiece` at any in-range cell of the clone then leaves the original as it was
(its grid and `currentPlayer`) while the clone becomes what the placement makes of it, and
`PlacePiece` on the original leaves the clone as it was. -/
theorem CloneAt_independent (s : Store) (self : Nat) (x y : Int) (hself : self < s.next)
    (_hxy : InBoard x y) :
    (CloneAt s self).2 ≠ self ∧
    (CloneAt s self).1.obj (CloneAt s self).2 = Clone (s.obj self) ∧
    ((CloneAt s self).1.obj (CloneAt s self).2).board = (s.obj self).board ∧
    ((CloneAt s self).1.obj (CloneAt s self).2).currentPlayer = (s.obj self).currentPlayer ∧
    (∀ r c : Int, InBoard c r →
      cellAt ((CloneAt s self).1.obj (CloneAt s self).2) r c = cellAt (s.obj self) r c) ∧
    (∀ n, n < s.next → (CloneAt s self).1.obj n = s.obj n) ∧
    (PlacePieceAt (CloneAt s self).1 (CloneAt s self).2 x y).obj self = s.obj self ∧
    (PlacePieceAt (CloneAt s self).1 (CloneAt s self).2 x y).obj (CloneAt s self).2 =
      PlacePiece (s.obj self) x y ∧
    (PlacePieceAt (CloneAt s self).1 self x y).obj (CloneAt s self).2 = s.obj self ∧
    (PlacePieceAt (CloneAt s self).1 self x y).obj self = PlacePiece (s.obj self) x y := by
  obtain ⟨h1, h2, h3⟩ := CloneAt_spec s self hself
  have hne : self ≠ s.next := Nat.ne_of_lt hself
  have hobj_self : (CloneAt s self).1.obj self = s.obj self := h3 self hne
  rw [h1, h2, Clone_eq]
  refine ⟨fun e => hne e.symm, rfl, rfl, rfl, fun _ _ _ => rfl,
    fun n hn => h3 n (Nat.ne_of_lt hn), ?_, ?_, ?_, ?_⟩
  · unfold PlacePieceAt
    rw [Store.put_obj, if_neg hne, hobj_self]
  · unfold PlacePieceAt
    rw [Store.put_obj, if_pos rfl, h2, Clone_eq]
  · unfold PlacePieceAt
    rw [Store.put_obj, if_neg (fun e => hne e.symm), h2, Clone_eq]
  · unfold PlacePieceAt
    rw [Store.put_obj, if_pos rfl, hobj_self]

theorem CloneAt_independent_witness :
    (0 < oneBoardStore.next ∧ InBoard 3 2 ∧ oneBoardStore.obj 0 = initialBoard) ∧
    (CloneAt oneBoardStore 0).2 ≠ 0 ∧
    (PlacePieceAt (CloneAt oneBoardStore 0).1 (CloneAt oneBoardStore 0).2 3 2).obj 0 =
      initialBoard ∧
    (PlacePieceAt (CloneAt oneBoardStore 0).1 (CloneAt oneBoardStore 0).2 3 2).obj
      (CloneAt oneBoardStore 0).2 = PlacePiece initialBoard 3 2 ∧
    cellAt initialBoard 2 3 = Cell.EMPTY ∧
    cellAt (PlacePiece initialBoard 3 2) 2 3 = Cell.Black_Disc :=
  have h := CloneAt_independent oneBoardStore 0 3 2 (by decide) (by decide)
  ⟨⟨by decide, by decide, rfl⟩, h.1, h.2.2.2.2.2.2.1, h.2.2.2.2.2.2.2.1, by decide, by decide⟩

end Othello
